import Mathlib

/-!
# SortMeRNA: bit-vector window tables, persistence blobs, reads statistics, references

A shallow embedding of

* `src/sortmerna/bitvector.cpp`  (`init_win_f`, `init_win_r`, `offset_win_k1`),
* `include/ssw.hpp`              (`s_align2`),
* `src/sortmerna/readstats.cpp`  (`Readstats::toBstring`, `Readstats::restoreFromDb`,
  `Readstats::calculate`, `Readstats::calcSuffix`),
* `src/sortmerna/references.cpp` (`References::load`, `convert_fix`, `findref`),
* `include/traverse_bursttrie.hpp` (`id_win`),
* `src/sortmerna/util.cpp`       (`trim_leading_dashes`, `to_lower`),

followed by theorems about them.

Conventions of the embedding.

* The bit-vector tables live in a flat byte memory `Mem`: an address (an `Int`) is mapped to
  the `UCHAR` stored there.  Pointers are addresses, pointer arithmetic is integer arithmetic.
  Every store truncates to 8 bits (`% 256`), as an assignment to an `unsigned char` does.
* The read lives in a separate character memory `CharMem` (the functions never write to it);
  a `char` is its signed value.
* `numbvs` is an `int` in the source; it is a `Nat` here (a negative count runs no loop
  iteration, exactly like `0`).
* Binary strings (`std::string` used as a byte buffer) are lists of bytes, a byte being a
  `Nat` below 256.  The host is little-endian with an 8-byte `size_t`.
-/

namespace Sortmerna

/-! ## Part 1. Definitions -/

/-! ### bitvector.cpp -/

/-- Byte memory of the bit-vector tables: address to `UCHAR` value. -/
abbrev Mem := Int → Nat

/-- Character memory of the read: address to `char` value. -/
abbrev CharMem := Int → Int

/-- Assignment `*a = v` to an `unsigned char` cell. -/
def store (m : Mem) (a : Int) (v : Nat) : Mem :=
  fun x => if x = a then v % 256 else m x

/-- Constant `UCHAR mask_4 = 15`. -/
def mask_4 : Nat := 15

/-- Constant `UCHAR mask_3 = 7`. -/
def mask_3 : Nat := 7

/-- Constant `#define MSB4 (UCHAR)4`. -/
def MSB4 : Nat := 4

/-- Constant `#define MSB8 (UCHAR)8`. -/
def MSB8 : Nat := 8

/-- Local variables of `init_win_f` / `init_win_r` while the main loop runs. -/
structure InitSt where
  mem : Mem
  ptr : Int
  setbit : Int
  win_ptr1 : Int
  win_ptr2 : Int

/-- The first loop of `init_win_f`: `for (bitn = 2; bitn >= 0; bitn--) *(reset+*ptrf++) |= (1<<bitn);`.
The first argument is `bitn + 1`. -/
def init_f_stamp (rd : CharMem) (reset : Int) : Nat → Int → Mem → Int × Mem
  | 0, ptrf, m => (ptrf, m)
  | bitn + 1, ptrf, m =>
      let a := reset + rd ptrf
      init_f_stamp rd reset bitn (ptrf + 1) (store m a (m a ||| (1 <<< bitn)))

/-- Body of the main loop of `init_win_f` for loop index `i`. -/
def init_f_step (rd : CharMem) (i : Nat) (s : InitSt) : InitSt :=
  -- *win_ptr2 = (*win_ptr1++)<<1;
  let m1 := store s.mem s.win_ptr2 (s.mem s.win_ptr1 <<< 1)
  let wp1 := s.win_ptr1 + 1
  -- *win_ptr2++ &= mask_4;
  let m2 := store m1 s.win_ptr2 (m1 s.win_ptr2 &&& mask_4)
  let wp2 := s.win_ptr2 + 1
  -- if ( !(i&3) )
  if i &&& 3 = 0 then
    -- *(setbit+*ptrf++) |= 1;  setbit = win_ptr2;
    let a := s.setbit + rd s.ptr
    { mem := store m2 a (m2 a ||| 1), ptr := s.ptr + 1, setbit := wp2,
      win_ptr1 := wp1, win_ptr2 := wp2 }
  else
    { mem := m2, ptr := s.ptr, setbit := s.setbit, win_ptr1 := wp1, win_ptr2 := wp2 }

/-- Main loop of `init_win_f`: `n` iterations remain, the next one has index `i`. -/
def init_f_loop (rd : CharMem) : Nat → Nat → InitSt → InitSt
  | 0, _, s => s
  | n + 1, i, s => init_f_loop rd n (i + 1) (init_f_step rd i s)

/-- Function `init_win_f (char* ptrf, UCHAR* bittable_000, UCHAR* bittable_010, int numbvs)`;
returns the memory it leaves. -/
def init_win_f (rd : CharMem) (ptrf : Int) (bittable_000 bittable_010 : Int) (numbvs : Nat)
    (mem : Mem) : Mem :=
  let r := init_f_stamp rd bittable_000 3 ptrf mem
  (init_f_loop rd numbvs 1
    { mem := r.2, ptr := r.1, setbit := bittable_010,
      win_ptr1 := bittable_000, win_ptr2 := bittable_010 }).mem

/-- The first loop of `init_win_r`: `for (bitn = 2; bitn >= 0; bitn--) *(reset+*ptrr--) |= (1<<bitn);`.
The first argument is `bitn + 1`. -/
def init_r_stamp (rd : CharMem) (reset : Int) : Nat → Int → Mem → Int × Mem
  | 0, ptrr, m => (ptrr, m)
  | bitn + 1, ptrr, m =>
      let a := reset + rd ptrr
      init_r_stamp rd reset bitn (ptrr - 1) (store m a (m a ||| (1 <<< bitn)))

/-- Body of the main loop of `init_win_r` for loop index `i`. -/
def init_r_step (rd : CharMem) (i : Nat) (s : InitSt) : InitSt :=
  -- *win_ptr2 = (*win_ptr1++)<<1;
  let m1 := store s.mem s.win_ptr2 (s.mem s.win_ptr1 <<< 1)
  let wp1 := s.win_ptr1 + 1
  -- *win_ptr2++ &= mask_4;
  let m2 := store m1 s.win_ptr2 (m1 s.win_ptr2 &&& mask_4)
  let wp2 := s.win_ptr2 + 1
  -- if ( !(i&3) )
  if i &&& 3 = 0 then
    -- *(setbit+*ptrr--) |= 1;  setbit = win_ptr2;
    let a := s.setbit + rd s.ptr
    { mem := store m2 a (m2 a ||| 1), ptr := s.ptr - 1, setbit := wp2,
      win_ptr1 := wp1, win_ptr2 := wp2 }
  else
    { mem := m2, ptr := s.ptr, setbit := s.setbit, win_ptr1 := wp1, win_ptr2 := wp2 }

/-- Main loop of `init_win_r`: `n` iterations remain, the next one has index `i`. -/
def init_r_loop (rd : CharMem) : Nat → Nat → InitSt → InitSt
  | 0, _, s => s
  | n + 1, i, s => init_r_loop rd n (i + 1) (init_r_step rd i s)

/-- Function `init_win_r (char* ptrr, UCHAR* bittable_000, UCHAR* bittable_010, int numbvs)`;
returns the memory it leaves. -/
def init_win_r (rd : CharMem) (ptrr : Int) (bittable_000 bittable_010 : Int) (numbvs : Nat)
    (mem : Mem) : Mem :=
  let r := init_r_stamp rd bittable_000 3 ptrr mem
  (init_r_loop rd numbvs 1
    { mem := r.2, ptr := r.1, setbit := bittable_010,
      win_ptr1 := bittable_000, win_ptr2 := bittable_010 }).mem

/-- Loop `for (i = 0; i < numbvs; i++) *--win_ptr2 = *--win_ptr1;` of `offset_win_k1`
(`n` iterations remain); returns `(win_ptr1, win_ptr2, memory)`. -/
def rev_copy : Nat → Int → Int → Mem → Int × Int × Mem
  | 0, win_ptr1, win_ptr2, m => (win_ptr1, win_ptr2, m)
  | n + 1, win_ptr1, win_ptr2, m =>
      rev_copy n (win_ptr1 - 1) (win_ptr2 - 1) (store m (win_ptr2 - 1) (m (win_ptr1 - 1)))

/-- Loop `for (i = 4; i > 0; --i) *win_ptr1++ >>= 1;` of `offset_win_k1`
(`n` iterations remain); returns `(win_ptr1, memory)`. -/
def shr_loop : Nat → Int → Mem → Int × Mem
  | 0, win_ptr1, m => (win_ptr1, m)
  | n + 1, win_ptr1, m => shr_loop n (win_ptr1 + 1) (store m win_ptr1 (m win_ptr1 >>> 1))

/-- Loop `for (j = 0; j < numbvs; j++) *win_ptr1++ = *win_ptr2++;` of `offset_win_k1`
(`n` iterations remain); returns `(win_ptr1, win_ptr2, memory)`. -/
def fwd_copy : Nat → Int → Int → Mem → Int × Int × Mem
  | 0, win_ptr1, win_ptr2, m => (win_ptr1, win_ptr2, m)
  | n + 1, win_ptr1, win_ptr2, m =>
      fwd_copy n (win_ptr1 + 1) (win_ptr2 + 1) (store m win_ptr1 (m win_ptr2))

/-- Loop `for (j = 4; j > 0; --j) *win_ptr2++&=mask_3;` of `offset_win_k1`
(`n` iterations remain); returns `(win_ptr2, memory)`. -/
def mask_loop : Nat → Int → Mem → Int × Mem
  | 0, win_ptr2, m => (win_ptr2, m)
  | n + 1, win_ptr2, m => mask_loop n (win_ptr2 + 1) (store m win_ptr2 (m win_ptr2 &&& mask_3))

/-- Loop `for (j = 4; j > 0; --j) (*win_ptr1++<<=1)&=15;` of `offset_win_k1`
(`n` iterations remain); returns `(win_ptr1, memory)`. -/
def shl_loop : Nat → Int → Mem → Int × Mem
  | 0, win_ptr1, m => (win_ptr1, m)
  | n + 1, win_ptr1, m =>
      let m1 := store m win_ptr1 (m win_ptr1 <<< 1)
      shl_loop n (win_ptr1 + 1) (store m1 win_ptr1 (m1 win_ptr1 &&& 15))

/-- The `[w_1] reverse` half of `offset_win_k1` (source lines 149 to 170). -/
def offset_rev (rd : CharMem) (RW1 : Int) (bittable_0P0 bittable_100 : Int) (numbvs : Nat)
    (mem : Mem) : Mem :=
  let c := rev_copy numbvs bittable_0P0 bittable_100 mem
  let win_ptr1 := c.1
  let win_ptr2 := c.2.1
  -- UCHAR *setbit = win_ptr1;
  let setbit := win_ptr1
  let s := shr_loop 4 win_ptr1 c.2.2
  -- *(setbit+*RW1) |= MSB4;
  let m1 := store s.2 (setbit + rd RW1) (s.2 (setbit + rd RW1) ||| MSB4)
  -- *(win_ptr2+*RW1) |= MSB8;
  store m1 (win_ptr2 + rd RW1) (m1 (win_ptr2 + rd RW1) ||| MSB8)

/-- The `[w_2] forward` half of `offset_win_k1` (source lines 173 to 199). -/
def offset_fwd (rd : CharMem) (FW2 : Int) (bittable_100 bittable_110 : Int) (numbvs : Nat)
    (mem : Mem) : Mem :=
  let c := fwd_copy numbvs bittable_100 bittable_110 mem
  let win_ptr1 := c.1
  -- win_ptr2 = bittable_100;
  let k := mask_loop 4 bittable_100 c.2.2
  -- setbit = win_ptr1;
  let setbit := win_ptr1
  let s := shl_loop 4 win_ptr1 k.2
  -- *(setbit+*FW2) |= 1;
  store s.2 (setbit + rd FW2) (s.2 (setbit + rd FW2) ||| 1)

/-- Function `offset_win_k1 (char *FW2, char *RW1, UCHAR* bittable_0P0, UCHAR* bittable_100,
UCHAR* bittable_110, int numbvs)`; returns the memory it leaves. -/
def offset_win_k1 (rd : CharMem) (FW2 RW1 : Int) (bittable_0P0 bittable_100 bittable_110 : Int)
    (numbvs : Nat) (mem : Mem) : Mem :=
  offset_fwd rd FW2 bittable_100 bittable_110 numbvs
    (offset_rev rd RW1 bittable_0P0 bittable_100 numbvs mem)

/-- Calls `offset_win_k1` `k` times on the same tables; the `j`-th call (`j = 1..k`) gets
`FW2 = fw j` and `RW1 = rw j`. -/
def offset_times (rd : CharMem) (fw rw : Nat → Int) (bittable_0P0 bittable_100 bittable_110 : Int)
    (numbvs : Nat) : Nat → Mem → Mem
  | 0, m => m
  | k + 1, m =>
      offset_win_k1 rd (fw (k + 1)) (rw (k + 1)) bittable_0P0 bittable_100 bittable_110 numbvs
        (offset_times rd fw rw bittable_0P0 bittable_100 bittable_110 numbvs k m)

/-- Character memory holding the sequence `R` from address `0` on (zero elsewhere). -/
def readMem (R : List Nat) : CharMem :=
  fun a => if 0 ≤ a then ((R.getD a.toNat 0 : Nat) : Int) else 0

/-- The character memory `rd` holds the sequence `R` from address `base` on; the cells
outside `R` are not constrained. -/
def HoldsRead (rd : CharMem) (base : Int) (R : List Nat) : Prop :=
  ∀ i : Nat, i < R.length → rd (base + i) = ((R.getD i 0 : Nat) : Int)

/-- The `len` table cells from address `base` on are zero. -/
def Zeroed (m : Mem) (base : Int) (len : Nat) : Prop :=
  ∀ o : Nat, o < len → m (base + o) = 0

/-- All-zero byte memory. -/
def zeroMem : Mem := fun _ => 0

/-! ### Closed form of the tables (specification side) -/

/-- Closed form of one bit of the initial table of a pattern `p` (in reading order): bit `b`
of the entry of nucleotide `c` at depth `d` is set exactly when `b ≤ 3`, `d + 2 - b ≥ 0` and
`p[d+2-b] = c`. -/
def specBit (p : Nat → Int) (d c b : Nat) : Bool :=
  decide (b ≤ 3 ∧ b ≤ d + 2 ∧ p (d + 2 - b) = (c : Int))

/-- The table of `q + 1` depths at `base` in memory `m` is the closed form of pattern `p`. -/
def TableIs (m : Mem) (base : Int) (q : Nat) (p : Nat → Int) : Prop :=
  ∀ d c b : Nat, d ≤ q → c < 4 → (m (base + ((4 * d + c : Nat) : Int))).testBit b = specBit p d c b

/-- Invariant of the main loop of `init_win_f` after `i` iterations, for a table at `base`
(with `bittable_010 = base + 4`) and the pattern read from `ptr0` on: all depths up to `i/4`
are in closed form, and the `i % 4` entries already written at depth `i/4 + 1` are the shifted
entries of the depth above, whose least significant bit is still to be set. -/
structure InitInv (rd : CharMem) (ptr0 base : Int) (i : Nat) (s : InitSt) : Prop where
  wp1 : s.win_ptr1 = base + (i : Int)
  wp2 : s.win_ptr2 = base + 4 + (i : Int)
  sb : s.setbit = base + 4 + ((4 * (i / 4) : Nat) : Int)
  pt : s.ptr = ptr0 + 3 + ((i / 4 : Nat) : Int)
  full : ∀ d c b : Nat, d ≤ i / 4 → c < 4 →
    (s.mem (base + ((4 * d + c : Nat) : Int))).testBit b
      = specBit (fun j => rd (ptr0 + (j : Int))) d c b
  part : ∀ c b : Nat, c < i % 4 →
    (s.mem (base + ((4 * (i / 4 + 1) + c : Nat) : Int))).testBit b
      = (decide (1 ≤ b) && specBit (fun j => rd (ptr0 + (j : Int))) (i / 4 + 1) c b)

/-- A read over `{0,1,2,3}` used as a concrete input. -/
def exRead : List Nat := [0, 1, 2, 3, 0]

/-- Bit-width predicate of a table of `numbvs + 4` entries at `base`: every entry is at most
15 and every depth-0 entry is at most 7. -/
def WidthInv (m : Mem) (base : Int) (numbvs : Nat) : Prop :=
  (∀ o : Nat, o < numbvs + 4 → m (base + (o : Int)) ≤ 15) ∧
  (∀ c : Nat, c < 4 → m (base + (c : Int)) ≤ 7)

/-! ### Binary strings -/

/-- Object representation of an unsigned integer object of `w` bytes holding `v` on the
little-endian host: its `w` bytes, least significant first. -/
def leBytes : Nat → Nat → List Nat
  | 0, _ => []
  | w + 1, v => (v % 256) :: leBytes w (v / 256)

/-- Value of an unsigned integer object whose bytes are `bs` (least significant first). -/
def leValue : List Nat → Nat
  | [] => 0
  | b :: bs => b + 256 * leValue bs

/-- Object representation of an `int32_t` (two's complement). -/
def int32Bytes (x : Int) : List Nat := leBytes 4 (x % 4294967296).toNat

/-- Value of an `int32_t` whose bytes are `bs`. -/
def int32Value (bs : List Nat) : Int :=
  if leValue bs < 2147483648 then (leValue bs : Int) else (leValue bs : Int) - 4294967296

/-- Object representation of a `bool`: one byte, `0` or `1`. -/
def boolBytes (b : Bool) : List Nat := [if b then 1 else 0]

/-- Value of a `bool` whose byte has been overwritten with `bs`: `0` is `false`, any other
byte reads as `true` (the serialisers only ever produce `0` and `1`). -/
def boolValue (bs : List Nat) : Bool := leValue bs != 0

/-- Object representation of the data of a `std::vector` of `w`-byte unsigned words. -/
def wordsBytes (w : Nat) : List Nat → List Nat
  | [] => []
  | c :: cs => leBytes w c ++ wordsBytes w cs

/-- Call `std::copy_n(beginIt, n, std::back_inserter(buf))` where `beginIt` points at the
first byte of an object whose representation is `obj`: the first `n` bytes are appended. -/
def copy_n (obj : List Nat) (n : Nat) (buf : List Nat) : List Nat := buf ++ obj.take n

/-- The `n` bytes that `std::memcpy(dst, bstr.data() + offset, n)` copies.  Reading behind
the end of the string is undefined in the source; the model reads nothing there, which the
integer decoders take as zero bytes. -/
def memcpyFrom (bstr : List Nat) (offset n : Nat) : List Nat := (bstr.drop offset).take n

/-- Call `std::memcpy(v.data(), bstr.data() + offset, n * w)` into a vector of `n` words of
`w` bytes: the words the vector holds afterwards. -/
def memcpyWords (w : Nat) (bstr : List Nat) : Nat → Nat → List Nat
  | 0, _ => []
  | n + 1, offset => leValue (memcpyFrom bstr offset w) :: memcpyWords w bstr n (offset + w)

/-! ### ssw.hpp -/

/-- Structure `s_align2`: `cigar` is a `std::vector<uint32_t>`, `ref_num` and `readlen` are
`uint32_t`, the four coordinates `int32_t`, `score1`, `part`, `index_num` are `uint16_t`. -/
structure s_align2 where
  cigar : List Nat
  ref_num : Nat
  ref_begin1 : Int
  ref_end1 : Int
  read_begin1 : Int
  read_end1 : Int
  readlen : Nat
  score1 : Nat
  part : Nat
  index_num : Nat
  strand : Bool

/-- The fields of an `s_align2` hold values of their C++ types. -/
def s_align2.WellTyped (x : s_align2) : Prop :=
  (∀ c ∈ x.cigar, c < 4294967296) ∧ x.cigar.length < 18446744073709551616 ∧
  x.ref_num < 4294967296 ∧
  (-2147483648 ≤ x.ref_begin1 ∧ x.ref_begin1 < 2147483648) ∧
  (-2147483648 ≤ x.ref_end1 ∧ x.ref_end1 < 2147483648) ∧
  (-2147483648 ≤ x.read_begin1 ∧ x.read_begin1 < 2147483648) ∧
  (-2147483648 ≤ x.read_end1 ∧ x.read_end1 < 2147483648) ∧
  x.readlen < 4294967296 ∧ x.score1 < 65536 ∧ x.part < 65536 ∧ x.index_num < 65536

/-- Constructor `s_align2(std::string bstr)`: construct from binary string. -/
def s_align2.from_bstr (bstr : List Nat) : s_align2 :=
  let offset := 0
  -- std::memcpy(&len, bstr.data(), sizeof(len));
  let len := leValue (memcpyFrom bstr 0 8)
  let offset := offset + 8
  -- cigar.assign(len, 0); std::memcpy(cigar.data(), bstr.data() + offset, len * sizeof(uint32_t));
  let cigar := memcpyWords 4 bstr len offset
  let offset := offset + len * 4
  let ref_num := leValue (memcpyFrom bstr offset 4)
  let offset := offset + 4
  let ref_begin1 := int32Value (memcpyFrom bstr offset 4)
  let offset := offset + 4
  let ref_end1 := int32Value (memcpyFrom bstr offset 4)
  let offset := offset + 4
  let read_begin1 := int32Value (memcpyFrom bstr offset 4)
  let offset := offset + 4
  let read_end1 := int32Value (memcpyFrom bstr offset 4)
  let offset := offset + 4
  let readlen := leValue (memcpyFrom bstr offset 4)
  let offset := offset + 4
  let score1 := leValue (memcpyFrom bstr offset 2)
  let offset := offset + 2
  let part := leValue (memcpyFrom bstr offset 2)
  let offset := offset + 2
  let index_num := leValue (memcpyFrom bstr offset 2)
  let offset := offset + 2
  let strand := boolValue (memcpyFrom bstr offset 1)
  { cigar := cigar, ref_num := ref_num, ref_begin1 := ref_begin1, ref_end1 := ref_end1,
    read_begin1 := read_begin1, read_end1 := read_end1, readlen := readlen, score1 := score1,
    part := part, index_num := index_num, strand := strand }

/-- Method `s_align2::toString`: convert to binary string. -/
def s_align2.toString (x : s_align2) : List Nat :=
  let buf : List Nat := []
  -- size_t cigarlen = cigar.size();
  let cigarlen := x.cigar.length
  let buf := copy_n (leBytes 8 cigarlen) 8 buf
  -- std::copy_n(beginIt, cigarlen * sizeof(cigar[0]), std::back_inserter(buf));
  let buf := copy_n (wordsBytes 4 x.cigar) (cigarlen * 4) buf
  let buf := copy_n (leBytes 4 x.ref_num) 4 buf
  let buf := copy_n (int32Bytes x.ref_begin1) 4 buf
  let buf := copy_n (int32Bytes x.ref_end1) 4 buf
  let buf := copy_n (int32Bytes x.read_begin1) 4 buf
  let buf := copy_n (int32Bytes x.read_end1) 4 buf
  let buf := copy_n (leBytes 4 x.readlen) 4 buf
  let buf := copy_n (leBytes 2 x.score1) 2 buf
  let buf := copy_n (leBytes 2 x.part) 2 buf
  let buf := copy_n (leBytes 2 x.index_num) 2 buf
  let buf := copy_n (boolBytes x.strand) 1 buf
  buf

/-- Operator `s_align2::operator==`. -/
def s_align2.op_eq (x other : s_align2) : Bool :=
  other.cigar == x.cigar &&
  other.ref_num == x.ref_num &&
  other.ref_begin1 == x.ref_begin1 &&
  other.ref_end1 == x.ref_end1 &&
  other.read_begin1 == x.read_begin1 &&
  other.read_end1 == x.read_end1 &&
  other.readlen == x.readlen &&
  other.score1 == x.score1 &&
  other.part == x.part &&
  other.index_num == x.index_num &&
  other.strand == x.strand

/-- An alignment used as a concrete input. -/
def exAlign : s_align2 :=
  { cigar := [16, 4294967295], ref_num := 7, ref_begin1 := -1, ref_end1 := 300,
    read_begin1 := 0, read_end1 := 99, readlen := 100, score1 := 65535, part := 1,
    index_num := 2, strand := true }

/-! ### readstats.hpp, readstats.cpp -/

/-- Structure `Readstats`.  The `std::atomic<uint32_t>` and `std::atomic<uint64_t>` members
are their plain values (4 and 8 bytes); `reads_matched_per_db` is a `std::vector<uint64_t>`. -/
structure Readstats where
  dbkey : String
  suffix : String
  min_read_len : Nat
  max_read_len : Nat
  total_reads_aligned : Nat
  total_mapped_sw_id_cov : Nat
  short_reads_num : Nat
  all_reads_count : Nat
  all_reads_len : Nat
  total_reads_denovo_clustering : Nat
  reads_matched_per_db : List Nat
  otu_map : List (String × List String)
  is_stats_calc : Bool
  is_total_mapped_sw_id_cov : Bool

/-- The fields of a `Readstats` hold values of their C++ types. -/
def Readstats.WellTyped (s : Readstats) : Prop :=
  s.min_read_len < 4294967296 ∧ s.max_read_len < 4294967296 ∧
  s.total_reads_aligned < 18446744073709551616 ∧
  s.total_mapped_sw_id_cov < 18446744073709551616 ∧
  s.short_reads_num < 18446744073709551616 ∧
  s.all_reads_count < 18446744073709551616 ∧
  s.all_reads_len < 18446744073709551616 ∧
  s.total_reads_denovo_clustering < 18446744073709551616 ∧
  (∀ e ∈ s.reads_matched_per_db, e < 18446744073709551616) ∧
  s.reads_matched_per_db.length < 18446744073709551616

/-- Loop `for (auto entry: reads_matched_per_db) std::copy_n(&entry, sizeof(entry), ...)` of
`Readstats::toBstring`. -/
def toBstring_entries : List Nat → List Nat → List Nat
  | [], buf => buf
  | entry :: rest, buf => toBstring_entries rest (copy_n (leBytes 8 entry) 8 buf)

/-- Method `Readstats::toBstring`: put readstats data into binary string for storing in DB. -/
def Readstats.toBstring (s : Readstats) : List Nat :=
  let buf : List Nat := []
  let buf := copy_n (leBytes 4 s.min_read_len) 4 buf
  let buf := copy_n (leBytes 4 s.max_read_len) 4 buf
  -- auto val = total_reads_aligned.load();
  let val := s.total_reads_aligned
  let buf := copy_n (leBytes 8 val) 8 buf
  -- val = total_mapped_sw_id_cov.load();
  let val := s.total_mapped_sw_id_cov
  let buf := copy_n (leBytes 8 val) 8 buf
  let buf := copy_n (leBytes 8 s.short_reads_num) 8 buf
  let buf := copy_n (leBytes 8 s.all_reads_count) 8 buf
  let buf := copy_n (leBytes 8 s.all_reads_len) 8 buf
  let buf := copy_n (leBytes 8 s.total_reads_denovo_clustering) 8 buf
  -- size_t reads_matched_per_db_size = reads_matched_per_db.size();
  let reads_matched_per_db_size := s.reads_matched_per_db.length
  let buf := copy_n (leBytes 8 reads_matched_per_db_size) 8 buf
  let buf := toBstring_entries s.reads_matched_per_db buf
  let buf := copy_n (boolBytes s.is_stats_calc) 1 buf
  let buf := copy_n (boolBytes s.is_total_mapped_sw_id_cov) 1 buf
  buf

/-- Loop of `Readstats::restoreFromDb` over the elements of `reads_matched_per_db`:
`std::memcpy(&*it, bstr.data() + offset, sizeof(uint64_t)); offset += sizeof(uint64_t);`.
The first argument is the vector before the loop; the result is the vector after it and the
final offset. -/
def restore_entries (bstr : List Nat) : List Nat → Nat → List Nat × Nat
  | [], offset => ([], offset)
  | _ :: rest, offset =>
      let r := restore_entries bstr rest (offset + 8)
      (leValue (memcpyFrom bstr offset 8) :: r.1, r.2)

/-- Method `Readstats::restoreFromDb`; `kvdb_get` is `KeyValueDatabase::get` (its class is
declared elsewhere), mapping a key to the stored value, empty when there is none.  Returns
the `bool` result and the object state afterwards. -/
def Readstats.restoreFromDb (kvdb_get : String → List Nat) (s : Readstats) : Bool × Readstats :=
  let ret := false
  let offset := 0
  let bstr := kvdb_get s.dbkey
  if bstr.length > 0 then
    let min_read_len := leValue (memcpyFrom bstr offset 4)
    let offset := offset + 4
    let max_read_len := leValue (memcpyFrom bstr offset 4)
    let offset := offset + 4
    let total_reads_aligned := leValue (memcpyFrom bstr offset 8)
    let offset := offset + 8
    let total_mapped_sw_id_cov := leValue (memcpyFrom bstr offset 8)
    let offset := offset + 8
    let short_reads_num := leValue (memcpyFrom bstr offset 8)
    let offset := offset + 8
    let all_reads_count := leValue (memcpyFrom bstr offset 8)
    let offset := offset + 8
    let all_reads_len := leValue (memcpyFrom bstr offset 8)
    let offset := offset + 8
    let total_reads_denovo_clustering := leValue (memcpyFrom bstr offset 8)
    let offset := offset + 8
    let reads_matched_per_db_size := leValue (memcpyFrom bstr offset 8)
    let offset := offset + 8
    -- if (reads_matched_per_db_size == reads_matched_per_db.size()) { loop; ret = true; }
    -- else { WARN(...); ret = false; }
    let r : Bool × List Nat × Nat :=
      if reads_matched_per_db_size = s.reads_matched_per_db.length then
        let e := restore_entries bstr s.reads_matched_per_db offset
        (true, e.1, e.2)
      else
        (false, s.reads_matched_per_db, offset)
    let ret := r.1
    let reads_matched_per_db := r.2.1
    let offset := r.2.2
    let is_stats_calc := boolValue (memcpyFrom bstr offset 1)
    let offset := offset + 1
    let is_total_mapped_sw_id_cov := boolValue (memcpyFrom bstr offset 1)
    (ret, { s with
      min_read_len := min_read_len, max_read_len := max_read_len,
      total_reads_aligned := total_reads_aligned,
      total_mapped_sw_id_cov := total_mapped_sw_id_cov,
      short_reads_num := short_reads_num, all_reads_count := all_reads_count,
      all_reads_len := all_reads_len,
      total_reads_denovo_clustering := total_reads_denovo_clustering,
      reads_matched_per_db := reads_matched_per_db,
      is_stats_calc := is_stats_calc,
      is_total_mapped_sw_id_cov := is_total_mapped_sw_id_cov })
  else
    (ret, s)

/-- Method `Readstats::store_to_db`: `kvdb.put(dbkey, toBstring())`; the store afterwards. -/
def Readstats.store_to_db (kvdb_get : String → List Nat) (s : Readstats) : String → List Nat :=
  fun key => if key = s.dbkey then s.toBstring else kvdb_get key

/-- The bytes of `bs` from offset `off`, `n` of them. -/
def slice (bs : List Nat) (off n : Nat) : List Nat := (bs.drop off).take n

/-- A statistics record used as a concrete input. -/
def exStats : Readstats :=
  { dbkey := "k", suffix := "fasta", min_read_len := 50, max_read_len := 4294967295,
    total_reads_aligned := 3, total_mapped_sw_id_cov := 2, short_reads_num := 0,
    all_reads_count := 18446744073709551615, all_reads_len := 1000,
    total_reads_denovo_clustering := 1, reads_matched_per_db := [5, 256],
    otu_map := [], is_stats_calc := true, is_total_mapped_sw_id_cov := false }

/-- A record with two index files and no statistics yet, used as a concrete input. -/
def exFresh : Readstats :=
  { dbkey := "k", suffix := "", min_read_len := 30000, max_read_len := 0,
    total_reads_aligned := 0, total_mapped_sw_id_cov := 0, short_reads_num := 0,
    all_reads_count := 0, all_reads_len := 0, total_reads_denovo_clustering := 0,
    reads_matched_per_db := [0, 0], otu_map := [], is_stats_calc := false,
    is_total_mapped_sw_id_cov := false }

/-! ### Text strings

A `std::string` of text is the list of its bytes (`Nat` below 256), like the binary strings
above; a `char` is signed, so a byte `b ≥ 128` has the `int` value `b - 256`. -/

/-- Modelled from the spec: the constant `FASTA_HEADER_START` of `common.hpp` (not part of
the sources at hand), the character `'>'` that starts a FASTA header. -/
def FASTA_HEADER_START : Nat := 62

/-- Modelled from the spec: the constant `FASTQ_HEADER_START` of `common.hpp` (not part of
the sources at hand), the character `'@'` that starts a FASTQ header. -/
def FASTQ_HEADER_START : Nat := 64

/-- Function `std::isspace(ch, std::locale{})` in the default "C" locale: space, `\t`, `\n`,
`\v`, `\f`, `\r`. -/
def isspace (ch : Nat) : Bool := ch == 32 || (9 ≤ ch && ch ≤ 13)

/-- Statement `line.erase(std::find_if(line.rbegin(), line.rend(), not-isspace).base(),
line.end())`: right-trim whitespace. -/
def rtrim (line : List Nat) : List Nat := (line.reverse.dropWhile isspace).reverse

/-- Expression `line[0]` on a `std::string`: the first byte, `'\0'` on the empty string. -/
def front (line : List Nat) : Nat := line.headD 0

/-- Value `(int)ch` of a `char` holding the byte `b`. -/
def charInt (b : Nat) : Int := if b < 128 then (b : Int) else (b : Int) - 256

/-! ### references.cpp: convert_fix, findref -/

/-- Method `References::convert_fix`: convert sequence to numerical form and fix ambiguous
chars.  The table `nt_table` (declared in `common.hpp`, not part of the sources at hand) is a
parameter, indexed by the `int` the source uses. -/
def convert_fix (nt_table : Int → Nat) : List Nat → List Nat
  | [] => []
  | c :: rest =>
      -- if (*it != 32) *it = nt_table[(int)*it];
      (if c ≠ 32 then nt_table (charInt c) else c) :: convert_fix nt_table rest

/-- Enumeration `BIO_FORMAT` (the two members the loader uses). -/
inductive BIO_FORMAT where
  | FASTQ
  | FASTA
  deriving DecidableEq, Repr

/-- Modelled from the spec: the record type `References::BaseRecord` of `references.hpp` (not
part of the sources at hand), `BaseRecord { header, sequence (numeric), quality?, format, nid }`
together with the two members `id` and `isEmpty` that `References::load` uses. -/
structure BaseRecord where
  id : List Nat
  header : List Nat
  sequence : List Nat
  quality : List Nat
  format : BIO_FORMAT
  nid : Nat
  isEmpty : Bool
  deriving DecidableEq

/-- Modelled from the spec: a default-constructed `BaseRecord` (the constructor is not part
of the sources at hand), with empty strings and marked empty. It is the sample value for the
record that `References::load` starts from. -/
def BaseRecord.default : BaseRecord :=
  { id := [], header := [], sequence := [], quality := [], format := BIO_FORMAT.FASTA,
    nid := 0, isEmpty := true }

/-- Modelled from the spec: method `BaseRecord::clear` (not part of the sources at hand),
taken to empty the strings of the record and to mark it empty. It is the sample value for the
`clear` that `References::load` calls. -/
def BaseRecord.clear (rec : BaseRecord) : BaseRecord :=
  { rec with id := [], header := [], sequence := [], quality := [], isEmpty := true }

/-- Loop of `std::string::find(id)` over the start positions: the first position, counted
from `pos`, at which `id` occurs. -/
def str_find_from (id : List Nat) : List Nat → Nat → Option Nat
  | [], pos => if id = [] then some pos else none
  | c :: rest, pos =>
      if id.isPrefixOf (c :: rest) then some pos else str_find_from id rest (pos + 1)

/-- Call `header.find(id)`; `none` is `std::string::npos`. -/
def str_find (header id : List Nat) : Option Nat := str_find_from id header 0

/-- Conversion of an `unsigned` value to `int` (`retpos = i`). -/
def int_of_unsigned (i : Nat) : Int :=
  if i % 4294967296 < 2147483648 then ((i % 4294967296 : Nat) : Int)
  else ((i % 4294967296 : Nat) : Int) - 4294967296

/-- Loop of `References::findref` from index `i` on, over the records not yet visited. -/
def findref_loop (id : List Nat) : List BaseRecord → Nat → Int
  | [], _ => -1
  | r :: rest, i =>
      -- if (std::string::npos != buffer[i].header.find(id)) { retpos = i; break; }
      if (str_find r.header id).isSome then int_of_unsigned i else findref_loop id rest (i + 1)

/-- Method `References::findref`. -/
def findref (buffer : List BaseRecord) (id : List Nat) : Int := findref_loop id buffer 0

/-- The string `header` contains `id` as a substring. -/
def Contains (header id : List Nat) : Prop := ∃ pre post : List Nat, header = pre ++ id ++ post

/-! ### traverse_bursttrie.hpp: id_win -/

/-- Structure `id_win`: two `uint32_t`. -/
structure id_win where
  id : Nat
  win : Nat
  deriving DecidableEq

/-- Constructor `id_win(std::string str)`; `none` is `ERR(...); exit(1)`. -/
def id_win.from_str (str : List Nat) : Option id_win :=
  -- if (str.size() == sizeof(id) + sizeof(win))
  if str.length = 4 + 4 then
    some { id := leValue (memcpyFrom str 0 4), win := leValue (memcpyFrom str 4 4) }
  else
    none

/-- Method `id_win::toString`. -/
def id_win.toString (x : id_win) : List Nat :=
  let buf : List Nat := []
  let buf := copy_n (leBytes 4 x.id) 4 buf
  let buf := copy_n (leBytes 4 x.win) 4 buf
  buf

/-! ### readstats.cpp: calcSuffix (with `to_lower` of util.cpp)

File names are lists of characters here (`Readstats::suffix` is a `String`); positions are
`size_t` values, with `npos = 2^64 - 1` and arithmetic modulo `2^64`. -/

/-- Constant `std::string::npos` (`size_t(-1)`, 8-byte `size_t`). -/
def npos : Nat := 18446744073709551615

/-- Sum of two `size_t` values. -/
def size_add (a b : Nat) : Nat := (a + b) % 18446744073709551616

/-- Difference of two `size_t` values. -/
def size_sub (a b : Nat) : Nat :=
  (a % 18446744073709551616 + (18446744073709551616 - b % 18446744073709551616))
    % 18446744073709551616

/-- Backward scan of `std::string::rfind(ch, pos)`: the last index below `n` that holds `ch`,
`npos` if there is none. -/
def rfind_below (s : List Char) (ch : Char) : Nat → Nat
  | 0 => npos
  | n + 1 => if s[n]? = some ch then n else rfind_below s ch n

/-- Call `s.rfind(ch, pos)`: the last occurrence of `ch` at or before `pos` (`pos` at or
behind the end searches the whole string). -/
def rfind (s : List Char) (ch : Char) (pos : Nat) : Nat :=
  rfind_below s ch (min (pos + 1) s.length)

/-- Call `s.substr(pos, n)`; `none` is the `std::out_of_range` it throws when
`pos > s.size()`. -/
def substr (s : List Char) (pos n : Nat) : Option (List Char) :=
  if pos > s.length then none else some ((s.drop pos).take n)

/-- Function `to_lower` of util.cpp: `std::tolower` on every character ("C" locale). -/
def to_lower (val : List Char) : List Char := val.map Char.toLower

/-- Method `Readstats::calcSuffix`; `readfile0` is `opts.readfiles[0]`, `is_gz` is
`opts.is_gz`; `none` is an uncaught `std::out_of_range`. -/
def Readstats.calcSuffix (readfile0 : String) (is_gz : Bool) (s : Readstats) :
    Option Readstats :=
  -- size_t pos = opts.readfiles[0].rfind('.');
  let pos := rfind readfile0.data '.' npos
  -- std::string sfx = opts.readfiles[0].substr(pos + 1);
  match substr readfile0.data (size_add pos 1) npos with
  | none => none
  | some sfx =>
      let sfx_lower := to_lower sfx
      -- if (opts.is_gz && "gz" == sfx_lower)
      if is_gz = true ∧ ['g', 'z'] = sfx_lower then
        let pos2 := rfind readfile0.data '.' (size_sub pos 1)
        match substr readfile0.data (size_add pos2 1) (size_sub (size_sub pos pos2) 1) with
        | none => none
        | some sfx => some { s with suffix := String.mk sfx }
      else
        some { s with suffix := String.mk sfx }

/-! ### readstats.cpp: the constructor's initial values, calculate

A reads file is the list of lines that `Izlib::getline` (declared in `izlib.hpp`, not part of
the sources at hand) delivers before it returns `RL_END`; a read error (`RL_ERR`) does not
occur.  `none` stands for `exit(EXIT_FAILURE)`.  The line counters `count` (`int`) and
`tcount` (`uint64_t`) are unbounded here; the statistics wrap like their C++ types. -/

/-- Member initialisers of the constructor `Readstats::Readstats` (source lines 36 to 46);
`MAX_READ_LEN` is a constant of `common.hpp`, not part of the sources at hand, and
`n_indexfiles` is `opts.indexfiles.size()`. -/
def Readstats.fresh (MAX_READ_LEN : Nat) (dbkey : String) (n_indexfiles : Nat) : Readstats :=
  { dbkey := dbkey, suffix := "", min_read_len := MAX_READ_LEN, max_read_len := 0,
    total_reads_aligned := 0, total_mapped_sw_id_cov := 0, short_reads_num := 0,
    all_reads_count := 0, all_reads_len := 0, total_reads_denovo_clustering := 0,
    reads_matched_per_db := List.replicate n_indexfiles 0, otu_map := [],
    is_stats_calc := false, is_total_mapped_sw_id_cov := false }

/-- The block `if (!sequence.empty()) { ++all_reads_count; all_reads_len += sequence.length();
update min_read_len; update max_read_len; }` that `Readstats::calculate` runs at every header
line and at the end of the file. -/
def count_read (s : Readstats) (sequence : List Nat) : Readstats :=
  if sequence = [] then s
  else
    let s := { s with
      all_reads_count := (s.all_reads_count + 1) % 18446744073709551616,
      all_reads_len := (s.all_reads_len + sequence.length) % 18446744073709551616 }
    -- if (sequence.size() < min_read_len.load()) min_read_len = static_cast<uint32_t>(sequence.size());
    let s := if sequence.length < s.min_read_len
      then { s with min_read_len := sequence.length % 4294967296 } else s
    -- if (sequence.size() > max_read_len.load()) max_read_len = static_cast<uint32_t>(sequence.size());
    let s := if sequence.length > s.max_read_len
      then { s with max_read_len := sequence.length % 4294967296 } else s
    s

/-- Local variables of the line loop of `Readstats::calculate`, with the statistics. -/
structure CalcSt where
  count : Int
  tcount : Nat
  isFastq : Bool
  isFasta : Bool
  sequence : List Nat
  stats : Readstats

/-- One iteration of the line loop of `Readstats::calculate` for a line that `getline`
delivered, including the `++count` of the loop header. -/
def calculate_line (st : CalcSt) (line : List Nat) : Option CalcSt :=
  -- ++tcount;
  let tcount := st.tcount + 1
  if line = [] then
    -- --count; --tcount; continue;
    some { st with count := st.count - 1 + 1, tcount := tcount - 1 }
  else
    let line := rtrim line
    -- if (tcount == 1) { isFastq = ...; isFasta = ...; }
    let isFastq := if tcount = 1 then front line == FASTQ_HEADER_START else st.isFastq
    let isFasta := if tcount = 1 then front line == FASTA_HEADER_START else st.isFasta
    if tcount = 1 ∧ ¬ (isFasta = true ∨ isFastq = true) then none
    -- if (count == 4 && isFastq) { count = 0; if (line[0] != FASTQ_HEADER_START) exit }
    else if st.count = 4 ∧ isFastq = true ∧ front line ≠ FASTQ_HEADER_START then none
    else
      let count := if st.count = 4 ∧ isFastq = true then 0 else st.count
      if (isFasta = true ∧ front line = FASTA_HEADER_START) ∨ (count = 0 ∧ isFastq = true) then
        -- process previous sequence; count = 0; sequence.clear();
        some { count := 0 + 1, tcount := tcount, isFastq := isFastq, isFasta := isFasta,
               sequence := [], stats := count_read st.stats st.sequence }
      else if isFastq = true ∧ count > 3 then none
      else if isFastq = true ∧ (count = 3 ∨ front line = 43) then
        -- continue; // fastq.quality
        some { count := count + 1, tcount := tcount, isFastq := isFastq, isFasta := isFasta,
               sequence := st.sequence, stats := st.stats }
      else
        -- sequence += line;
        some { count := count + 1, tcount := tcount, isFastq := isFastq, isFasta := isFasta,
               sequence := st.sequence ++ line, stats := st.stats }

/-- The line loop of `Readstats::calculate` over the lines still to be read; at the end of
the file (`RL_END`) the last record is processed. -/
def calculate_loop : List (List Nat) → CalcSt → Option Readstats
  | [], st => some (count_read st.stats st.sequence)
  | line :: rest, st =>
      match calculate_line st line with
      | none => none
      | some st' => calculate_loop rest st'

/-- Body of the loop over the reads files of `Readstats::calculate`, for one file. -/
def calculate_file (lines : List (List Nat)) (s : Readstats) : Option Readstats :=
  calculate_loop lines
    { count := 0, tcount := 0, isFastq := false, isFasta := false, sequence := [], stats := s }

/-- Method `Readstats::calculate`; `readfiles` holds the lines of each file of
`opts.readfiles`. -/
def Readstats.calculate : List (List (List Nat)) → Readstats → Option Readstats
  | [], s => some s
  | file :: rest, s =>
      match calculate_file file s with
      | none => none
      | some s' => Readstats.calculate rest s'

/-! ### Reads files (specification side) -/

/-- Lines of a FASTA reads file: empty lines, then for every record its header line followed
by its other lines (sequence lines, possibly empty lines). -/
def fastaLines (pre : List (List Nat)) (recs : List (List Nat × List (List Nat))) :
    List (List Nat) :=
  pre ++ recs.flatMap (fun r => r.1 :: r.2)

/-- The read of a FASTA record: its right-trimmed lines joined. -/
def fastaSeq (body : List (List Nat)) : List Nat := body.flatMap rtrim

/-- Conditions on a FASTA record: the header starts with `'>'`, no other line does, and the
sequence is not empty. -/
def FastaRec (r : List Nat × List (List Nat)) : Prop :=
  front r.1 = 62 ∧ (∀ l ∈ r.2, front l ≠ 62) ∧ fastaSeq r.2 ≠ []

/-- A FASTQ record: header, sequence, separator and quality line. -/
structure FastqRec where
  header : List Nat
  seq : List Nat
  plus : List Nat
  qual : List Nat

/-- Conditions on a FASTQ record of four non-empty lines: the header starts with `'@'`, the
sequence line is not blank and does not start with `'+'` (as every line of nucleotides), the
separator starts with `'+'`, the quality line is any non-empty line. -/
def FastqRec.Ok (r : FastqRec) : Prop :=
  front r.header = 64 ∧ rtrim r.seq ≠ [] ∧ front r.seq ≠ 43 ∧ front r.plus = 43 ∧ r.qual ≠ []

/-- Lines of a FASTQ reads file. -/
def fastqLines (recs : List FastqRec) : List (List Nat) :=
  recs.flatMap (fun r => [r.header, r.seq, r.plus, r.qual])

/-- The shortest of the lengths `lens`, capped by `cap`. -/
def minLen (cap : Nat) (lens : List Nat) : Nat := lens.foldl min cap

/-- The longest of the lengths `lens` (0 when there is none). -/
def maxLen (lens : List Nat) : Nat := lens.foldl max 0

/-- The line loop of `Readstats::calculate` is at the start of the file or inside a FASTA
file. -/
def FastaMode (st : CalcSt) : Prop :=
  st.tcount = 0 ∨ (st.isFasta = true ∧ st.isFastq = false ∧ 1 ≤ st.tcount)

/-- The line loop of `Readstats::calculate` is at the start of the file or has just read the
fourth line of a record of a FASTQ file. -/
def FastqStart (st : CalcSt) : Prop :=
  (st.tcount = 0 ∧ st.count = 0) ∨
  (st.isFastq = true ∧ st.isFasta = false ∧ st.count = 4 ∧ 1 ≤ st.tcount)

instance FastaRec.decidable (r : List Nat × List (List Nat)) : Decidable (FastaRec r) := by
  unfold FastaRec
  infer_instance

instance FastqRec.Ok.decidable (r : FastqRec) : Decidable r.Ok := by
  unfold FastqRec.Ok
  infer_instance

/-- The line loop of `Readstats::calculate` is inside a FASTQ file, `c` lines into the
current record. -/
def FastqAt (st : CalcSt) (c : Nat) : Prop :=
  st.isFastq = true ∧ st.isFasta = false ∧ st.count = (c : Int) ∧ 1 ≤ st.tcount

/-- The non-empty lines of a file, in order. -/
def nonEmptyLines (lines : List (List Nat)) : List (List Nat) :=
  lines.filter (fun l => decide (l ≠ []))

/-! ### `References::load` (references.cpp)

The reference file from `start_part` on is given by its segments between the newline
bytes, which is what successive `std::getline` calls deliver; the last segment is the one
that ends at the end of the file, and reading it sets `eofbit`. `exit(EXIT_FAILURE)` is the
outcome `none`. The record type and its members `getId` and `clear` belong to
`references.hpp`, which is not among the sources: `getId` and `clear` are parameters, as is
the default-constructed record `rec0`; the variable `rec` is the field `rec_`. The line
counter `count` (an `int`) is unbounded. -/

/-- Local variables of `References::load` together with the stream `ifs` (segments still to
be read, `eofbit`) and the member `buffer`. -/
structure LoadSt where
  ifs : List (List Nat)
  eof : Bool
  line : List Nat
  rec_ : BaseRecord
  isFastq : Bool
  lastRec : Bool
  count : Int
  num_seq_read : Nat
  buffer : List BaseRecord

/-- Models `std::getline(ifs, line)`: on a stream whose `eofbit` is set nothing is extracted
and `line` keeps its value; otherwise the next segment replaces `line`, and `eofbit` is set
when that segment is the last one. -/
def getline (st : LoadSt) : LoadSt :=
  if st.eof = true then st
  else
    match st.ifs with
    | [] => { st with line := [], eof := true }
    | seg :: rest => { st with line := seg, ifs := rest, eof := rest.isEmpty }

/-- Result of one iteration of the loop of `References::load`: the loop goes on, the loop is
left (by `break` or by its condition) with the final `buffer`, or the program exits. -/
inductive LoadStep where
  | next (st : LoadSt)
  | done (buffer : List BaseRecord)
  | exit

/-- The statements `rec.id = rec.getId(); rec.nid = num_seq_read; buffer.push_back(rec);` of
`References::load`: the record as it is pushed. -/
def pushed (getId : BaseRecord → List Nat) (rec : BaseRecord) (num_seq_read : Nat) :
    BaseRecord :=
  { rec with id := getId rec, nid := num_seq_read }

/-- One iteration of the loop `for (int count = 0; num_seq_read != numseq_part; )` of
`References::load`, its condition included. -/
def load_step (nt_table : Int → Nat) (getId : BaseRecord → List Nat)
    (clear : BaseRecord → BaseRecord) (numseq_part : Nat) (st : LoadSt) : LoadStep :=
  if st.num_seq_read = numseq_part then LoadStep.done st.buffer
  else
    -- if (!lastRec) std::getline(ifs, line);
    let st := if st.lastRec = false then getline st else st
    if st.line = [] ∧ st.lastRec = false then
      -- if (ifs.eof()) lastRec = true; continue;
      LoadStep.next { st with lastRec := st.eof }
    else if st.lastRec = true then
      -- if (!rec.isEmpty) { ...; buffer.push_back(rec); num_seq_read++; } break;
      if st.rec_.isEmpty = false then
        LoadStep.done (st.buffer ++ [pushed getId st.rec_ st.num_seq_read])
      else LoadStep.done st.buffer
    else
      let line := rtrim st.line
      if front line = FASTA_HEADER_START ∨ front line = FASTQ_HEADER_START then
        -- push record created before this current header
        let st := if st.rec_.isEmpty = false then
            { st with
              rec_ := { pushed getId st.rec_ st.num_seq_read with isEmpty := true },
              buffer := st.buffer ++ [pushed getId st.rec_ st.num_seq_read],
              num_seq_read := st.num_seq_read + 1,
              count := 0 }
          else st
        -- start new record
        let isFastq := front line == FASTQ_HEADER_START
        let rec_ := { clear st.rec_ with
          format := if isFastq = true then BIO_FORMAT.FASTQ else BIO_FORMAT.FASTA,
          header := line, isEmpty := false }
        -- if (ifs.eof()) lastRec = true;
        LoadStep.next { st with line := line, rec_ := rec_, isFastq := isFastq,
                                lastRec := st.eof }
      else if st.isFastq = true ∧ st.count > 3 then LoadStep.exit
      else
        let count := st.count + 1
        if st.isFastq = true ∧ front line = 43 then
          LoadStep.next { st with line := line, count := count }
        else if st.isFastq = true ∧ count = 3 then
          LoadStep.next { st with line := line, count := count,
                                  rec_ := { st.rec_ with quality := line } }
        else
          -- convert_fix(line); rec.sequence += line; if (ifs.eof()) lastRec = true;
          let line := convert_fix nt_table line
          LoadStep.next { st with line := line, count := count,
                                  rec_ := { st.rec_ with sequence := st.rec_.sequence ++ line },
                                  lastRec := st.eof }

/-- The loop of `References::load`, run for at most `fuel` iterations: `none` when the fuel
runs out, `some none` on `exit(EXIT_FAILURE)`, `some (some buffer)` when the loop is left. -/
def load_loop (nt_table : Int → Nat) (getId : BaseRecord → List Nat)
    (clear : BaseRecord → BaseRecord) (numseq_part : Nat) :
    Nat → LoadSt → Option (Option (List BaseRecord))
  | 0, _ => none
  | fuel + 1, st =>
      match load_step nt_table getId clear numseq_part st with
      | LoadStep.next st1 => load_loop nt_table getId clear numseq_part fuel st1
      | LoadStep.done buffer => some (some buffer)
      | LoadStep.exit => some none

/-- Method `References::load` on the segments of the reference file from `start_part` on,
with the member `buffer` as it is before the call; the file is taken to open and the seek
to succeed. -/
def References.load (nt_table : Int → Nat) (getId : BaseRecord → List Nat)
    (clear : BaseRecord → BaseRecord) (rec0 : BaseRecord) (numseq_part : Nat)
    (text : List (List Nat)) (buffer : List BaseRecord) (fuel : Nat) :
    Option (Option (List BaseRecord)) :=
  load_loop nt_table getId clear numseq_part fuel
    { ifs := text, eof := false, line := [], rec_ := rec0, isFastq := true, lastRec := false,
      count := 0, num_seq_read := 0, buffer := buffer }

/-! ### Reference files (specification side) -/

/-- Sequence of a FASTA reference record as it is stored: the `convert_fix` images of the
right-trimmed lines, concatenated. -/
def refSeq (nt_table : Int → Nat) (body : List (List Nat)) : List Nat :=
  body.flatMap (fun l => convert_fix nt_table (rtrim l))

/-- A FASTA reference record: a header line starting with `>` followed by lines that start
with neither `>` nor `@`. -/
def FastaRefRec (r : List Nat × List (List Nat)) : Prop :=
  front r.1 = 62 ∧ ∀ l ∈ r.2, front l ≠ 62 ∧ front l ≠ 64

instance FastaRefRec.decidable (r : List Nat × List (List Nat)) : Decidable (FastaRefRec r) := by
  unfold FastaRefRec
  infer_instance

/-- The record variable after the header line `h` started a new record. -/
def startRec (clear : BaseRecord → BaseRecord) (prev : BaseRecord) (h : List Nat) :
    BaseRecord :=
  { clear prev with format := BIO_FORMAT.FASTA, header := rtrim h, isEmpty := false }

/-- What `References::load` appends to `buffer` while it reads the rest `body` of the
current record `cur` and then the records `recs`, when `n` records were read before. -/
def loadSpec (nt_table : Int → Nat) (getId : BaseRecord → List Nat)
    (clear : BaseRecord → BaseRecord) :
    Nat → BaseRecord → List (List Nat) → List (List Nat × List (List Nat)) → List BaseRecord
  | n, cur, body, [] =>
      [pushed getId { cur with sequence := cur.sequence ++ refSeq nt_table body } n]
  | n, cur, body, r :: recs =>
      let p := pushed getId { cur with sequence := cur.sequence ++ refSeq nt_table body } n
      p :: loadSpec nt_table getId clear (n + 1)
        (startRec clear { p with isEmpty := true } r.1) r.2 recs

/-- Fields `(nid, header, format, sequence)` of a record. -/
def recView (b : BaseRecord) : Nat × List Nat × BIO_FORMAT × List Nat :=
  (b.nid, b.header, b.format, b.sequence)

/-- Fields of the records that the FASTA records `recs` are to give, numbered from `n`. -/
def fastaView (nt_table : Int → Nat) :
    Nat → List (List Nat × List (List Nat)) → List (Nat × List Nat × BIO_FORMAT × List Nat)
  | _, [] => []
  | n, r :: recs =>
      (n, rtrim r.1, BIO_FORMAT.FASTA, refSeq nt_table r.2) :: fastaView nt_table (n + 1) recs

/-- Inside a FASTA record of `References::load`: a record is open, and the end of the file
was seen exactly when `lastRec` is set, with nothing left to read. -/
def LoadInv (numseq_part : Nat) (st : LoadSt) : Prop :=
  st.isFastq = false ∧ st.rec_.isEmpty = false ∧ st.lastRec = st.eof ∧
  (st.eof = true → st.ifs = []) ∧ st.num_seq_read ≤ numseq_part

/-- A sample `nt_table`: `A`, `C`, `G`, `T` map to 0, 1, 2, 3 and every other byte to 0. -/
def exNtTable : Int → Nat :=
  fun c => if c = 67 then 1 else if c = 71 then 2 else if c = 84 then 3 else 0

/-- A FASTQ reference record as `References::load` reads it without mishap: a header
starting with `@`, a non-empty sequence line and a non-empty quality line that start with
none of `>`, `@`, `+`, and a separator starting with `+`. -/
def FastqRefRec (r : FastqRec) : Prop :=
  front r.header = 64 ∧
  (r.seq ≠ [] ∧ front r.seq ≠ 62 ∧ front r.seq ≠ 64 ∧ front r.seq ≠ 43) ∧
  front r.plus = 43 ∧
  (r.qual ≠ [] ∧ front r.qual ≠ 62 ∧ front r.qual ≠ 64 ∧ front r.qual ≠ 43)

instance FastqRefRec.decidable (r : FastqRec) : Decidable (FastqRefRec r) := by
  unfold FastqRefRec
  infer_instance

/-- The record variable after the four lines of the FASTQ record `r` were read, `prev` being
the record variable before its header line. -/
def fastqRec (nt_table : Int → Nat) (clear : BaseRecord → BaseRecord) (prev : BaseRecord)
    (r : FastqRec) : BaseRecord :=
  { clear prev with
    format := BIO_FORMAT.FASTQ, header := rtrim r.header, isEmpty := false,
    sequence := (clear prev).sequence ++ convert_fix nt_table (rtrim r.seq),
    quality := rtrim r.qual }

/-- What `References::load` appends to `buffer` when the FASTQ record `cur` is complete and
the records `recs` follow, `n` records having been pushed before. -/
def loadSpecQ (nt_table : Int → Nat) (getId : BaseRecord → List Nat)
    (clear : BaseRecord → BaseRecord) : Nat → BaseRecord → List FastqRec → List BaseRecord
  | n, cur, [] => [pushed getId cur n]
  | n, cur, r :: recs =>
      pushed getId cur n :: loadSpecQ nt_table getId clear (n + 1)
        (fastqRec nt_table clear { pushed getId cur n with isEmpty := true } r) recs

/-- Fields `(nid, header, format, sequence, quality)` of a record. -/
def recViewQ (b : BaseRecord) : Nat × List Nat × BIO_FORMAT × List Nat × List Nat :=
  (b.nid, b.header, b.format, b.sequence, b.quality)

/-- Fields of the records that the FASTQ records `recs` are to give, numbered from `n`. -/
def fastqView (nt_table : Int → Nat) :
    Nat → List FastqRec → List (Nat × List Nat × BIO_FORMAT × List Nat × List Nat)
  | _, [] => []
  | n, r :: recs =>
      (n, rtrim r.header, BIO_FORMAT.FASTQ, convert_fix nt_table (rtrim r.seq), rtrim r.qual)
        :: fastqView nt_table (n + 1) recs

/-- Inside a FASTQ file of `References::load`, before the end of the file: the values of the
variables that matter. -/
def LoadQ (st : LoadSt) (ifs : List (List Nat)) (count : Int) (rec : BaseRecord)
    (buffer : List BaseRecord) (n : Nat) : Prop :=
  st.lastRec = false ∧ st.eof = false ∧ st.isFastq = true ∧ st.count = count ∧
  st.ifs = ifs ∧ st.rec_ = rec ∧ st.buffer = buffer ∧ st.num_seq_read = n

/-! ### util.cpp: trim_leading_dashes -/

/-- Scan of `std::string::find_first_not_of(ch)`: the index, counted from `i`, of the first
character of the rest of the string that is not `ch`; `npos` if there is none. -/
def find_first_not_of_from (ch : Char) : List Char → Nat → Nat
  | [], _ => npos
  | c :: rest, i => if c ≠ ch then i else find_first_not_of_from ch rest (i + 1)

/-- Call `s.find_first_not_of(ch)`. -/
def find_first_not_of (s : List Char) (ch : Char) : Nat := find_first_not_of_from ch s 0

/-- Function `trim_leading_dashes` of util.cpp; `none` is the `std::out_of_range` of
`substr`. -/
def trim_leading_dashes (name : List Char) : Option (List Char) :=
  -- auto pos = name.find_first_not_of('-');
  let pos := find_first_not_of name '-'
  -- return std::string::npos != pos ? name.substr(pos) : name;
  if npos ≠ pos then substr name pos npos else some name

/-! ### references.cpp: the table reads of convert_fix -/

/-- The indices at which `References::convert_fix` reads `nt_table`, in the order of the
loop: the value `(int)*it` for every character of the string that is not 32. -/
def convert_fix_lookups : List Nat → List Int
  | [] => []
  | c :: rest =>
      -- if (*it != 32) *it = nt_table[(int)*it];
      if c ≠ 32 then charInt c :: convert_fix_lookups rest else convert_fix_lookups rest

/-! ## Part 2. Theorems -/

/-! ### Memory cells and bits -/

theorem store_apply (m : Mem) (a : Int) (v : Nat) (x : Int) :
    store m a v x = if x = a then v % 256 else m x := rfl

theorem store_same (m : Mem) (a : Int) (v : Nat) : store m a v a = v % 256 := by
  simp [store]

theorem store_other (m : Mem) (a : Int) (v : Nat) (x : Int) (h : x ≠ a) : store m a v x = m x := by
  simp [store, h]

theorem and_three (i : Nat) : i &&& 3 = i % 4 := Nat.and_pow_two_sub_one_eq_mod i 2

theorem tb_mod256 (x i : Nat) : (x % 256).testBit i = (decide (i < 8) && x.testBit i) :=
  Nat.testBit_mod_two_pow x 8 i

theorem tb_shl1 (x i : Nat) : (x <<< 1).testBit i = (decide (1 ≤ i) && x.testBit (i - 1)) := by
  rw [Nat.testBit_shiftLeft]

theorem tb_shr1 (x i : Nat) : (x >>> 1).testBit i = x.testBit (i + 1) := by
  rw [Nat.testBit_shiftRight, Nat.add_comm]

theorem tb_15 (i : Nat) : Nat.testBit 15 i = decide (i < 4) := Nat.testBit_two_pow_sub_one 4 i

theorem tb_7 (i : Nat) : Nat.testBit 7 i = decide (i < 3) := Nat.testBit_two_pow_sub_one 3 i

theorem tb_1 (i : Nat) : Nat.testBit 1 i = decide (i = 0) := by
  have := @Nat.testBit_two_pow 0 i
  simpa [eq_comm] using this

theorem tb_4 (i : Nat) : Nat.testBit 4 i = decide (i = 2) := by
  have := @Nat.testBit_two_pow 2 i
  simpa [eq_comm] using this

theorem tb_8 (i : Nat) : Nat.testBit 8 i = decide (i = 3) := by
  have := @Nat.testBit_two_pow 3 i
  simpa [eq_comm] using this

theorem tb_2 (i : Nat) : Nat.testBit 2 i = decide (i = 1) := by
  have := @Nat.testBit_two_pow 1 i
  simpa [eq_comm] using this

/-- Bits of an entry after `x = (x << 1) & 15` on an `unsigned char`. -/
theorem tb_shl_mask (x i : Nat) :
    ((((x <<< 1) % 256) &&& 15) % 256).testBit i
      = (decide (1 ≤ i ∧ i ≤ 3) && x.testBit (i - 1)) := by
  rw [tb_mod256, Nat.testBit_and, tb_mod256, tb_shl1, tb_15]
  by_cases h : 1 ≤ i ∧ i ≤ 3
  · have h8 : i < 8 := by omega
    have h4 : i < 4 := by omega
    simp [h, h8, h4]
  · by_cases h0 : 1 ≤ i
    · have h4 : ¬ i < 4 := by omega
      simp [h, h4]
    · simp [h, h0]

/-! ### The initial tables -/

/-- The two stores at the head of a loop iteration. -/
theorem shift_store_apply (m : Mem) (p1 p2 x : Int) :
    store (store m p2 (m p1 <<< 1)) p2 (store m p2 (m p1 <<< 1) p2 &&& mask_4) x
      = if x = p2 then (((m p1 <<< 1) % 256) &&& 15) % 256 else m x := by
  by_cases h : x = p2
  · subst h
    simp [store, mask_4]
  · simp [store, h]

theorem specBit_shift (p : Nat → Int) (d c b : Nat) :
    (decide (1 ≤ b ∧ b ≤ 3) && specBit p d c (b - 1)) = (decide (1 ≤ b) && specBit p (d + 1) c b) := by
  by_cases h1 : 1 ≤ b
  · by_cases h3 : b ≤ 3
    · have e : d + 2 - (b - 1) = d + 1 + 2 - b := by omega
      have h4 : b - 1 ≤ 3 := by omega
      have h5 : b - 1 ≤ d + 2 := by omega
      have h6 : b ≤ d + 1 + 2 := by omega
      simp [specBit, h1, h3, e, h4, h5, h6]
    · simp [specBit, h1, h3]
  · simp [h1]

theorem init_f_step_inv (rd : CharMem) (ptr0 base : Int) (i : Nat) (s : InitSt)
    (h : InitInv rd ptr0 base i s)
    (hch : (i + 1) % 4 = 0 → 0 ≤ rd (ptr0 + 3 + ((i / 4 : Nat) : Int))) :
    InitInv rd ptr0 base (i + 1) (init_f_step rd (i + 1) s) := by
  obtain ⟨h1, h2, h3, h4, hfull, hpart⟩ := h
  have hsrc : (s.mem s.win_ptr1).testBit = fun b =>
      specBit (fun j => rd (ptr0 + (j : Int))) (i / 4) (i % 4) b := by
    funext b
    have := hfull (i / 4) (i % 4) b (le_refl _) (Nat.mod_lt _ (by decide))
    rw [h1]
    have e : ((4 * (i / 4) + i % 4 : Nat) : Int) = (i : Int) := by
      have := Nat.div_add_mod i 4
      omega
    rw [e] at this
    exact this
  by_cases hm : (i + 1) % 4 = 0
  · have hc := hch hm
    have hd : (i + 1) / 4 = i / 4 + 1 := by omega
    have hr : i % 4 = 3 := by omega
    unfold init_f_step
    simp only [and_three, hm, if_true]
    refine ⟨by simp [h1]; omega, by simp [h2]; omega, by simp [h2]; omega, by simp [h4]; omega, ?_, ?_⟩
    · have hm2 : ∀ c b : Nat, c < 4 →
          (store (store s.mem s.win_ptr2 (s.mem s.win_ptr1 <<< 1)) s.win_ptr2
            (store s.mem s.win_ptr2 (s.mem s.win_ptr1 <<< 1) s.win_ptr2 &&& mask_4)
              (base + ((4 * (i / 4 + 1) + c : Nat) : Int))).testBit b
            = (decide (1 ≤ b) && specBit (fun j => rd (ptr0 + (j : Int))) (i / 4 + 1) c b) := by
        intro c b hc4
        rw [shift_store_apply]
        by_cases hc3 : c = i % 4
        · rw [if_pos (by rw [h2, hc3]; omega), tb_shl_mask, hsrc, hc3]
          exact specBit_shift _ _ _ _
        · rw [if_neg (by rw [h2]; omega)]
          exact hpart c b (by omega)
      have hp0 : ∀ c : Nat, specBit (fun j => rd (ptr0 + (j : Int))) (i / 4 + 1) c 0
          = decide (rd s.ptr = (c : Int)) := by
        intro c
        have e : ptr0 + ((i / 4 + 1 + 2 : Nat) : Int) = s.ptr := by rw [h4]; omega
        simp only [specBit, Nat.sub_zero, Nat.zero_le, true_and, e]
      intro d c b hdle hc4
      simp only []
      rw [store_apply]
      by_cases hdd : d = i / 4 + 1
      · subst hdd
        by_cases hcc : rd s.ptr = (c : Int)
        · have ha : base + ((4 * (i / 4 + 1) + c : Nat) : Int) = s.setbit + rd s.ptr := by
            rw [h3, hcc]; omega
          rw [if_pos ha, ← ha, tb_mod256, Nat.testBit_or, hm2 c b hc4, tb_1]
          by_cases hb0 : b = 0
          · subst hb0
            simp [hp0, hcc]
          · have hb1 : 1 ≤ b := by omega
            by_cases hb8 : b < 8
            · simp [hb0, hb1, hb8]
            · have : ¬ b ≤ 3 := by omega
              simp [hb8, specBit, this]
        · have ha : base + ((4 * (i / 4 + 1) + c : Nat) : Int) ≠ s.setbit + rd s.ptr := by
            rw [h3]; omega
          rw [if_neg ha, hm2 c b hc4]
          by_cases hb0 : b = 0
          · subst hb0
            simp [hp0, hcc]
          · have hb1 : 1 ≤ b := by omega
            simp [hb1]
      · have hne : base + ((4 * d + c : Nat) : Int) ≠ s.setbit + rd s.ptr := by
          rw [h3, h4]; omega
        rw [if_neg hne, shift_store_apply, if_neg (by rw [h2]; omega)]
        exact hfull d c b (by omega) hc4
    · intro c b hlt
      omega
  · have hd : (i + 1) / 4 = i / 4 := by omega
    have hr : (i + 1) % 4 = i % 4 + 1 := by omega
    unfold init_f_step
    simp only [and_three, hm, if_false]
    refine ⟨by simp [h1]; omega, by simp [h2]; omega, by simp [h3, hd], by simp [h4, hd], ?_, ?_⟩
    · intro d c b hdle hc4
      simp only []
      rw [shift_store_apply, if_neg (by rw [h2]; omega)]
      exact hfull d c b (by omega) hc4
    · intro c b hlt
      simp only []
      rw [shift_store_apply, hd]
      by_cases hc : c = i % 4
      · rw [if_pos (by rw [h2, hc]; omega), tb_shl_mask, hsrc, hc]
        exact specBit_shift _ _ _ _
      · rw [if_neg (by rw [h2]; omega)]
        exact hpart c b (by omega)

theorem init_f_loop_inv (rd : CharMem) (ptr0 base : Int) :
    ∀ (n i : Nat) (s : InitSt), InitInv rd ptr0 base i s →
      (∀ j : Nat, j < 3 + (i + n) / 4 → 0 ≤ rd (ptr0 + (j : Int))) →
      InitInv rd ptr0 base (i + n) (init_f_loop rd n (i + 1) s) := by
  intro n
  induction n with
  | zero => intro i s h _; simpa [init_f_loop] using h
  | succ n ih =>
    intro i s h hp
    have hstep := init_f_step_inv rd ptr0 base i s h (by
      intro _
      have := hp (3 + i / 4) (by omega)
      have e : ptr0 + ((3 + i / 4 : Nat) : Int) = ptr0 + 3 + ((i / 4 : Nat) : Int) := by omega
      rw [e] at this
      exact this)
    have := ih (i + 1) _ hstep (by
      intro j hj
      exact hp j (by rw [show i + (n + 1) = i + 1 + n by omega]; exact hj))
    rw [show i + (n + 1) = i + 1 + n by omega]
    exact this

/-- Bits of a cell after `*a |= v` on an `unsigned char`. -/
theorem or_store_tb (m : Mem) (a x : Int) (v b : Nat) :
    (store m a (m a ||| v) x).testBit b
      = if x = a then (decide (b < 8) && ((m x).testBit b || v.testBit b)) else (m x).testBit b := by
  by_cases h : x = a
  · subst h
    simp [store, tb_mod256, Nat.testBit_or]
  · simp [store, h]

theorem init_f_stamp_inv (rd : CharMem) (ptr0 base : Int) (mem : Mem)
    (hz : Zeroed mem base 4) :
    InitInv rd ptr0 base 0
      { mem := (init_f_stamp rd base 3 ptr0 mem).2, ptr := (init_f_stamp rd base 3 ptr0 mem).1,
        setbit := base + 4, win_ptr1 := base, win_ptr2 := base + 4 } := by
  refine ⟨by simp, by simp, by simp, by simp [init_f_stamp]; omega, ?_, ?_⟩
  · intro d c b hd hc
    have hd0 : d = 0 := by omega
    subst hd0
    have hz0 : mem (base + ((4 * 0 + c : Nat) : Int)) = 0 := by
      have := hz c hc
      simpa using this
    have e1 : ptr0 + 1 + 1 = ptr0 + 2 := by omega
    have k0 : (base + ((4 * 0 + c : Nat) : Int) = base + rd ptr0) = (rd ptr0 = (c : Int)) := by
      apply propext; constructor <;> intro h <;> omega
    have k1 : (base + ((4 * 0 + c : Nat) : Int) = base + rd (ptr0 + 1)) = (rd (ptr0 + 1) = (c : Int)) := by
      apply propext; constructor <;> intro h <;> omega
    have k2 : (base + ((4 * 0 + c : Nat) : Int) = base + rd (ptr0 + 2)) = (rd (ptr0 + 2) = (c : Int)) := by
      apply propext; constructor <;> intro h <;> omega
    have t4 : (1 <<< 2 : Nat) = 4 := rfl
    have t2 : (1 <<< 1 : Nat) = 2 := rfl
    have t1 : (1 <<< 0 : Nat) = 1 := rfl
    simp only [init_f_stamp, or_store_tb, e1, hz0, k0, k1, k2, t4, t2, t1, tb_4, tb_2, tb_1,
      Nat.zero_testBit, Bool.false_or]
    rcases Nat.lt_or_ge b 3 with hb | hb
    · interval_cases b
      · by_cases q0 : rd ptr0 = (c : Int) <;> by_cases q1 : rd (ptr0 + 1) = (c : Int) <;>
          by_cases q2 : rd (ptr0 + 2) = (c : Int) <;> simp [specBit, q0, q1, q2]
      · by_cases q0 : rd ptr0 = (c : Int) <;> by_cases q1 : rd (ptr0 + 1) = (c : Int) <;>
          by_cases q2 : rd (ptr0 + 2) = (c : Int) <;> simp [specBit, q0, q1, q2]
      · by_cases q0 : rd ptr0 = (c : Int) <;> by_cases q1 : rd (ptr0 + 1) = (c : Int) <;>
          by_cases q2 : rd (ptr0 + 2) = (c : Int) <;> simp [specBit, q0, q1, q2]
    · have n0 : ¬ b = 0 := by omega
      have n1 : ¬ b = 1 := by omega
      have n2 : ¬ b = 2 := by omega
      have n3 : ¬ b ≤ 2 := by omega
      simp [specBit, n0, n1, n2, n3]
  · intro c b hc
    omega

/-- Closed form of the table that `init_win_f` builds: only the depth-0 cells have to be
zero before the call, and the pattern characters must not be negative. -/
theorem init_win_f_table (rd : CharMem) (ptr0 base : Int) (q : Nat) (mem : Mem)
    (hz : Zeroed mem base 4)
    (hp : ∀ j : Nat, j < 3 + q → 0 ≤ rd (ptr0 + (j : Int))) :
    TableIs (init_win_f rd ptr0 base (base + 4) (4 * q) mem) base q
      (fun j => rd (ptr0 + (j : Int))) := by
  have h := init_f_loop_inv rd ptr0 base (4 * q) 0 _ (init_f_stamp_inv rd ptr0 base mem hz)
    (by intro j hj; exact hp j (by omega))
  intro d c b hd hc
  unfold init_win_f
  exact h.full d c b (by omega) hc

theorem init_stamp_r_eq_f (rd : CharMem) (ptr reset : Int) :
    ∀ (k : Nat) (pf : Int) (m : Mem),
      (init_r_stamp rd reset k (ptr - pf) m).2
          = (init_f_stamp (fun a => rd (ptr - a)) reset k pf m).2 ∧
      (init_r_stamp rd reset k (ptr - pf) m).1
          = ptr - (init_f_stamp (fun a => rd (ptr - a)) reset k pf m).1 := by
  intro k
  induction k with
  | zero => intro pf m; simp [init_r_stamp, init_f_stamp]
  | succ k ih =>
    intro pf m
    simp only [init_r_stamp, init_f_stamp]
    have e : ptr - pf - 1 = ptr - (pf + 1) := by omega
    rw [e]
    exact ih (pf + 1) _

theorem init_loop_r_eq_f (rd : CharMem) (ptr : Int) :
    ∀ (n i : Nat) (m : Mem) (pf sb w1 w2 : Int),
      (init_r_loop rd n i ⟨m, ptr - pf, sb, w1, w2⟩).mem
        = (init_f_loop (fun a => rd (ptr - a)) n i ⟨m, pf, sb, w1, w2⟩).mem := by
  intro n
  induction n with
  | zero => intro i m pf sb w1 w2; rfl
  | succ n ih =>
    intro i m pf sb w1 w2
    simp only [init_r_loop, init_f_loop, init_r_step, init_f_step]
    by_cases h : i &&& 3 = 0
    · simp only [h, if_true]
      have e : ptr - pf - 1 = ptr - (pf + 1) := by omega
      rw [e]
      exact ih _ _ _ _ _ _
    · simp only [h, if_false]
      exact ih _ _ _ _ _ _

/-- Function `init_win_r` is `init_win_f` run on the characters read backwards. -/
theorem init_win_r_eq_f (rd : CharMem) (ptr b0 b1 : Int) (n : Nat) (mem : Mem) :
    init_win_r rd ptr b0 b1 n mem = init_win_f (fun a => rd (ptr - a)) 0 b0 b1 n mem := by
  unfold init_win_r init_win_f
  have h := init_stamp_r_eq_f rd ptr b0 3 0 mem
  simp only [sub_zero] at h
  simp only []
  rw [h.1, h.2]
  exact init_loop_r_eq_f rd ptr n 1 _ _ _ _ _

theorem init_f_stamp_congr (rd rd' : CharMem) (reset : Int) :
    ∀ (k : Nat) (pf pf' : Int) (m : Mem),
      (∀ t : Nat, t < k → rd (pf + (t : Int)) = rd' (pf' + (t : Int))) →
      (init_f_stamp rd reset k pf m).2 = (init_f_stamp rd' reset k pf' m).2 ∧
      (init_f_stamp rd reset k pf m).1 - pf = (init_f_stamp rd' reset k pf' m).1 - pf' ∧
      (init_f_stamp rd reset k pf m).1 = pf + (k : Int) := by
  intro k
  induction k with
  | zero => intro pf pf' m _; simp [init_f_stamp]
  | succ k ih =>
    intro pf pf' m h
    simp only [init_f_stamp]
    have h0 : rd pf = rd' pf' := by simpa using h 0 (by omega)
    rw [h0]
    have := ih (pf + 1) (pf' + 1) (store m (reset + rd' pf') (m (reset + rd' pf') ||| 1 <<< k)) (by
      intro t ht
      have := h (t + 1) (by omega)
      have e1 : pf + ((t + 1 : Nat) : Int) = pf + 1 + (t : Int) := by omega
      have e2 : pf' + ((t + 1 : Nat) : Int) = pf' + 1 + (t : Int) := by omega
      rw [e1, e2] at this
      exact this)
    refine ⟨this.1, by omega, by omega⟩

theorem init_f_loop_congr (rd rd' : CharMem) :
    ∀ (n i : Nat) (m : Mem) (pf pf' sb w1 w2 : Int), 1 ≤ i →
      (∀ t : Nat, t < (i + n - 1) / 4 - (i - 1) / 4 → rd (pf + (t : Int)) = rd' (pf' + (t : Int))) →
      (init_f_loop rd n i ⟨m, pf, sb, w1, w2⟩).mem
        = (init_f_loop rd' n i ⟨m, pf', sb, w1, w2⟩).mem := by
  intro n
  induction n with
  | zero => intro i m pf pf' sb w1 w2 _ _; rfl
  | succ n ih =>
    intro i m pf pf' sb w1 w2 hi h
    simp only [init_f_loop, init_f_step]
    by_cases hm : i &&& 3 = 0
    · have hm4 : i % 4 = 0 := by rw [← and_three]; exact hm
      simp only [hm, if_true]
      have h0 : rd pf = rd' pf' := by simpa using h 0 (by omega)
      rw [h0]
      apply ih _ _ _ _ _ _ _ (by omega)
      intro t ht
      have := h (t + 1) (by omega)
      have e1 : pf + ((t + 1 : Nat) : Int) = pf + 1 + (t : Int) := by omega
      have e2 : pf' + ((t + 1 : Nat) : Int) = pf' + 1 + (t : Int) := by omega
      rw [e1, e2] at this
      exact this
    · have hm4 : i % 4 ≠ 0 := by rw [← and_three]; exact hm
      simp only [hm, if_false]
      apply ih _ _ _ _ _ _ _ (by omega)
      intro t ht
      exact h t (by omega)

/-- Function `init_win_f` only depends on the `3 + numbvs/4` characters it reads. -/
theorem init_win_f_congr (rd rd' : CharMem) (ptr ptr' b0 b1 : Int) (n : Nat) (mem : Mem)
    (h : ∀ j : Nat, j < 3 + n / 4 → rd (ptr + (j : Int)) = rd' (ptr' + (j : Int))) :
    init_win_f rd ptr b0 b1 n mem = init_win_f rd' ptr' b0 b1 n mem := by
  unfold init_win_f
  have hs := init_f_stamp_congr rd rd' b0 3 ptr ptr' mem (by intro t ht; exact h t (by omega))
  have hs' := init_f_stamp_congr rd' rd' b0 3 ptr' ptr' mem (by intro t _; rfl)
  simp only []
  rw [hs.1]
  apply init_f_loop_congr rd rd' n 1 _ _ _ _ _ _ (by omega)
  intro t ht
  rw [hs.2.2, hs'.2.2]
  have := h (3 + t) (by omega)
  have e1 : ptr + ((3 + t : Nat) : Int) = ptr + ((3 : Nat) : Int) + (t : Int) := by omega
  have e2 : ptr' + ((3 + t : Nat) : Int) = ptr' + ((3 : Nat) : Int) + (t : Int) := by omega
  rw [e1, e2] at this
  exact this

/-! ### The window shift -/

theorem fwd_copy_spec : ∀ (n : Nat) (p1 p2 : Int) (m : Mem), p1 < p2 →
    (fwd_copy n p1 p2 m).1 = p1 + (n : Int) ∧
    ∀ x : Int, (fwd_copy n p1 p2 m).2.2 x
      = if p1 ≤ x ∧ x < p1 + (n : Int) then m (x + (p2 - p1)) % 256 else m x := by
  intro n
  induction n with
  | zero =>
    intro p1 p2 m _
    refine ⟨by simp [fwd_copy], ?_⟩
    intro x
    have : ¬ (p1 ≤ x ∧ x < p1 + ((0 : Nat) : Int)) := by omega
    rw [if_neg this]
    rfl
  | succ n ih =>
    intro p1 p2 m h
    obtain ⟨i1, i2⟩ := ih (p1 + 1) (p2 + 1) (store m p1 (m p2)) (by omega)
    simp only [fwd_copy]
    refine ⟨by rw [i1]; omega, ?_⟩
    intro x
    rw [i2 x]
    by_cases hx : p1 + 1 ≤ x ∧ x < p1 + 1 + (n : Int)
    · rw [if_pos hx, if_pos (by omega), store_other _ _ _ _ (by omega)]
      congr 2
      omega
    · rw [if_neg hx]
      by_cases hx1 : x = p1
      · subst hx1
        rw [store_same, if_pos (by omega)]
        congr 2
        omega
      · rw [store_other _ _ _ _ hx1, if_neg (by omega)]

theorem rev_copy_spec : ∀ (n : Nat) (p1 p2 : Int) (m : Mem), p1 < p2 →
    (rev_copy n p1 p2 m).1 = p1 - (n : Int) ∧
    (rev_copy n p1 p2 m).2.1 = p2 - (n : Int) ∧
    ∀ x : Int, (rev_copy n p1 p2 m).2.2 x
      = if p2 - (n : Int) ≤ x ∧ x < p2 then m (x - (p2 - p1)) % 256 else m x := by
  intro n
  induction n with
  | zero =>
    intro p1 p2 m _
    refine ⟨by simp [rev_copy], by simp [rev_copy], ?_⟩
    intro x
    have : ¬ (p2 - ((0 : Nat) : Int) ≤ x ∧ x < p2) := by omega
    rw [if_neg this]
    rfl
  | succ n ih =>
    intro p1 p2 m h
    obtain ⟨i1, i2, i3⟩ := ih (p1 - 1) (p2 - 1) (store m (p2 - 1) (m (p1 - 1))) (by omega)
    simp only [rev_copy]
    refine ⟨by rw [i1]; omega, by rw [i2]; omega, ?_⟩
    intro x
    rw [i3 x]
    by_cases hx : p2 - 1 - (n : Int) ≤ x ∧ x < p2 - 1
    · rw [if_pos hx, if_pos (by omega), store_other _ _ _ _ (by omega)]
      congr 2
      omega
    · rw [if_neg hx]
      by_cases hx1 : x = p2 - 1
      · subst hx1
        rw [store_same, if_pos (by omega)]
        congr 2
        omega
      · rw [store_other _ _ _ _ hx1, if_neg (by omega)]

theorem shr_loop_spec : ∀ (n : Nat) (p : Int) (m : Mem),
    (shr_loop n p m).1 = p + (n : Int) ∧
    ∀ x : Int, (shr_loop n p m).2 x
      = if p ≤ x ∧ x < p + (n : Int) then (m x >>> 1) % 256 else m x := by
  intro n
  induction n with
  | zero =>
    intro p m
    refine ⟨by simp [shr_loop], ?_⟩
    intro x
    have : ¬ (p ≤ x ∧ x < p + ((0 : Nat) : Int)) := by omega
    rw [if_neg this]
    rfl
  | succ n ih =>
    intro p m
    obtain ⟨i1, i2⟩ := ih (p + 1) (store m p (m p >>> 1))
    simp only [shr_loop]
    refine ⟨by rw [i1]; omega, ?_⟩
    intro x
    rw [i2 x]
    by_cases hx : p + 1 ≤ x ∧ x < p + 1 + (n : Int)
    · rw [if_pos hx, if_pos (by omega), store_other _ _ _ _ (by omega)]
    · rw [if_neg hx]
      by_cases hx1 : x = p
      · subst hx1
        rw [store_same, if_pos (by omega)]
      · rw [store_other _ _ _ _ hx1, if_neg (by omega)]

theorem mask_loop_spec : ∀ (n : Nat) (p : Int) (m : Mem),
    (mask_loop n p m).1 = p + (n : Int) ∧
    ∀ x : Int, (mask_loop n p m).2 x
      = if p ≤ x ∧ x < p + (n : Int) then (m x &&& 7) % 256 else m x := by
  intro n
  induction n with
  | zero =>
    intro p m
    refine ⟨by simp [mask_loop], ?_⟩
    intro x
    have : ¬ (p ≤ x ∧ x < p + ((0 : Nat) : Int)) := by omega
    rw [if_neg this]
    rfl
  | succ n ih =>
    intro p m
    obtain ⟨i1, i2⟩ := ih (p + 1) (store m p (m p &&& mask_3))
    simp only [mask_loop]
    refine ⟨by rw [i1]; omega, ?_⟩
    intro x
    rw [i2 x]
    by_cases hx : p + 1 ≤ x ∧ x < p + 1 + (n : Int)
    · rw [if_pos hx, if_pos (by omega), store_other _ _ _ _ (by omega)]
    · rw [if_neg hx]
      by_cases hx1 : x = p
      · subst hx1
        rw [store_same, if_pos (by omega)]
        rfl
      · rw [store_other _ _ _ _ hx1, if_neg (by omega)]

theorem shl_loop_spec : ∀ (n : Nat) (p : Int) (m : Mem),
    (shl_loop n p m).1 = p + (n : Int) ∧
    ∀ x : Int, (shl_loop n p m).2 x
      = if p ≤ x ∧ x < p + (n : Int) then (((m x <<< 1) % 256) &&& 15) % 256 else m x := by
  intro n
  induction n with
  | zero =>
    intro p m
    refine ⟨by simp [shl_loop], ?_⟩
    intro x
    have : ¬ (p ≤ x ∧ x < p + ((0 : Nat) : Int)) := by omega
    rw [if_neg this]
    rfl
  | succ n ih =>
    intro p m
    obtain ⟨i1, i2⟩ := ih (p + 1)
      (store (store m p (m p <<< 1)) p (store m p (m p <<< 1) p &&& 15))
    simp only [shl_loop]
    refine ⟨by rw [i1]; omega, ?_⟩
    intro x
    rw [i2 x]
    have key := shift_store_apply m p p
    simp only [mask_4] at key
    by_cases hx : p + 1 ≤ x ∧ x < p + 1 + (n : Int)
    · rw [if_pos hx, if_pos (by omega), key, if_neg (by omega)]
    · rw [if_neg hx, key]
      by_cases hx1 : x = p
      · subst hx1
        rw [if_pos rfl, if_pos (by omega)]
      · rw [if_neg hx1, if_neg (by omega)]

theorem specBit_tail (p : Nat → Int) (d c b : Nat) (hd : 1 ≤ d) :
    specBit (fun j => p (j + 1)) d c b = specBit p (d + 1) c b := by
  by_cases h3 : b ≤ 3
  · have e : d + 2 - b + 1 = d + 1 + 2 - b := by omega
    have h5 : b ≤ d + 2 := by omega
    have h6 : b ≤ d + 1 + 2 := by omega
    simp [specBit, h3, e, h5, h6]
  · simp [specBit, h3]

theorem specBit_tail_zero (p : Nat → Int) (c b : Nat) :
    specBit (fun j => p (j + 1)) 0 c b = (decide (b < 3) && specBit p 1 c b) := by
  by_cases h3 : b < 3
  · have e : 0 + 2 - b + 1 = 1 + 2 - b := by omega
    have h5 : b ≤ 0 + 2 := by omega
    have h6 : b ≤ 1 + 2 := by omega
    have h7 : b ≤ 3 := by omega
    simp [specBit, h3, e, h5, h6, h7]
  · have h5 : ¬ b ≤ 0 + 2 := by omega
    simp [specBit, h3, h5]

theorem specBit_lt_four (p : Nat → Int) (d c b : Nat) (h : specBit p d c b = true) : b ≤ 3 := by
  unfold specBit at h
  exact (of_decide_eq_true h).1

theorem offset_fwd_table (rd : CharMem) (FW2 base : Int) (q : Nat) (m : Mem) (p : Nat → Int)
    (hq : 1 ≤ q) (hT : TableIs m base q p) (hfw : rd FW2 = p (q + 3)) (hch : 0 ≤ rd FW2) :
    TableIs (offset_fwd rd FW2 base (base + 4) (4 * q) m) base q (fun j => p (j + 1)) := by
  intro d c b hd hc
  obtain ⟨c1, c2⟩ := fwd_copy_spec (4 * q) base (base + 4) m (by omega)
  obtain ⟨_, k2⟩ := mask_loop_spec 4 base (fwd_copy (4 * q) base (base + 4) m).2.2
  obtain ⟨_, s2⟩ := shl_loop_spec 4 (fwd_copy (4 * q) base (base + 4) m).1
    (mask_loop 4 base (fwd_copy (4 * q) base (base + 4) m).2.2).2
  unfold offset_fwd
  rw [or_store_tb, s2, k2, c2, c1]
  by_cases hdq : d = q
  · subst hdq
    have e1 : (base + ((4 * d : Nat) : Int) ≤ base + ((4 * d + c : Nat) : Int) ∧
        base + ((4 * d + c : Nat) : Int) < base + ((4 * d : Nat) : Int) + ((4 : Nat) : Int)) = True :=
      eq_true (by omega)
    have e2 : (base ≤ base + ((4 * d + c : Nat) : Int) ∧
        base + ((4 * d + c : Nat) : Int) < base + ((4 : Nat) : Int)) = False :=
      eq_false (by omega)
    have e3 : (base ≤ base + ((4 * d + c : Nat) : Int) ∧
        base + ((4 * d + c : Nat) : Int) < base + ((4 * d : Nat) : Int)) = False :=
      eq_false (by omega)
    have e4 : (base + ((4 * d + c : Nat) : Int) = base + ((4 * d : Nat) : Int) + rd FW2)
        = (rd FW2 = (c : Int)) := by
      apply propext; constructor <;> intro h <;> omega
    simp only [e1, e2, e3, e4, if_true, if_false]
    rw [tb_shl_mask, hT d c (b - 1) hd hc, specBit_shift, specBit_tail p d c b hq, tb_1]
    have hp0 : specBit p (d + 1) c 0 = decide (rd FW2 = (c : Int)) := by
      simp only [specBit, Nat.sub_zero, Nat.zero_le, true_and, hfw]
    by_cases hb0 : b = 0
    · subst hb0
      rw [hp0]
      by_cases hcc : rd FW2 = (c : Int) <;> simp [hcc]
    · have hb1 : 1 ≤ b := by omega
      by_cases hs : specBit p (d + 1) c b = true
      · have := specBit_lt_four p _ _ _ hs
        have hb8 : b < 8 := by omega
        by_cases hcc : rd FW2 = (c : Int) <;> simp [hcc, hs, hb1, hb8]
      · by_cases hcc : rd FW2 = (c : Int) <;> simp [hcc, hs, hb0]
  · have e1 : (base + ((4 * q : Nat) : Int) ≤ base + ((4 * d + c : Nat) : Int) ∧
        base + ((4 * d + c : Nat) : Int) < base + ((4 * q : Nat) : Int) + ((4 : Nat) : Int)) = False :=
      eq_false (by omega)
    have e3 : (base ≤ base + ((4 * d + c : Nat) : Int) ∧
        base + ((4 * d + c : Nat) : Int) < base + ((4 * q : Nat) : Int)) = True :=
      eq_true (by omega)
    have e4 : (base + ((4 * d + c : Nat) : Int) = base + ((4 * q : Nat) : Int) + rd FW2) = False :=
      eq_false (by omega)
    have e5 : base + ((4 * d + c : Nat) : Int) + (base + 4 - base)
        = base + ((4 * (d + 1) + c : Nat) : Int) := by omega
    simp only [e1, e3, e4, e5, if_true, if_false]
    have hsrc := hT (d + 1) c b (by omega) hc
    by_cases hd0 : d = 0
    · subst hd0
      have e2 : (base ≤ base + ((4 * 0 + c : Nat) : Int) ∧
          base + ((4 * 0 + c : Nat) : Int) < base + ((4 : Nat) : Int)) = True :=
        eq_true (by omega)
      simp only [e2, if_true]
      rw [tb_mod256, Nat.testBit_and, tb_mod256, hsrc, tb_7, specBit_tail_zero]
      by_cases hs : specBit p (0 + 1) c b = true
      · have := specBit_lt_four p _ _ _ hs
        have hb8 : b < 8 := by omega
        simp [hs, hb8]
      · simp [hs]
    · have e2 : (base ≤ base + ((4 * d + c : Nat) : Int) ∧
          base + ((4 * d + c : Nat) : Int) < base + ((4 : Nat) : Int)) = False :=
        eq_false (by omega)
      simp only [e2, if_false]
      rw [tb_mod256, hsrc, specBit_tail p d c b (by omega)]
      by_cases hs : specBit p (d + 1) c b = true
      · have := specBit_lt_four p _ _ _ hs
        have hb8 : b < 8 := by omega
        simp [hs, hb8]
      · simp [hs]

theorem specBit_cons (p : Nat → Int) (ch : Int) (d c b : Nat) (hd : 2 ≤ d) :
    specBit (fun j => if j = 0 then ch else p (j - 1)) d c b = specBit p (d - 1) c b := by
  by_cases h3 : b ≤ 3
  · have e : d + 2 - b - 1 = d - 1 + 2 - b := by omega
    have h5 : b ≤ d + 2 := by omega
    have h6 : b ≤ d - 1 + 2 := by omega
    have h7 : ¬ d + 2 - b = 0 := by omega
    simp [specBit, h3, e, h5, h6, h7]
  · simp [specBit, h3]

theorem specBit_cons_one (p : Nat → Int) (ch : Int) (c b : Nat) :
    specBit (fun j => if j = 0 then ch else p (j - 1)) 1 c b
      = if b = 3 then decide (ch = (c : Int)) else specBit p 0 c b := by
  rcases Nat.lt_or_ge b 4 with hb | hb
  · interval_cases b <;> simp [specBit]
  · have h1 : ¬ b ≤ 3 := by omega
    have h2 : ¬ b = 3 := by omega
    simp [specBit, h1, h2]

theorem specBit_cons_zero (p : Nat → Int) (ch : Int) (c b : Nat) :
    specBit (fun j => if j = 0 then ch else p (j - 1)) 0 c b
      = if b = 2 then decide (ch = (c : Int)) else specBit p 0 c (b + 1) := by
  rcases Nat.lt_or_ge b 3 with hb | hb
  · interval_cases b <;> simp [specBit]
  · have h1 : ¬ b ≤ 2 := by omega
    have h2 : ¬ b = 2 := by omega
    have h3 : ¬ b + 1 ≤ 2 := by omega
    simp [specBit, h1, h2, h3]

theorem specBit_and_lt (p : Nat → Int) (d c b : Nat) :
    (decide (b < 8) && specBit p d c b) = specBit p d c b := by
  by_cases hs : specBit p d c b = true
  · have := specBit_lt_four p _ _ _ hs
    have hb8 : b < 8 := by omega
    simp [hs, hb8]
  · simp [hs]

theorem offset_rev_table (rd : CharMem) (RW1 rb : Int) (q : Nat) (m : Mem) (p : Nat → Int)
    (hq : 1 ≤ q) (hT : TableIs m rb q p) (h0 : 0 ≤ rd RW1) (h4 : rd RW1 < 4) :
    TableIs (offset_rev rd RW1 (rb + ((4 * q : Nat) : Int)) (rb + ((4 * q : Nat) : Int) + 4) (4 * q) m)
      rb q (fun j => if j = 0 then rd RW1 else p (j - 1)) := by
  intro d c b hd hc
  obtain ⟨c1, c2, c3⟩ := rev_copy_spec (4 * q) (rb + ((4 * q : Nat) : Int))
    (rb + ((4 * q : Nat) : Int) + 4) m (by omega)
  obtain ⟨_, s2⟩ := shr_loop_spec 4
    (rev_copy (4 * q) (rb + ((4 * q : Nat) : Int)) (rb + ((4 * q : Nat) : Int) + 4) m).1
    (rev_copy (4 * q) (rb + ((4 * q : Nat) : Int)) (rb + ((4 * q : Nat) : Int) + 4) m).2.2
  rw [c1] at s2
  unfold offset_rev
  simp only [c1, c2]
  simp only [or_store_tb]
  simp only [s2, c3, MSB4, MSB8, tb_4, tb_8]
  by_cases hd0 : d = 0
  · subst hd0
    have e1 : (rb + ((4 * 0 + c : Nat) : Int)
        = rb + ((4 * q : Nat) : Int) + 4 - ((4 * q : Nat) : Int) + rd RW1) = False :=
      eq_false (by omega)
    have e2 : (rb + ((4 * 0 + c : Nat) : Int)
        = rb + ((4 * q : Nat) : Int) - ((4 * q : Nat) : Int) + rd RW1) = (rd RW1 = (c : Int)) := by
      apply propext; constructor <;> intro h <;> omega
    have e3 : (rb + ((4 * q : Nat) : Int) - ((4 * q : Nat) : Int) ≤ rb + ((4 * 0 + c : Nat) : Int) ∧
        rb + ((4 * 0 + c : Nat) : Int)
          < rb + ((4 * q : Nat) : Int) - ((4 * q : Nat) : Int) + ((4 : Nat) : Int)) = True :=
      eq_true (by omega)
    have e4 : (rb + ((4 * q : Nat) : Int) + 4 - ((4 * q : Nat) : Int) ≤ rb + ((4 * 0 + c : Nat) : Int) ∧
        rb + ((4 * 0 + c : Nat) : Int) < rb + ((4 * q : Nat) : Int) + 4) = False :=
      eq_false (by omega)
    simp only [e1, e2, e3, e4, if_true, if_false]
    rw [tb_mod256, tb_shr1, hT 0 c (b + 1) (by omega) hc, specBit_cons_zero]
    by_cases hb2 : b = 2
    · subst hb2
      by_cases hcc : rd RW1 = (c : Int) <;> simp [hcc, specBit]
    · by_cases hcc : rd RW1 = (c : Int)
      · simp only [hcc, if_true, hb2, if_false, decide_False, Bool.or_false]
        rw [← Bool.and_assoc, Bool.and_self]
        by_cases hs : specBit p 0 c (b + 1) = true
        · have := specBit_lt_four p _ _ _ hs
          have hb8 : b < 8 := by omega
          simp [hs, hb8]
        · simp [hs]
      · simp only [hcc, if_false, hb2]
        by_cases hs : specBit p 0 c (b + 1) = true
        · have := specBit_lt_four p _ _ _ hs
          have hb8 : b < 8 := by omega
          simp [hs, hb8]
        · simp [hs]
  · have e2 : (rb + ((4 * d + c : Nat) : Int)
        = rb + ((4 * q : Nat) : Int) - ((4 * q : Nat) : Int) + rd RW1) = False :=
      eq_false (by omega)
    have e3 : (rb + ((4 * q : Nat) : Int) - ((4 * q : Nat) : Int) ≤ rb + ((4 * d + c : Nat) : Int) ∧
        rb + ((4 * d + c : Nat) : Int)
          < rb + ((4 * q : Nat) : Int) - ((4 * q : Nat) : Int) + ((4 : Nat) : Int)) = False :=
      eq_false (by omega)
    have e4 : (rb + ((4 * q : Nat) : Int) + 4 - ((4 * q : Nat) : Int) ≤ rb + ((4 * d + c : Nat) : Int) ∧
        rb + ((4 * d + c : Nat) : Int) < rb + ((4 * q : Nat) : Int) + 4) = True :=
      eq_true (by omega)
    have e5 : rb + ((4 * d + c : Nat) : Int)
        - (rb + ((4 * q : Nat) : Int) + 4 - (rb + ((4 * q : Nat) : Int)))
        = rb + ((4 * (d - 1) + c : Nat) : Int) := by omega
    simp only [e2, e3, e4, e5, if_true, if_false]
    have hsrc := hT (d - 1) c b (by omega) hc
    rw [tb_mod256, hsrc, specBit_and_lt]
    by_cases hd1 : d = 1
    · subst hd1
      have e1 : (rb + ((4 * 1 + c : Nat) : Int)
          = rb + ((4 * q : Nat) : Int) + 4 - ((4 * q : Nat) : Int) + rd RW1) = (rd RW1 = (c : Int)) := by
        apply propext; constructor <;> intro h <;> omega
      simp only [e1]
      rw [specBit_cons_one]
      by_cases hb3 : b = 3
      · subst hb3
        by_cases hcc : rd RW1 = (c : Int) <;> simp [hcc, specBit]
      · by_cases hcc : rd RW1 = (c : Int)
        · simp only [hcc, if_true, hb3, if_false, decide_False, Bool.or_false]
          exact specBit_and_lt p _ _ _
        · simp only [hcc, if_false, hb3]
    · have e1 : (rb + ((4 * d + c : Nat) : Int)
          = rb + ((4 * q : Nat) : Int) + 4 - ((4 * q : Nat) : Int) + rd RW1) = False :=
        eq_false (by omega)
      simp only [e1, if_false]
      rw [specBit_cons p _ d c b (by omega)]

/-- The reverse half of `offset_win_k1` only writes inside the reverse table when the
character under `RW1` is a nucleotide. -/
theorem offset_rev_frame (rd : CharMem) (RW1 rb : Int) (q : Nat) (m : Mem) (x : Int)
    (hq : 1 ≤ q) (h0 : 0 ≤ rd RW1) (h4 : rd RW1 < 4)
    (hx : x < rb ∨ rb + ((4 * q : Nat) : Int) + 4 ≤ x) :
    offset_rev rd RW1 (rb + ((4 * q : Nat) : Int)) (rb + ((4 * q : Nat) : Int) + 4) (4 * q) m x
      = m x := by
  obtain ⟨c1, c2, c3⟩ := rev_copy_spec (4 * q) (rb + ((4 * q : Nat) : Int))
    (rb + ((4 * q : Nat) : Int) + 4) m (by omega)
  obtain ⟨_, s2⟩ := shr_loop_spec 4
    (rev_copy (4 * q) (rb + ((4 * q : Nat) : Int)) (rb + ((4 * q : Nat) : Int) + 4) m).1
    (rev_copy (4 * q) (rb + ((4 * q : Nat) : Int)) (rb + ((4 * q : Nat) : Int) + 4) m).2.2
  rw [c1] at s2
  unfold offset_rev
  simp only [c1, c2]
  rw [store_other _ _ _ _ (by omega), store_other _ _ _ _ (by omega), s2, c3,
    if_neg (by omega), if_neg (by omega)]

/-- The forward half of `offset_win_k1` writes nothing below `bittable_100` when the character
under `FW2` is not negative. -/
theorem offset_fwd_frame (rd : CharMem) (FW2 base : Int) (n : Nat) (m : Mem) (x : Int)
    (h0 : 0 ≤ rd FW2) (hx : x < base) :
    offset_fwd rd FW2 base (base + 4) n m x = m x := by
  obtain ⟨c1, c2⟩ := fwd_copy_spec n base (base + 4) m (by omega)
  obtain ⟨_, k2⟩ := mask_loop_spec 4 base (fwd_copy n base (base + 4) m).2.2
  obtain ⟨_, s2⟩ := shl_loop_spec 4 (fwd_copy n base (base + 4) m).1
    (mask_loop 4 base (fwd_copy n base (base + 4) m).2.2).2
  unfold offset_fwd
  rw [c1] at s2 ⊢
  rw [store_other _ _ _ _ (by omega), s2, k2, c2,
    if_neg (by omega), if_neg (by omega), if_neg (by omega)]

theorem TableIs_congr_mem (m m' : Mem) (base : Int) (q : Nat) (p : Nat → Int)
    (h : ∀ o : Nat, o < 4 * q + 4 → m' (base + (o : Int)) = m (base + (o : Int)))
    (hT : TableIs m base q p) : TableIs m' base q p := by
  intro d c b hd hc
  rw [h (4 * d + c) (by omega)]
  exact hT d c b hd hc

theorem TableIs_unique (m m' : Mem) (base : Int) (q : Nat) (p : Nat → Int)
    (hT : TableIs m base q p) (hT' : TableIs m' base q p) :
    ∀ o : Nat, o < 4 * q + 4 → m (base + (o : Int)) = m' (base + (o : Int)) := by
  intro o ho
  apply Nat.eq_of_testBit_eq
  intro b
  have e : o = 4 * (o / 4) + o % 4 := by omega
  have h1 := hT (o / 4) (o % 4) b (by omega) (by omega)
  have h2 := hT' (o / 4) (o % 4) b (by omega) (by omega)
  rw [← e] at h1 h2
  rw [h1, h2]

/-- One full `offset_win_k1` call moves a forward table of pattern `p` to the table of the
pattern shifted by one character. -/
theorem offset_win_k1_fwd_table (rd : CharMem) (FW2 RW1 b100 : Int) (q : Nat) (m : Mem)
    (p : Nat → Int) (hq : 1 ≤ q) (hT : TableIs m b100 q p)
    (hfw : rd FW2 = p (q + 3)) (hch : 0 ≤ rd FW2) (h0 : 0 ≤ rd RW1) (h4 : rd RW1 < 4) :
    TableIs (offset_win_k1 rd FW2 RW1 (b100 - 4) b100 (b100 + 4) (4 * q) m) b100 q
      (fun j => p (j + 1)) := by
  unfold offset_win_k1
  apply offset_fwd_table rd FW2 b100 q _ p hq _ hfw hch
  apply TableIs_congr_mem m _ b100 q p _ hT
  intro o _
  have e1 : b100 - 4 = (b100 - ((4 * q : Nat) : Int) - 4) + ((4 * q : Nat) : Int) := by omega
  have e2 : b100 - 4 + 4 = b100 := by omega
  have := offset_rev_frame rd RW1 (b100 - ((4 * q : Nat) : Int) - 4) q m (b100 + (o : Int))
    hq h0 h4 (by omega)
  rw [← e1, e2] at this
  exact this

/-- One full `offset_win_k1` call moves a reverse table of pattern `p` to the table of the
pattern with the character under `RW1` put in front. -/
theorem offset_win_k1_rev_table (rd : CharMem) (FW2 RW1 b100 : Int) (q : Nat) (m : Mem)
    (p : Nat → Int) (hq : 1 ≤ q)
    (hT : TableIs m (b100 - ((4 * q : Nat) : Int) - 4) q p)
    (hch : 0 ≤ rd FW2) (h0 : 0 ≤ rd RW1) (h4 : rd RW1 < 4) :
    TableIs (offset_win_k1 rd FW2 RW1 (b100 - 4) b100 (b100 + 4) (4 * q) m)
      (b100 - ((4 * q : Nat) : Int) - 4) q (fun j => if j = 0 then rd RW1 else p (j - 1)) := by
  unfold offset_win_k1
  have e1 : b100 - 4 = (b100 - ((4 * q : Nat) : Int) - 4) + ((4 * q : Nat) : Int) := by omega
  have e2 : b100 - 4 + 4 = b100 := by omega
  have hrev := offset_rev_table rd RW1 (b100 - ((4 * q : Nat) : Int) - 4) q m p hq hT h0 h4
  rw [← e1, e2] at hrev
  apply TableIs_congr_mem _ _ _ q _ _ hrev
  intro o ho
  exact offset_fwd_frame rd FW2 b100 (4 * q) _ _ hch (by omega)

theorem holdsRead_nonneg (rd : CharMem) (base : Int) (R : List Nat) (h : HoldsRead rd base R)
    (i : Nat) (hi : i < R.length) : 0 ≤ rd (base + (i : Int)) := by
  rw [h i hi]
  exact Int.ofNat_nonneg _

theorem holdsRead_lt_four (rd : CharMem) (base : Int) (R : List Nat) (h : HoldsRead rd base R)
    (hR : ∀ x ∈ R, x < 4) (i : Nat) (hi : i < R.length) : rd (base + (i : Int)) < 4 := by
  rw [h i hi]
  have : R.getD i 0 < 4 := by
    rw [List.getD_eq_getElem _ _ hi]
    exact hR _ (List.getElem_mem hi)
  omega

theorem offset_times_fwd_table (rd : CharMem) (fw rw : Nat → Int) (b100 : Int) (q : Nat)
    (mem : Mem) (p : Nat → Int) (hq : 1 ≤ q) (hT : TableIs mem b100 q p) :
    ∀ k : Nat,
      (∀ j : Nat, 1 ≤ j → j ≤ k →
        rd (fw j) = p (q + 2 + j) ∧ 0 ≤ rd (fw j) ∧ 0 ≤ rd (rw j) ∧ rd (rw j) < 4) →
      TableIs (offset_times rd fw rw (b100 - 4) b100 (b100 + 4) (4 * q) k mem) b100 q
        (fun j => p (j + k)) := by
  intro k
  induction k with
  | zero => intro _; simpa [offset_times] using hT
  | succ k ih =>
    intro h
    have hk := ih (fun j h1 h2 => h j h1 (by omega))
    obtain ⟨a1, a2, a3, a4⟩ := h (k + 1) (by omega) (by omega)
    have e : q + 2 + (k + 1) = q + 3 + k := by omega
    rw [e] at a1
    have := offset_win_k1_fwd_table rd (fw (k + 1)) (rw (k + 1)) b100 q _ _ hq hk a1 a2 a3 a4
    have e2 : (fun j => p (j + 1 + k)) = (fun j => p (j + (k + 1))) := by
      funext j
      congr 1
      omega
    simp only [offset_times]
    rw [← e2]
    exact this

theorem offset_times_rev_table (rd : CharMem) (fw rw : Nat → Int) (b100 : Int) (q : Nat)
    (mem : Mem) (p : Nat → Int) (hq : 1 ≤ q)
    (hT : TableIs mem (b100 - ((4 * q : Nat) : Int) - 4) q p) :
    ∀ k : Nat,
      (∀ j : Nat, 1 ≤ j → j ≤ k → 0 ≤ rd (fw j) ∧ 0 ≤ rd (rw j) ∧ rd (rw j) < 4) →
      TableIs (offset_times rd fw rw (b100 - 4) b100 (b100 + 4) (4 * q) k mem)
        (b100 - ((4 * q : Nat) : Int) - 4) q
        (fun j => if j < k then rd (rw (k - j)) else p (j - k)) := by
  intro k
  induction k with
  | zero => intro _; simpa [offset_times] using hT
  | succ k ih =>
    intro h
    have hk := ih (fun j h1 h2 => h j h1 (by omega))
    obtain ⟨a2, a3, a4⟩ := h (k + 1) (by omega) (by omega)
    have := offset_win_k1_rev_table rd (fw (k + 1)) (rw (k + 1)) b100 q _ _ hq hk a2 a3 a4
    have e2 : (fun j => if j = 0 then rd (rw (k + 1))
          else (if j - 1 < k then rd (rw (k - (j - 1))) else p (j - 1 - k)))
        = (fun j => if j < k + 1 then rd (rw (k + 1 - j)) else p (j - (k + 1))) := by
      funext j
      by_cases hj0 : j = 0
      · subst hj0
        simp
      · by_cases hjk : j < k + 1
        · have h1 : j - 1 < k := by omega
          have h2 : k - (j - 1) = k + 1 - j := by omega
          simp [hj0, hjk, h1, h2]
        · have h1 : ¬ j - 1 < k := by omega
          have h2 : j - 1 - k = j - (k + 1) := by omega
          simp [hj0, hjk, h1, h2]
    simp only [offset_times]
    rw [← e2]
    exact this

/-! ### Claims about the window tables -/

theorem readMem_holds (R : List Nat) : HoldsRead (readMem R) 0 R := by
  intro i _
  simp [readMem]

theorem zeroMem_zeroed (base : Int) (len : Nat) : Zeroed zeroMem base len := by
  intro o _
  rfl

theorem Zeroed_mono (m : Mem) (base : Int) (len len' : Nat) (h : len' ≤ len)
    (hz : Zeroed m base len) : Zeroed m base len' := by
  intro o ho
  exact hz o (by omega)

/-- C1. Forward half, incremental equals from scratch: for a positive multiple-of-4 `numbvs`
(half-window `m = numbvs/4 + 3`), a sequence `R` over `{0,1,2,3}` with `m + k ≤ |R|`, running
`init_win_f` on `R[0..m)` into a zeroed forward table of `numbvs + 4` bytes at `bittable_100`
and then calling `offset_win_k1` `k` times, the `j`-th call with `FW2` at `R[m-1+j]` (and
`RW1` anywhere in `R`, `bittable_0P0 = bittable_100 - 4`, `bittable_110 = bittable_100 + 4`),
leaves a forward table that is byte-for-byte the table `init_win_f` builds on a zeroed table
from `R[k..k+m)`. -/
theorem forward_incremental_eq_scratch
    (numbvs k : Nat) (R : List Nat) (rd : CharMem) (base : Int) (rw : Nat → Nat)
    (bittable_100 : Int) (mem0 mem1 : Mem)
    (hpos : 0 < numbvs) (hmul : numbvs % 4 = 0)
    (hR : ∀ x ∈ R, x < 4) (hlen : numbvs / 4 + 3 + k ≤ R.length)
    (hrd : HoldsRead rd base R) (hrw : ∀ j, rw j < R.length)
    (hz0 : Zeroed mem0 bittable_100 (numbvs + 4)) (hz1 : Zeroed mem1 bittable_100 (numbvs + 4)) :
    ∀ o : Nat, o < numbvs + 4 →
      offset_times rd (fun j => base + ((numbvs / 4 + 3 - 1 + j : Nat) : Int))
          (fun j => base + ((rw j : Nat) : Int))
          (bittable_100 - 4) bittable_100 (bittable_100 + 4) numbvs k
          (init_win_f rd base bittable_100 (bittable_100 + 4) numbvs mem0)
          (bittable_100 + (o : Int))
        = init_win_f rd (base + (k : Int)) bittable_100 (bittable_100 + 4) numbvs mem1
          (bittable_100 + (o : Int)) := by
  obtain ⟨q, rfl⟩ : ∃ q, numbvs = 4 * q := ⟨numbvs / 4, by omega⟩
  have hq4 : 4 * q / 4 = q := by omega
  rw [hq4] at hlen ⊢
  have hq : 1 ≤ q := by omega
  have hT0 := init_win_f_table rd base bittable_100 q mem0
    (Zeroed_mono _ _ _ 4 (by omega) hz0)
    (fun j hj => holdsRead_nonneg rd base R hrd j (by omega))
  have hTk := offset_times_fwd_table rd (fun j => base + ((q + 3 - 1 + j : Nat) : Int))
    (fun j => base + ((rw j : Nat) : Int)) bittable_100 q _ _ hq hT0 k (by
      intro j _ hj2
      have e : q + 3 - 1 + j = q + 2 + j := by omega
      refine ⟨by simp only [e], ?_, ?_, ?_⟩
      · exact holdsRead_nonneg rd base R hrd _ (by omega)
      · exact holdsRead_nonneg rd base R hrd _ (hrw j)
      · exact holdsRead_lt_four rd base R hrd hR _ (hrw j))
  have hT1 := init_win_f_table rd (base + (k : Int)) bittable_100 q mem1
    (Zeroed_mono _ _ _ 4 (by omega) hz1)
    (fun j hj => by
      have := holdsRead_nonneg rd base R hrd (k + j) (by omega)
      have e : base + ((k + j : Nat) : Int) = base + (k : Int) + (j : Int) := by omega
      rw [e] at this
      exact this)
  have e : (fun j : Nat => rd (base + ((j + k : Nat) : Int)))
      = (fun j : Nat => rd (base + (k : Int) + (j : Int))) := by
    funext j
    congr 1
    omega
  rw [e] at hTk
  exact TableIs_unique _ _ bittable_100 q _ hTk hT1

/-- C2. Reverse half, incremental equals from scratch: for a positive multiple-of-4 `numbvs`
(`m = numbvs/4 + 3`), a sequence `R` over `{0,1,2,3}` and a position `e` with `e - m + 1 ≥ 0`
and `e + k < |R|`, running `init_win_r` with its pointer at `R[e]` into a zeroed reverse table
occupying the `numbvs + 4` bytes that end at `bittable_100` and then calling `offset_win_k1`
`k` times, the `j`-th call with `RW1` at `R[e+j]` (and `FW2` anywhere in `R`,
`bittable_0P0 = bittable_100 - 4`), leaves a reverse table that is byte-for-byte the table
`init_win_r` builds on a zeroed table with its pointer at `R[e+k]`; `k = 1` is the single
call of the claim. -/
theorem reverse_incremental_eq_scratch
    (numbvs k e : Nat) (R : List Nat) (rd : CharMem) (base : Int) (fw : Nat → Nat)
    (bittable_100 : Int) (mem0 mem1 : Mem)
    (hpos : 0 < numbvs) (hmul : numbvs % 4 = 0)
    (hR : ∀ x ∈ R, x < 4) (he : numbvs / 4 + 3 ≤ e + 1) (hek : e + k < R.length)
    (hrd : HoldsRead rd base R) (hfw : ∀ j, fw j < R.length)
    (hz0 : Zeroed mem0 (bittable_100 - (numbvs : Int) - 4) (numbvs + 4))
    (hz1 : Zeroed mem1 (bittable_100 - (numbvs : Int) - 4) (numbvs + 4)) :
    ∀ o : Nat, o < numbvs + 4 →
      offset_times rd (fun j => base + ((fw j : Nat) : Int))
          (fun j => base + ((e + j : Nat) : Int))
          (bittable_100 - 4) bittable_100 (bittable_100 + 4) numbvs k
          (init_win_r rd (base + (e : Int)) (bittable_100 - (numbvs : Int) - 4)
            (bittable_100 - (numbvs : Int) - 4 + 4) numbvs mem0)
          (bittable_100 - (numbvs : Int) - 4 + (o : Int))
        = init_win_r rd (base + ((e + k : Nat) : Int)) (bittable_100 - (numbvs : Int) - 4)
            (bittable_100 - (numbvs : Int) - 4 + 4) numbvs mem1
          (bittable_100 - (numbvs : Int) - 4 + (o : Int)) := by
  obtain ⟨q, rfl⟩ : ∃ q, numbvs = 4 * q := ⟨numbvs / 4, by omega⟩
  have hq4 : 4 * q / 4 = q := by omega
  rw [hq4] at he
  have hq : 1 ≤ q := by omega
  rw [init_win_r_eq_f, init_win_r_eq_f]
  have hT0 := init_win_f_table (fun a => rd (base + (e : Int) - a)) 0
    (bittable_100 - ((4 * q : Nat) : Int) - 4) q mem0
    (Zeroed_mono _ _ _ 4 (by omega) hz0)
    (fun j hj => by
      have := holdsRead_nonneg rd base R hrd (e - j) (by omega)
      have e' : base + ((e - j : Nat) : Int) = base + (e : Int) - (0 + (j : Int)) := by omega
      rw [e'] at this
      exact this)
  have hTk := offset_times_rev_table rd (fun j => base + ((fw j : Nat) : Int))
    (fun j => base + ((e + j : Nat) : Int)) bittable_100 q _ _ hq hT0 k (by
      intro j _ hj2
      refine ⟨?_, ?_, ?_⟩
      · exact holdsRead_nonneg rd base R hrd _ (hfw j)
      · exact holdsRead_nonneg rd base R hrd _ (by omega)
      · exact holdsRead_lt_four rd base R hrd hR _ (by omega))
  have hT1 := init_win_f_table (fun a => rd (base + ((e + k : Nat) : Int) - a)) 0
    (bittable_100 - ((4 * q : Nat) : Int) - 4) q mem1
    (Zeroed_mono _ _ _ 4 (by omega) hz1)
    (fun j hj => by
      have := holdsRead_nonneg rd base R hrd (e + k - j) (by omega)
      have e' : base + ((e + k - j : Nat) : Int)
          = base + ((e + k : Nat) : Int) - (0 + (j : Int)) := by omega
      rw [e'] at this
      exact this)
  have e' : (fun j : Nat => if j < k then rd (base + ((e + (k - j) : Nat) : Int))
        else rd (base + (e : Int) - (0 + ((j - k : Nat) : Int))))
      = (fun j : Nat => rd (base + ((e + k : Nat) : Int) - (0 + (j : Int)))) := by
    funext j
    by_cases hj : j < k
    · rw [if_pos hj]
      congr 1
      omega
    · rw [if_neg hj]
      congr 1
      omega
  simp only [] at hTk
  rw [e'] at hTk
  exact TableIs_unique _ _ _ q _ hTk hT1

/-- The forward statement instantiated at `numbvs = 4`, `k = 1` and the read `exRead`. -/
theorem forward_incremental_eq_scratch_witness :
    (0 < 4 ∧ 4 % 4 = 0 ∧ (∀ x ∈ exRead, x < 4) ∧ 4 / 4 + 3 + 1 ≤ exRead.length) ∧
    ∀ o : Nat, o < 4 + 4 →
      offset_times (readMem exRead) (fun j => 0 + ((4 / 4 + 3 - 1 + j : Nat) : Int))
          (fun _ => 0 + ((0 : Nat) : Int)) (8 - 4) 8 (8 + 4) 4 1
          (init_win_f (readMem exRead) 0 8 (8 + 4) 4 zeroMem) (8 + (o : Int))
        = init_win_f (readMem exRead) (0 + ((1 : Nat) : Int)) 8 (8 + 4) 4 zeroMem (8 + (o : Int)) :=
  ⟨⟨by decide, by decide, by decide, by decide⟩,
    forward_incremental_eq_scratch 4 1 exRead (readMem exRead) 0 (fun _ => 0) 8 zeroMem zeroMem
      (by decide) (by decide) (by decide) (by decide) (readMem_holds _) (fun _ => by simp [exRead])
      (zeroMem_zeroed _ _) (zeroMem_zeroed _ _)⟩

/-- The reverse statement instantiated at `numbvs = 4`, `k = 1`, `e = 3` and the read `exRead`. -/
theorem reverse_incremental_eq_scratch_witness :
    (0 < 4 ∧ 4 % 4 = 0 ∧ (∀ x ∈ exRead, x < 4) ∧ 4 / 4 + 3 ≤ 3 + 1 ∧ 3 + 1 < exRead.length) ∧
    ∀ o : Nat, o < 4 + 4 →
      offset_times (readMem exRead) (fun _ => 0 + ((0 : Nat) : Int))
          (fun j => 0 + ((3 + j : Nat) : Int)) (8 - 4) 8 (8 + 4) 4 1
          (init_win_r (readMem exRead) (0 + ((3 : Nat) : Int)) (8 - ((4 : Nat) : Int) - 4)
            (8 - ((4 : Nat) : Int) - 4 + 4) 4 zeroMem)
          (8 - ((4 : Nat) : Int) - 4 + (o : Int))
        = init_win_r (readMem exRead) (0 + ((3 + 1 : Nat) : Int)) (8 - ((4 : Nat) : Int) - 4)
            (8 - ((4 : Nat) : Int) - 4 + 4) 4 zeroMem
          (8 - ((4 : Nat) : Int) - 4 + (o : Int)) :=
  ⟨⟨by decide, by decide, by decide, by decide, by decide⟩,
    reverse_incremental_eq_scratch 4 1 3 exRead (readMem exRead) 0 (fun _ => 0) 8 zeroMem zeroMem
      (by decide) (by decide) (by decide) (by decide) (by decide) (readMem_holds _)
      (fun _ => by simp [exRead]) (zeroMem_zeroed _ _) (zeroMem_zeroed _ _)⟩

/-- C7. Function `init_win_r` is `init_win_f` on the reversed pattern: for every `numbvs`,
every pattern `p` of length `m = numbvs/4 + 3` and every initial memory, `init_win_r` called
with its pointer at `p[m-1]` leaves the same memory (hence the same table) as `init_win_f`
called with its pointer at the first character of `reverse p`. -/
theorem init_win_r_eq_init_win_f_reverse
    (numbvs : Nat) (p : List Nat) (rd rd' : CharMem) (base base' : Int)
    (bittable_000 bittable_010 : Int) (mem : Mem)
    (hlen : p.length = numbvs / 4 + 3)
    (hrd : HoldsRead rd base p) (hrd' : HoldsRead rd' base' p.reverse) :
    init_win_r rd (base + ((numbvs / 4 + 3 - 1 : Nat) : Int)) bittable_000 bittable_010 numbvs mem
      = init_win_f rd' base' bittable_000 bittable_010 numbvs mem := by
  rw [init_win_r_eq_f]
  apply init_win_f_congr
  intro j hj
  have h1 := hrd (numbvs / 4 + 3 - 1 - j) (by omega)
  have h2 := hrd' j (by rw [List.length_reverse]; omega)
  have e : base + ((numbvs / 4 + 3 - 1 - j : Nat) : Int)
      = base + ((numbvs / 4 + 3 - 1 : Nat) : Int) - (0 + (j : Int)) := by omega
  rw [e] at h1
  rw [h1, h2]
  have hj' : j < p.reverse.length := by rw [List.length_reverse]; omega
  rw [List.getD_eq_getElem _ _ hj', List.getD_eq_getElem _ _ (by omega), List.getElem_reverse]
  congr 2
  omega

/-- The reversal statement instantiated at `numbvs = 4` and the pattern `0 1 2 3`. -/
theorem init_win_r_eq_init_win_f_reverse_witness :
    ([0, 1, 2, 3] : List Nat).length = 4 / 4 + 3 ∧
    init_win_r (readMem [0, 1, 2, 3]) (0 + ((4 / 4 + 3 - 1 : Nat) : Int)) 8 12 4 zeroMem
      = init_win_f (readMem [3, 2, 1, 0]) 0 8 12 4 zeroMem :=
  ⟨by decide,
    init_win_r_eq_init_win_f_reverse 4 [0, 1, 2, 3] (readMem [0, 1, 2, 3]) (readMem [3, 2, 1, 0])
      0 0 8 12 zeroMem (by decide) (readMem_holds _) (readMem_holds _)⟩
/-- C8. N is a mismatch in the initial table: for a multiple-of-4 `numbvs` and a pattern `p`
of length `m = numbvs/4 + 3` (over `{0,1,2,3,4}`, or any other character values), after
`init_win_f` called at `p[0]`, respectively `init_win_r` called at `p[m-1]`, on a zeroed
buffer, a bit `b` of the entry `[d][c]` (`d ≤ numbvs/4`, `c` one of the four nucleotides) is
set only if `d + 2 - b ≥ 0` and the character read at position `d + 2 - b` (which is
`p[d+2-b]` for `init_win_f` and `p[m-1-(d+2-b)]` for `init_win_r`) equals `c`; so the bit
that stands for a pattern position holding `4` is clear in all four entries at every depth. -/
theorem init_tables_N_mismatch
    (numbvs : Nat) (p : List Nat) (rd : CharMem) (base : Int) (bittable_000 : Int) (mem : Mem)
    (hmul : numbvs % 4 = 0) (hlen : p.length = numbvs / 4 + 3) (hrd : HoldsRead rd base p)
    (hz : Zeroed mem bittable_000 (numbvs + 4)) :
    (∀ d c b : Nat, d ≤ numbvs / 4 → c < 4 →
      (init_win_f rd base bittable_000 (bittable_000 + 4) numbvs mem
        (bittable_000 + ((4 * d + c : Nat) : Int))).testBit b = true →
      b ≤ d + 2 ∧ p.getD (d + 2 - b) 0 = c) ∧
    (∀ d c b : Nat, d ≤ numbvs / 4 → c < 4 →
      (init_win_r rd (base + ((numbvs / 4 + 2 : Nat) : Int)) bittable_000 (bittable_000 + 4)
        numbvs mem (bittable_000 + ((4 * d + c : Nat) : Int))).testBit b = true →
      b ≤ d + 2 ∧ p.getD (numbvs / 4 + 2 - (d + 2 - b)) 0 = c) ∧
    (∀ j d c b : Nat, p.getD j 0 = 4 → d ≤ numbvs / 4 → c < 4 → d + 2 = j + b →
      (init_win_f rd base bittable_000 (bittable_000 + 4) numbvs mem
        (bittable_000 + ((4 * d + c : Nat) : Int))).testBit b = false) ∧
    (∀ j d c b : Nat, p.getD j 0 = 4 → d ≤ numbvs / 4 → c < 4 →
      d + 2 = (numbvs / 4 + 2 - j) + b → j ≤ numbvs / 4 + 2 →
      (init_win_r rd (base + ((numbvs / 4 + 2 : Nat) : Int)) bittable_000 (bittable_000 + 4)
        numbvs mem (bittable_000 + ((4 * d + c : Nat) : Int))).testBit b = false) := by
  obtain ⟨q, rfl⟩ : ∃ q, numbvs = 4 * q := ⟨numbvs / 4, by omega⟩
  have hq4 : 4 * q / 4 = q := by omega
  rw [hq4] at hlen ⊢
  have hTf := init_win_f_table rd base bittable_000 q mem
    (Zeroed_mono _ _ _ 4 (by omega) hz)
    (fun j hj => holdsRead_nonneg rd base p hrd j (by omega))
  have hTr : TableIs (init_win_r rd (base + ((q + 2 : Nat) : Int)) bittable_000
      (bittable_000 + 4) (4 * q) mem) bittable_000 q
      (fun j => rd (base + ((q + 2 : Nat) : Int) - (0 + (j : Int)))) := by
    rw [init_win_r_eq_f]
    exact init_win_f_table (fun a => rd (base + ((q + 2 : Nat) : Int) - a)) 0 bittable_000 q mem
      (Zeroed_mono _ _ _ 4 (by omega) hz)
      (fun j hj => by
        have := holdsRead_nonneg rd base p hrd (q + 2 - j) (by omega)
        have e' : base + ((q + 2 - j : Nat) : Int)
            = base + ((q + 2 : Nat) : Int) - (0 + (j : Int)) := by omega
        rw [e'] at this
        exact this)
  have keyf : ∀ d c b : Nat, d ≤ q → c < 4 →
      (init_win_f rd base bittable_000 (bittable_000 + 4) (4 * q) mem
        (bittable_000 + ((4 * d + c : Nat) : Int))).testBit b = true →
      b ≤ d + 2 ∧ p.getD (d + 2 - b) 0 = c := by
    intro d c b hd hc hb
    rw [hTf d c b hd hc] at hb
    obtain ⟨_, h2, h3⟩ := of_decide_eq_true hb
    refine ⟨h2, ?_⟩
    simp only [] at h3
    rw [hrd (d + 2 - b) (by omega)] at h3
    exact_mod_cast h3
  have keyr : ∀ d c b : Nat, d ≤ q → c < 4 →
      (init_win_r rd (base + ((q + 2 : Nat) : Int)) bittable_000 (bittable_000 + 4)
        (4 * q) mem (bittable_000 + ((4 * d + c : Nat) : Int))).testBit b = true →
      b ≤ d + 2 ∧ p.getD (q + 2 - (d + 2 - b)) 0 = c := by
    intro d c b hd hc hb
    rw [hTr d c b hd hc] at hb
    obtain ⟨_, h2, h3⟩ := of_decide_eq_true hb
    refine ⟨h2, ?_⟩
    have e' : base + ((q + 2 : Nat) : Int) - (0 + ((d + 2 - b : Nat) : Int))
        = base + ((q + 2 - (d + 2 - b) : Nat) : Int) := by omega
    simp only [] at h3
    rw [e', hrd (q + 2 - (d + 2 - b)) (by omega)] at h3
    exact_mod_cast h3
  refine ⟨keyf, keyr, ?_, ?_⟩
  · intro j d c b hj hd hc hdb
    by_contra hne
    have hb := (Bool.not_eq_false _).mp hne
    obtain ⟨_, h2⟩ := keyf d c b hd hc hb
    have e' : d + 2 - b = j := by omega
    rw [e', hj] at h2
    omega
  · intro j d c b hj hd hc hdb hjq
    by_contra hne
    have hb := (Bool.not_eq_false _).mp hne
    obtain ⟨_, h2⟩ := keyr d c b hd hc hb
    have e' : q + 2 - (d + 2 - b) = j := by omega
    rw [e', hj] at h2
    omega

/-- The mismatch statement instantiated at `numbvs = 4` and the pattern `4 1 4 3`. -/
theorem init_tables_N_mismatch_witness :
    (4 % 4 = 0 ∧ ([4, 1, 4, 3] : List Nat).length = 4 / 4 + 3) ∧
    ((∀ d c b : Nat, d ≤ 4 / 4 → c < 4 →
      (init_win_f (readMem [4, 1, 4, 3]) 0 8 (8 + 4) 4 zeroMem
        (8 + ((4 * d + c : Nat) : Int))).testBit b = true →
      b ≤ d + 2 ∧ ([4, 1, 4, 3] : List Nat).getD (d + 2 - b) 0 = c) ∧
    (∀ d c b : Nat, d ≤ 4 / 4 → c < 4 →
      (init_win_r (readMem [4, 1, 4, 3]) (0 + ((4 / 4 + 2 : Nat) : Int)) 8 (8 + 4)
        4 zeroMem (8 + ((4 * d + c : Nat) : Int))).testBit b = true →
      b ≤ d + 2 ∧ ([4, 1, 4, 3] : List Nat).getD (4 / 4 + 2 - (d + 2 - b)) 0 = c) ∧
    (∀ j d c b : Nat, ([4, 1, 4, 3] : List Nat).getD j 0 = 4 → d ≤ 4 / 4 → c < 4 → d + 2 = j + b →
      (init_win_f (readMem [4, 1, 4, 3]) 0 8 (8 + 4) 4 zeroMem
        (8 + ((4 * d + c : Nat) : Int))).testBit b = false) ∧
    (∀ j d c b : Nat, ([4, 1, 4, 3] : List Nat).getD j 0 = 4 → d ≤ 4 / 4 → c < 4 →
      d + 2 = (4 / 4 + 2 - j) + b → j ≤ 4 / 4 + 2 →
      (init_win_r (readMem [4, 1, 4, 3]) (0 + ((4 / 4 + 2 : Nat) : Int)) 8 (8 + 4)
        4 zeroMem (8 + ((4 * d + c : Nat) : Int))).testBit b = false)) :=
  ⟨⟨by decide, by decide⟩,
    init_tables_N_mismatch 4 [4, 1, 4, 3] (readMem [4, 1, 4, 3]) 0 8 zeroMem
      (by decide) (by decide) (readMem_holds _) (zeroMem_zeroed _ _)⟩
/-- The reverse half of `offset_win_k1` leaves every cell alone that is neither in the reverse
table nor one of the two cells it ORs a bit into. -/
theorem offset_rev_frame_gen (rd : CharMem) (RW1 rb : Int) (q : Nat) (m : Mem) (x : Int)
    (hx : x < rb ∨ rb + ((4 * q : Nat) : Int) + 4 ≤ x)
    (h1 : x ≠ rb + rd RW1) (h2 : x ≠ rb + 4 + rd RW1) :
    offset_rev rd RW1 (rb + ((4 * q : Nat) : Int)) (rb + ((4 * q : Nat) : Int) + 4) (4 * q) m x
      = m x := by
  obtain ⟨c1, c2, c3⟩ := rev_copy_spec (4 * q) (rb + ((4 * q : Nat) : Int))
    (rb + ((4 * q : Nat) : Int) + 4) m (by omega)
  obtain ⟨_, s2⟩ := shr_loop_spec 4
    (rev_copy (4 * q) (rb + ((4 * q : Nat) : Int)) (rb + ((4 * q : Nat) : Int) + 4) m).1
    (rev_copy (4 * q) (rb + ((4 * q : Nat) : Int)) (rb + ((4 * q : Nat) : Int) + 4) m).2.2
  rw [c1] at s2
  unfold offset_rev
  simp only [c1, c2]
  rw [store_other _ _ _ _ (by omega), store_other _ _ _ _ (by omega), s2, c3,
    if_neg (by omega), if_neg (by omega)]

/-- With `RW1` pointing at `4`, the reverse half of `offset_win_k1` moves the table one depth
deeper and shifts depth 0 right, except for the entries of `A` at depths 1 and 2. -/
theorem offset_rev_N (rd : CharMem) (RW1 rb : Int) (q : Nat) (m : Mem)
    (hN : rd RW1 = 4) (hb : ∀ x, m x < 256) :
    (∀ c : Nat, c < 4 →
      offset_rev rd RW1 (rb + ((4 * q : Nat) : Int)) (rb + ((4 * q : Nat) : Int) + 4) (4 * q) m
        (rb + (c : Int)) = m (rb + (c : Int)) >>> 1) ∧
    (∀ d c : Nat, 1 ≤ d → d ≤ q → c < 4 → ¬ (c = 0 ∧ (d = 1 ∨ d = 2)) →
      offset_rev rd RW1 (rb + ((4 * q : Nat) : Int)) (rb + ((4 * q : Nat) : Int) + 4) (4 * q) m
        (rb + ((4 * d + c : Nat) : Int)) = m (rb + ((4 * (d - 1) + c : Nat) : Int))) := by
  obtain ⟨c1, c2, c3⟩ := rev_copy_spec (4 * q) (rb + ((4 * q : Nat) : Int))
    (rb + ((4 * q : Nat) : Int) + 4) m (by omega)
  obtain ⟨_, s2⟩ := shr_loop_spec 4
    (rev_copy (4 * q) (rb + ((4 * q : Nat) : Int)) (rb + ((4 * q : Nat) : Int) + 4) m).1
    (rev_copy (4 * q) (rb + ((4 * q : Nat) : Int)) (rb + ((4 * q : Nat) : Int) + 4) m).2.2
  rw [c1] at s2
  constructor
  · intro c hc
    unfold offset_rev
    simp only [c1, c2]
    rw [store_other _ _ _ _ (by omega), store_other _ _ _ _ (by omega), s2, c3,
      if_pos (by omega), if_neg (by omega)]
    have := hb (rb + (c : Int))
    rw [Nat.shiftRight_eq_div_pow]
    omega
  · intro d c hd1 hdq hc hne
    unfold offset_rev
    simp only [c1, c2]
    rw [store_other _ _ _ _ (by omega), store_other _ _ _ _ (by omega), s2, c3,
      if_neg (by omega), if_pos (by omega)]
    have e : rb + ((4 * d + c : Nat) : Int)
        - (rb + ((4 * q : Nat) : Int) + 4 - (rb + ((4 * q : Nat) : Int)))
        = rb + ((4 * (d - 1) + c : Nat) : Int) := by omega
    rw [e]
    exact Nat.mod_eq_of_lt (hb _)

/-- With `FW2` pointing at `4`, the forward half of `offset_win_k1` only shifts: the `|= 1`
falls behind the table. -/
theorem offset_fwd_N (rd : CharMem) (FW2 base : Int) (q : Nat) (m : Mem)
    (hq : 1 ≤ q) (hN : rd FW2 = 4) :
    (∀ c : Nat, c < 4 →
      offset_fwd rd FW2 base (base + 4) (4 * q) m (base + (c : Int))
        = (m (base + ((4 + c : Nat) : Int)) % 256 &&& 7) % 256) ∧
    (∀ d c : Nat, 1 ≤ d → d < q → c < 4 →
      offset_fwd rd FW2 base (base + 4) (4 * q) m (base + ((4 * d + c : Nat) : Int))
        = m (base + ((4 * (d + 1) + c : Nat) : Int)) % 256) ∧
    (∀ c : Nat, c < 4 →
      offset_fwd rd FW2 base (base + 4) (4 * q) m (base + ((4 * q + c : Nat) : Int))
        = ((m (base + ((4 * q + c : Nat) : Int)) <<< 1) % 256 &&& 15) % 256) := by
  obtain ⟨c1, c2⟩ := fwd_copy_spec (4 * q) base (base + 4) m (by omega)
  obtain ⟨_, k2⟩ := mask_loop_spec 4 base (fwd_copy (4 * q) base (base + 4) m).2.2
  obtain ⟨_, s2⟩ := shl_loop_spec 4 (fwd_copy (4 * q) base (base + 4) m).1
    (mask_loop 4 base (fwd_copy (4 * q) base (base + 4) m).2.2).2
  rw [c1] at s2
  refine ⟨?_, ?_, ?_⟩
  · intro c hc
    unfold offset_fwd
    rw [c1, store_other _ _ _ _ (by omega), s2, k2, c2,
      if_neg (by omega), if_pos (by omega), if_pos (by omega)]
    have e : base + (c : Int) + (base + 4 - base) = base + ((4 + c : Nat) : Int) := by omega
    rw [e]
  · intro d c hd1 hdq hc
    unfold offset_fwd
    rw [c1, store_other _ _ _ _ (by omega), s2, k2, c2,
      if_neg (by omega), if_neg (by omega), if_pos (by omega)]
    have e : base + ((4 * d + c : Nat) : Int) + (base + 4 - base)
        = base + ((4 * (d + 1) + c : Nat) : Int) := by omega
    rw [e]
  · intro c hc
    unfold offset_fwd
    rw [c1, store_other _ _ _ _ (by omega), s2, k2, c2,
      if_pos (by omega), if_neg (by omega), if_neg (by omega)]
/-- C9 (as stated, refuted). With `numbvs = 8`, an all-zero memory, the reverse table at
addresses `0..11` (`bittable_100 = 12`) and `RW1` pointing at `4`, the window shift does OR
bits into entries of `A`: the new depth-1 entry of `A` (address 4) is not the old depth-0 entry
of `A` (address 0), and the new depth-2 entry of `A` (address 8) is not the old depth-1 entry of
`A` (address 4); their values are `MSB4 = 4` and `MSB8 = 8`. -/
theorem offset_N_reverse_counterexample :
    (offset_win_k1 (readMem [4, 0]) 1 0 8 12 16 8 zeroMem 4 ≠ zeroMem 0 ∧
      offset_win_k1 (readMem [4, 0]) 1 0 8 12 16 8 zeroMem 8 ≠ zeroMem 4) ∧
    (offset_win_k1 (readMem [4, 0]) 1 0 8 12 16 8 zeroMem 4 = 4 ∧
      offset_win_k1 (readMem [4, 0]) 1 0 8 12 16 8 zeroMem 8 = 8) := by
  decide
/-- C9 (amended). For every table state (a memory of bytes) and positive multiple-of-4
`numbvs`, with `bittable_0P0 = bittable_100 - 4` and `bittable_110 = bittable_100 + 4`:
when `offset_win_k1` is called with `RW1` pointing at `4` (and `FW2` at a non-negative
character), every entry of the new reverse table other than the entries of `A` at depths 1
and 2 is the old table moved one depth deeper, with the depth-0 entries right-shifted by one
and nothing else; and when `FW2` points at `4` (and `RW1` at a character in `0..4`) no least
significant bit is set in the forward table: it is the old one moved one depth up, depth 0
masked with `0b0111`, the last depth shifted left under `0b1111`. -/
theorem offset_N_amended
    (numbvs : Nat) (rd : CharMem) (FW2 RW1 bittable_100 : Int) (mem : Mem)
    (hpos : 0 < numbvs) (hmul : numbvs % 4 = 0) (hbytes : ∀ x, mem x < 256) :
    (rd RW1 = 4 → 0 ≤ rd FW2 →
      (∀ c : Nat, c < 4 →
        offset_win_k1 rd FW2 RW1 (bittable_100 - 4) bittable_100 (bittable_100 + 4) numbvs mem
            (bittable_100 - (numbvs : Int) - 4 + (c : Int))
          = mem (bittable_100 - (numbvs : Int) - 4 + (c : Int)) >>> 1) ∧
      (∀ d c : Nat, 1 ≤ d → d ≤ numbvs / 4 → c < 4 → ¬ (c = 0 ∧ (d = 1 ∨ d = 2)) →
        offset_win_k1 rd FW2 RW1 (bittable_100 - 4) bittable_100 (bittable_100 + 4) numbvs mem
            (bittable_100 - (numbvs : Int) - 4 + ((4 * d + c : Nat) : Int))
          = mem (bittable_100 - (numbvs : Int) - 4 + ((4 * (d - 1) + c : Nat) : Int)))) ∧
    (rd FW2 = 4 → 0 ≤ rd RW1 → rd RW1 ≤ 4 →
      (∀ c : Nat, c < 4 →
        offset_win_k1 rd FW2 RW1 (bittable_100 - 4) bittable_100 (bittable_100 + 4) numbvs mem
            (bittable_100 + (c : Int))
          = mem (bittable_100 + ((4 + c : Nat) : Int)) &&& 7) ∧
      (∀ d c : Nat, 1 ≤ d → d < numbvs / 4 → c < 4 →
        offset_win_k1 rd FW2 RW1 (bittable_100 - 4) bittable_100 (bittable_100 + 4) numbvs mem
            (bittable_100 + ((4 * d + c : Nat) : Int))
          = mem (bittable_100 + ((4 * (d + 1) + c : Nat) : Int))) ∧
      (∀ c : Nat, c < 4 →
        offset_win_k1 rd FW2 RW1 (bittable_100 - 4) bittable_100 (bittable_100 + 4) numbvs mem
            (bittable_100 + ((numbvs + c : Nat) : Int))
          = (mem (bittable_100 + ((numbvs + c : Nat) : Int)) <<< 1) % 256 &&& 15)) := by
  obtain ⟨q, rfl⟩ : ∃ q, numbvs = 4 * q := ⟨numbvs / 4, by omega⟩
  have hq4 : 4 * q / 4 = q := by omega
  rw [hq4]
  have hq : 1 ≤ q := by omega
  have e1 : bittable_100 - 4 = (bittable_100 - ((4 * q : Nat) : Int) - 4) + ((4 * q : Nat) : Int) := by
    omega
  have e2 : bittable_100 - 4 + 4 = bittable_100 := by omega
  constructor
  · intro hN hF
    have hrev := offset_rev_N rd RW1 (bittable_100 - ((4 * q : Nat) : Int) - 4) q mem hN hbytes
    rw [← e1, e2] at hrev
    constructor
    · intro c hc
      unfold offset_win_k1
      rw [offset_fwd_frame rd FW2 bittable_100 (4 * q) _ _ hF (by omega)]
      exact hrev.1 c hc
    · intro d c hd1 hdq hc hne
      unfold offset_win_k1
      rw [offset_fwd_frame rd FW2 bittable_100 (4 * q) _ _ hF (by omega)]
      exact hrev.2 d c hd1 hdq hc hne
  · intro hN hR0 hR4
    have hfr : ∀ x : Int, bittable_100 + 4 ≤ x →
        offset_rev rd RW1 (bittable_100 - 4) bittable_100 (4 * q) mem x = mem x := by
      intro x hx
      have := offset_rev_frame_gen rd RW1 (bittable_100 - ((4 * q : Nat) : Int) - 4) q mem x
        (by omega) (by omega) (by omega)
      rw [← e1, e2] at this
      exact this
    obtain ⟨f1, f2, f3⟩ := offset_fwd_N rd FW2 bittable_100 q
      (offset_rev rd RW1 (bittable_100 - 4) bittable_100 (4 * q) mem) hq hN
    refine ⟨?_, ?_, ?_⟩
    · intro c hc
      unfold offset_win_k1
      rw [f1 c hc, hfr _ (by omega), Nat.mod_eq_of_lt (hbytes _)]
      apply Nat.mod_eq_of_lt
      have := @Nat.and_le_right (mem (bittable_100 + ((4 + c : Nat) : Int))) 7
      omega
    · intro d c hd1 hdq hc
      unfold offset_win_k1
      rw [f2 d c hd1 hdq hc, hfr _ (by omega), Nat.mod_eq_of_lt (hbytes _)]
    · intro c hc
      unfold offset_win_k1
      rw [f3 c hc, hfr _ (by omega)]
      apply Nat.mod_eq_of_lt
      have := @Nat.and_le_right ((mem (bittable_100 + ((4 * q + c : Nat) : Int)) <<< 1) % 256) 15
      omega

theorem zeroMem_byte (x : Int) : zeroMem x < 256 := by
  show (0 : Nat) < 256
  decide

/-- The amended statement instantiated at `numbvs = 8` with both `FW2` and `RW1` pointing at `4`. -/
theorem offset_N_amended_witness :
    (0 < 8 ∧ 8 % 4 = 0 ∧ readMem [4, 4] 1 = 4 ∧ (0 : Int) ≤ readMem [4, 4] 0 ∧
      readMem [4, 4] 0 = 4 ∧ (0 : Int) ≤ readMem [4, 4] 1 ∧ readMem [4, 4] 1 ≤ 4) ∧
    ((∀ c : Nat, c < 4 →
        offset_win_k1 (readMem [4, 4]) 0 1 (12 - 4) 12 (12 + 4) 8 zeroMem
            (12 - ((8 : Nat) : Int) - 4 + (c : Int))
          = zeroMem (12 - ((8 : Nat) : Int) - 4 + (c : Int)) >>> 1) ∧
      (∀ c : Nat, c < 4 →
        offset_win_k1 (readMem [4, 4]) 0 1 (12 - 4) 12 (12 + 4) 8 zeroMem
            (12 + ((8 + c : Nat) : Int))
          = (zeroMem (12 + ((8 + c : Nat) : Int)) <<< 1) % 256 &&& 15)) :=
  ⟨⟨by decide, by decide, by decide, by decide, by decide, by decide, by decide⟩,
    ((offset_N_amended 8 (readMem [4, 4]) 0 1 12 zeroMem (by decide) (by decide)
        zeroMem_byte).1 (by decide) (by decide)).1,
    ((offset_N_amended 8 (readMem [4, 4]) 0 1 12 zeroMem (by decide) (by decide)
        zeroMem_byte).2 (by decide) (by decide) (by decide)).2.2⟩

/-! ### Binary strings -/

theorem leBytes_length : ∀ (w v : Nat), (leBytes w v).length = w
  | 0, _ => rfl
  | w + 1, v => by simp [leBytes, leBytes_length w]

theorem leValue_leBytes : ∀ (w v : Nat), leValue (leBytes w v) = v % 256 ^ w
  | 0, v => by simp [leBytes, leValue, Nat.mod_one]
  | w + 1, v => by
      simp only [leBytes, leValue, leValue_leBytes w]
      rw [pow_succ', Nat.mod_mul]

theorem leValue_leBytes_of_lt (w v : Nat) (h : v < 256 ^ w) : leValue (leBytes w v) = v := by
  rw [leValue_leBytes, Nat.mod_eq_of_lt h]

theorem leBytes_lt : ∀ (w v : Nat), ∀ b ∈ leBytes w v, b < 256
  | 0, _ => by simp [leBytes]
  | w + 1, v => by
      intro b hb
      simp only [leBytes, List.mem_cons] at hb
      rcases hb with h | h
      · rw [h]; exact Nat.mod_lt _ (by decide)
      · exact leBytes_lt w _ b h

theorem int32Bytes_length (x : Int) : (int32Bytes x).length = 4 := leBytes_length 4 _

theorem int32Value_int32Bytes (x : Int) (h1 : -2147483648 ≤ x) (h2 : x < 2147483648) :
    int32Value (int32Bytes x) = x := by
  unfold int32Value int32Bytes
  rw [leValue_leBytes_of_lt]
  · split <;> omega
  · have : (x % 4294967296).toNat < 4294967296 := by omega
    exact this

theorem boolBytes_length (b : Bool) : (boolBytes b).length = 1 := rfl

theorem boolValue_boolBytes (b : Bool) : boolValue (boolBytes b) = b := by
  cases b <;> rfl

theorem wordsBytes_length (w : Nat) : ∀ cs : List Nat, (wordsBytes w cs).length = cs.length * w
  | [] => by simp [wordsBytes]
  | c :: cs => by
      simp only [wordsBytes, List.length_append, leBytes_length, wordsBytes_length w cs,
        List.length_cons]
      rw [Nat.add_mul]
      omega

theorem copy_n_eq (obj : List Nat) (n : Nat) (buf : List Nat) (h : obj.length = n) :
    copy_n obj n buf = buf ++ obj := by
  unfold copy_n
  rw [List.take_of_length_le (by omega)]

theorem memcpyFrom_chunks (cs : List (List Nat)) :
    ∀ (i off n : Nat), i < cs.length → off = ((cs.take i).map List.length).sum →
      n = (cs.getD i []).length → memcpyFrom cs.flatten off n = cs.getD i [] := by
  induction cs with
  | nil => intro i off n hi; simp at hi
  | cons c cs ih =>
    intro i off n hi hoff hn
    cases i with
    | zero =>
      simp only [List.take_zero, List.map_nil, List.sum_nil] at hoff
      simp only [List.getD_cons_zero] at hn ⊢
      subst hoff hn
      simp [memcpyFrom]
    | succ i =>
      simp only [List.take_succ_cons, List.map_cons, List.sum_cons] at hoff
      simp only [List.getD_cons_succ] at hn ⊢
      have := ih i (off - c.length) n (by simpa using hi) (by omega) hn
      rw [← this]
      unfold memcpyFrom
      rw [List.flatten_cons, hoff, List.drop_append]
      congr 2
      omega

theorem memcpyWords_spec (w : Nat) :
    ∀ (cs pre post : List Nat),
      memcpyWords w (pre ++ (wordsBytes w cs ++ post)) cs.length pre.length
        = cs.map (fun c => c % 256 ^ w) := by
  intro cs
  induction cs with
  | nil => intro pre post; rfl
  | cons c cs ih =>
    intro pre post
    simp only [List.length_cons, memcpyWords, wordsBytes, List.map_cons]
    congr 1
    · unfold memcpyFrom
      rw [List.drop_left, List.append_assoc, List.take_left' (leBytes_length w c), leValue_leBytes]
    · have := ih (pre ++ leBytes w c) post
      rw [List.length_append, leBytes_length] at this
      rw [← this]
      simp [List.append_assoc]

/-! ### Claims about `s_align2` -/

theorem wordsBytes_eq_flatten (w : Nat) :
    ∀ cs : List Nat, wordsBytes w cs = (cs.map (leBytes w)).flatten
  | [] => rfl
  | c :: cs => by simp [wordsBytes, wordsBytes_eq_flatten w cs]

/-- C5. Layout of the `s_align2` blob: for every `x` with a cigar of `n` elements,
`x.toString()` is exactly the concatenation, in this order and in little-endian byte order, of
`n` as an 8-byte `size_t`, the `n` cigar words (4 bytes each), `ref_num` (4), `ref_begin1` (4),
`ref_end1` (4), `read_begin1` (4), `read_end1` (4), `readlen` (4), `score1` (2), `part` (2),
`index_num` (2) and `strand` (1 byte, 0 or 1); its length is `39 + 4 * n` bytes. -/
theorem s_align2_toString_layout (x : s_align2) :
    x.toString
      = leBytes 8 x.cigar.length ++ (x.cigar.map (leBytes 4)).flatten ++ leBytes 4 x.ref_num
        ++ int32Bytes x.ref_begin1 ++ int32Bytes x.ref_end1 ++ int32Bytes x.read_begin1
        ++ int32Bytes x.read_end1 ++ leBytes 4 x.readlen ++ leBytes 2 x.score1
        ++ leBytes 2 x.part ++ leBytes 2 x.index_num ++ [if x.strand then 1 else 0] ∧
    x.toString.length = 39 + 4 * x.cigar.length := by
  have h : x.toString
      = leBytes 8 x.cigar.length ++ wordsBytes 4 x.cigar ++ leBytes 4 x.ref_num
        ++ int32Bytes x.ref_begin1 ++ int32Bytes x.ref_end1 ++ int32Bytes x.read_begin1
        ++ int32Bytes x.read_end1 ++ leBytes 4 x.readlen ++ leBytes 2 x.score1
        ++ leBytes 2 x.part ++ leBytes 2 x.index_num ++ boolBytes x.strand := by
    unfold s_align2.toString
    simp only [copy_n_eq _ _ _ (leBytes_length _ _), copy_n_eq _ _ _ (int32Bytes_length _),
      copy_n_eq _ _ _ (wordsBytes_length 4 _), copy_n_eq _ _ _ (boolBytes_length _),
      List.nil_append]
  constructor
  · rw [h, wordsBytes_eq_flatten]
    rfl
  · rw [h]
    simp only [List.length_append, leBytes_length, wordsBytes_length, int32Bytes_length,
      boolBytes_length]
    omega
theorem map_mod_of_lt (B : Nat) : ∀ cs : List Nat, (∀ c ∈ cs, c < B) → cs.map (fun c => c % B) = cs
  | [], _ => rfl
  | c :: cs, h => by
      rw [List.map_cons, map_mod_of_lt B cs (fun c' hc' => h c' (List.mem_cons_of_mem _ hc')),
        Nat.mod_eq_of_lt (h c (List.mem_cons_self _ _))]

theorem s_align2_toString_chunks (x : s_align2) :
    x.toString
      = [leBytes 8 x.cigar.length, wordsBytes 4 x.cigar, leBytes 4 x.ref_num,
          int32Bytes x.ref_begin1, int32Bytes x.ref_end1, int32Bytes x.read_begin1,
          int32Bytes x.read_end1, leBytes 4 x.readlen, leBytes 2 x.score1,
          leBytes 2 x.part, leBytes 2 x.index_num, boolBytes x.strand].flatten := by
  unfold s_align2.toString
  simp only [copy_n_eq _ _ _ (leBytes_length _ _), copy_n_eq _ _ _ (int32Bytes_length _),
    copy_n_eq _ _ _ (wordsBytes_length 4 _), copy_n_eq _ _ _ (boolBytes_length _),
    List.nil_append, List.flatten, List.append_assoc, List.append_nil]

theorem s_align2_from_bstr_toString (x : s_align2) (h : x.WellTyped) :
    s_align2.from_bstr x.toString = x := by
  obtain ⟨hc, hn, h1, h2, h3, h4, h5, h6, h7, h8, h9⟩ := h
  have hch := s_align2_toString_chunks x
  have f0 : memcpyFrom x.toString 0 8 = leBytes 8 x.cigar.length := by
    rw [hch]; exact memcpyFrom_chunks _ 0 _ _ (by simp) (by simp) (by simp [leBytes_length])
  have hlen : leValue (memcpyFrom x.toString 0 8) = x.cigar.length := by
    rw [f0, leValue_leBytes_of_lt _ _ hn]
  have fc : memcpyWords 4 x.toString x.cigar.length (0 + 8) = x.cigar := by
    have := memcpyWords_spec 4 x.cigar (leBytes 8 x.cigar.length)
      ([leBytes 4 x.ref_num,
          int32Bytes x.ref_begin1, int32Bytes x.ref_end1, int32Bytes x.read_begin1,
          int32Bytes x.read_end1, leBytes 4 x.readlen, leBytes 2 x.score1,
          leBytes 2 x.part, leBytes 2 x.index_num, boolBytes x.strand].flatten)
    rw [leBytes_length] at this
    rw [hch]
    simp only [List.flatten_cons] at this ⊢
    rw [Nat.zero_add, this]
    exact map_mod_of_lt _ _ hc
  have f2 : memcpyFrom x.toString (0 + 8 + x.cigar.length * 4) 4 = leBytes 4 x.ref_num := by
    rw [hch]
    exact memcpyFrom_chunks _ 2 _ _ (by simp)
      (by simp [leBytes_length, wordsBytes_length]) (by simp [leBytes_length])
  have f3 : memcpyFrom x.toString (0 + 8 + x.cigar.length * 4 + 4) 4
      = int32Bytes x.ref_begin1 := by
    rw [hch]
    exact memcpyFrom_chunks _ 3 _ _ (by simp)
      (by simp [leBytes_length, wordsBytes_length]; omega) (by simp [int32Bytes_length])
  have f4 : memcpyFrom x.toString (0 + 8 + x.cigar.length * 4 + 4 + 4) 4
      = int32Bytes x.ref_end1 := by
    rw [hch]
    exact memcpyFrom_chunks _ 4 _ _ (by simp)
      (by simp [leBytes_length, wordsBytes_length, int32Bytes_length]; omega)
      (by simp [int32Bytes_length])
  have f5 : memcpyFrom x.toString (0 + 8 + x.cigar.length * 4 + 4 + 4 + 4) 4
      = int32Bytes x.read_begin1 := by
    rw [hch]
    exact memcpyFrom_chunks _ 5 _ _ (by simp)
      (by simp [leBytes_length, wordsBytes_length, int32Bytes_length]; omega)
      (by simp [int32Bytes_length])
  have f6 : memcpyFrom x.toString (0 + 8 + x.cigar.length * 4 + 4 + 4 + 4 + 4) 4
      = int32Bytes x.read_end1 := by
    rw [hch]
    exact memcpyFrom_chunks _ 6 _ _ (by simp)
      (by simp [leBytes_length, wordsBytes_length, int32Bytes_length]; omega)
      (by simp [int32Bytes_length])
  have f7 : memcpyFrom x.toString (0 + 8 + x.cigar.length * 4 + 4 + 4 + 4 + 4 + 4) 4
      = leBytes 4 x.readlen := by
    rw [hch]
    exact memcpyFrom_chunks _ 7 _ _ (by simp)
      (by simp [leBytes_length, wordsBytes_length, int32Bytes_length]; omega)
      (by simp [leBytes_length])
  have f8 : memcpyFrom x.toString (0 + 8 + x.cigar.length * 4 + 4 + 4 + 4 + 4 + 4 + 4) 2
      = leBytes 2 x.score1 := by
    rw [hch]
    exact memcpyFrom_chunks _ 8 _ _ (by simp)
      (by simp [leBytes_length, wordsBytes_length, int32Bytes_length]; omega)
      (by simp [leBytes_length])
  have f9 : memcpyFrom x.toString (0 + 8 + x.cigar.length * 4 + 4 + 4 + 4 + 4 + 4 + 4 + 2) 2
      = leBytes 2 x.part := by
    rw [hch]
    exact memcpyFrom_chunks _ 9 _ _ (by simp)
      (by simp [leBytes_length, wordsBytes_length, int32Bytes_length]; omega)
      (by simp [leBytes_length])
  have f10 : memcpyFrom x.toString
      (0 + 8 + x.cigar.length * 4 + 4 + 4 + 4 + 4 + 4 + 4 + 2 + 2) 2
      = leBytes 2 x.index_num := by
    rw [hch]
    exact memcpyFrom_chunks _ 10 _ _ (by simp)
      (by simp [leBytes_length, wordsBytes_length, int32Bytes_length]; omega)
      (by simp [leBytes_length])
  have f11 : memcpyFrom x.toString
      (0 + 8 + x.cigar.length * 4 + 4 + 4 + 4 + 4 + 4 + 4 + 2 + 2 + 2) 1
      = boolBytes x.strand := by
    rw [hch]
    exact memcpyFrom_chunks _ 11 _ _ (by simp)
      (by simp [leBytes_length, wordsBytes_length, int32Bytes_length]; omega)
      (by simp [boolBytes_length])
  unfold s_align2.from_bstr
  simp only [hlen, fc, f2, f3, f4, f5, f6, f7, f8, f9, f10, f11,
    leValue_leBytes_of_lt 4 _ h1, leValue_leBytes_of_lt 4 _ h6, leValue_leBytes_of_lt 2 _ h7,
    leValue_leBytes_of_lt 2 _ h8, leValue_leBytes_of_lt 2 _ h9,
    int32Value_int32Bytes _ h2.1 h2.2, int32Value_int32Bytes _ h3.1 h3.2,
    int32Value_int32Bytes _ h4.1 h4.2, int32Value_int32Bytes _ h5.1 h5.2, boolValue_boolBytes]

theorem s_align2_op_eq_self (x : s_align2) : x.op_eq x = true := by
  simp [s_align2.op_eq]

/-- C3. Round trip of `s_align2`: for every `s_align2` value `x` whose fields hold values of
their types, constructing `s_align2` from `x.toString()` gives a value equal to `x` under
`operator==` (same cigar and the same ten scalar fields), whichever side of `==` it is on. -/
theorem s_align2_roundtrip (x : s_align2) (h : x.WellTyped) :
    (s_align2.from_bstr x.toString).op_eq x = true ∧
    x.op_eq (s_align2.from_bstr x.toString) = true := by
  rw [s_align2_from_bstr_toString x h]
  exact ⟨s_align2_op_eq_self x, s_align2_op_eq_self x⟩

theorem exAlign_wellTyped : exAlign.WellTyped := by
  unfold s_align2.WellTyped exAlign
  refine ⟨by decide, by decide, by decide, by decide, by decide, by decide, by decide,
    by decide, by decide, by decide, by decide⟩

/-- The round trip instantiated at the alignment `exAlign`. -/
theorem s_align2_roundtrip_witness :
    exAlign.WellTyped ∧
    ((s_align2.from_bstr exAlign.toString).op_eq exAlign = true ∧
    exAlign.op_eq (s_align2.from_bstr exAlign.toString) = true) :=
  ⟨exAlign_wellTyped, s_align2_roundtrip exAlign exAlign_wellTyped⟩

/-! ### Claims about `Readstats` -/

theorem toBstring_entries_eq :
    ∀ (es buf : List Nat), toBstring_entries es buf = buf ++ wordsBytes 8 es
  | [], buf => by simp [toBstring_entries, wordsBytes]
  | e :: es, buf => by
      simp only [toBstring_entries, wordsBytes]
      rw [toBstring_entries_eq es, copy_n_eq _ _ _ (leBytes_length _ _), List.append_assoc]

theorem restore_entries_eq (bstr : List Nat) :
    ∀ (cur : List Nat) (offset : Nat),
      restore_entries bstr cur offset
        = (memcpyWords 8 bstr cur.length offset, offset + 8 * cur.length)
  | [], offset => by simp [restore_entries, memcpyWords]
  | _ :: rest, offset => by
      simp only [restore_entries, memcpyWords, List.length_cons]
      rw [restore_entries_eq bstr rest (offset + 8)]
      simp only [Prod.mk.injEq, true_and]
      omega

theorem memcpyFrom_word (w : Nat) :
    ∀ (cs pre post : List Nat) (i : Nat), i < cs.length →
      memcpyFrom (pre ++ (wordsBytes w cs ++ post)) (pre.length + w * i) w
        = leBytes w (cs.getD i 0) := by
  intro cs
  induction cs with
  | nil => intro pre post i hi; simp at hi
  | cons c cs ih =>
    intro pre post i hi
    cases i with
    | zero =>
      simp only [Nat.mul_zero, Nat.add_zero, wordsBytes, List.getD_cons_zero]
      unfold memcpyFrom
      rw [List.drop_left, List.append_assoc, List.take_left' (leBytes_length w c)]
    | succ i =>
      have := ih (pre ++ leBytes w c) post i (by simpa using hi)
      rw [List.length_append, leBytes_length] at this
      simp only [wordsBytes, List.getD_cons_succ]
      rw [← this]
      congr 1
      · simp [List.append_assoc]
      · rw [Nat.mul_succ]; omega

theorem Readstats_toBstring_chunks (s : Readstats) :
    s.toBstring
      = [leBytes 4 s.min_read_len, leBytes 4 s.max_read_len, leBytes 8 s.total_reads_aligned,
          leBytes 8 s.total_mapped_sw_id_cov, leBytes 8 s.short_reads_num,
          leBytes 8 s.all_reads_count, leBytes 8 s.all_reads_len,
          leBytes 8 s.total_reads_denovo_clustering, leBytes 8 s.reads_matched_per_db.length,
          wordsBytes 8 s.reads_matched_per_db, boolBytes s.is_stats_calc,
          boolBytes s.is_total_mapped_sw_id_cov].flatten := by
  unfold Readstats.toBstring
  simp only [copy_n_eq _ _ _ (leBytes_length _ _), copy_n_eq _ _ _ (boolBytes_length _),
    toBstring_entries_eq, List.nil_append, List.flatten, List.append_assoc, List.append_nil]

theorem Readstats_toBstring_length (s : Readstats) :
    s.toBstring.length = 66 + 8 * s.reads_matched_per_db.length := by
  rw [Readstats_toBstring_chunks]
  simp only [List.flatten, List.length_append, leBytes_length, wordsBytes_length,
    boolBytes_length, List.length_nil]
  omega

/-- C6. Layout of the `Readstats` blob: for every `Readstats` state with
`N = reads_matched_per_db.size()`, `toBstring()` has length `66 + 8 * N` and holds
`min_read_len` at offset 0 (4 bytes), `max_read_len` at 4 (4), `total_reads_aligned` at 8 (8),
`total_mapped_sw_id_cov` at 16 (8), `short_reads_num` at 24 (8), `all_reads_count` at 32 (8),
`all_reads_len` at 40 (8), `total_reads_denovo_clustering` at 48 (8), `N` at 56 (8),
`reads_matched_per_db[i]` at `64 + 8 * i`, then `is_stats_calc` at `64 + 8 * N` and
`is_total_mapped_sw_id_cov` at `65 + 8 * N` (1 byte each), all little-endian. -/
theorem Readstats_toBstring_layout (s : Readstats) :
    s.toBstring.length = 66 + 8 * s.reads_matched_per_db.length ∧
    slice s.toBstring 0 4 = leBytes 4 s.min_read_len ∧
    slice s.toBstring 4 4 = leBytes 4 s.max_read_len ∧
    slice s.toBstring 8 8 = leBytes 8 s.total_reads_aligned ∧
    slice s.toBstring 16 8 = leBytes 8 s.total_mapped_sw_id_cov ∧
    slice s.toBstring 24 8 = leBytes 8 s.short_reads_num ∧
    slice s.toBstring 32 8 = leBytes 8 s.all_reads_count ∧
    slice s.toBstring 40 8 = leBytes 8 s.all_reads_len ∧
    slice s.toBstring 48 8 = leBytes 8 s.total_reads_denovo_clustering ∧
    slice s.toBstring 56 8 = leBytes 8 s.reads_matched_per_db.length ∧
    (∀ i : Nat, i < s.reads_matched_per_db.length →
      slice s.toBstring (64 + 8 * i) 8 = leBytes 8 (s.reads_matched_per_db.getD i 0)) ∧
    slice s.toBstring (64 + 8 * s.reads_matched_per_db.length) 1
      = [if s.is_stats_calc then 1 else 0] ∧
    slice s.toBstring (65 + 8 * s.reads_matched_per_db.length) 1
      = [if s.is_total_mapped_sw_id_cov then 1 else 0] := by
  have hch := Readstats_toBstring_chunks s
  refine ⟨Readstats_toBstring_length s, ?_, ?_, ?_, ?_, ?_, ?_, ?_, ?_, ?_, ?_, ?_, ?_⟩
  · rw [hch]; exact memcpyFrom_chunks _ 0 _ _ (by simp) (by simp) (by simp [leBytes_length])
  · rw [hch]
    exact memcpyFrom_chunks _ 1 _ _ (by simp) (by simp [leBytes_length]) (by simp [leBytes_length])
  · rw [hch]
    exact memcpyFrom_chunks _ 2 _ _ (by simp) (by simp [leBytes_length]) (by simp [leBytes_length])
  · rw [hch]
    exact memcpyFrom_chunks _ 3 _ _ (by simp) (by simp [leBytes_length]) (by simp [leBytes_length])
  · rw [hch]
    exact memcpyFrom_chunks _ 4 _ _ (by simp) (by simp [leBytes_length]) (by simp [leBytes_length])
  · rw [hch]
    exact memcpyFrom_chunks _ 5 _ _ (by simp) (by simp [leBytes_length]) (by simp [leBytes_length])
  · rw [hch]
    exact memcpyFrom_chunks _ 6 _ _ (by simp) (by simp [leBytes_length]) (by simp [leBytes_length])
  · rw [hch]
    exact memcpyFrom_chunks _ 7 _ _ (by simp) (by simp [leBytes_length]) (by simp [leBytes_length])
  · rw [hch]
    exact memcpyFrom_chunks _ 8 _ _ (by simp) (by simp [leBytes_length]) (by simp [leBytes_length])
  · intro i hi
    have := memcpyFrom_word 8 s.reads_matched_per_db
      ([leBytes 4 s.min_read_len, leBytes 4 s.max_read_len, leBytes 8 s.total_reads_aligned,
          leBytes 8 s.total_mapped_sw_id_cov, leBytes 8 s.short_reads_num,
          leBytes 8 s.all_reads_count, leBytes 8 s.all_reads_len,
          leBytes 8 s.total_reads_denovo_clustering,
          leBytes 8 s.reads_matched_per_db.length].flatten)
      ([boolBytes s.is_stats_calc, boolBytes s.is_total_mapped_sw_id_cov].flatten) i hi
    rw [← this, hch]
    unfold slice memcpyFrom
    congr 2
  · rw [hch]
    exact memcpyFrom_chunks _ 10 _ _ (by simp)
      (by simp [leBytes_length, wordsBytes_length]; omega) (by simp [boolBytes_length])
  · rw [hch]
    exact memcpyFrom_chunks _ 11 _ _ (by simp)
      (by simp [leBytes_length, wordsBytes_length, boolBytes_length]; omega)
      (by simp [boolBytes_length])

theorem Readstats_restore_of_toBstring (s r : Readstats) (kvdb_get : String → List Nat)
    (hs : s.WellTyped)
    (hN : r.reads_matched_per_db.length = s.reads_matched_per_db.length)
    (hget : kvdb_get r.dbkey = s.toBstring) :
    r.restoreFromDb kvdb_get
      = (true, { r with
          min_read_len := s.min_read_len, max_read_len := s.max_read_len,
          total_reads_aligned := s.total_reads_aligned,
          total_mapped_sw_id_cov := s.total_mapped_sw_id_cov,
          short_reads_num := s.short_reads_num, all_reads_count := s.all_reads_count,
          all_reads_len := s.all_reads_len,
          total_reads_denovo_clustering := s.total_reads_denovo_clustering,
          reads_matched_per_db := s.reads_matched_per_db,
          is_stats_calc := s.is_stats_calc,
          is_total_mapped_sw_id_cov := s.is_total_mapped_sw_id_cov }) := by
  obtain ⟨h1, h2, h3, h4, h5, h6, h7, h8, he, hn⟩ := hs
  have hch := Readstats_toBstring_chunks s
  have hpos : (s.toBstring).length > 0 := by rw [Readstats_toBstring_length]; omega
  have f0 : memcpyFrom s.toBstring 0 4 = leBytes 4 s.min_read_len := by
    rw [hch]; exact memcpyFrom_chunks _ 0 _ _ (by simp) (by simp) (by simp [leBytes_length])
  have f1 : memcpyFrom s.toBstring (0 + 4) 4 = leBytes 4 s.max_read_len := by
    rw [hch]
    exact memcpyFrom_chunks _ 1 _ _ (by simp) (by simp [leBytes_length]) (by simp [leBytes_length])
  have f2 : memcpyFrom s.toBstring (0 + 4 + 4) 8 = leBytes 8 s.total_reads_aligned := by
    rw [hch]
    exact memcpyFrom_chunks _ 2 _ _ (by simp) (by simp [leBytes_length]) (by simp [leBytes_length])
  have f3 : memcpyFrom s.toBstring (0 + 4 + 4 + 8) 8 = leBytes 8 s.total_mapped_sw_id_cov := by
    rw [hch]
    exact memcpyFrom_chunks _ 3 _ _ (by simp) (by simp [leBytes_length]) (by simp [leBytes_length])
  have f4 : memcpyFrom s.toBstring (0 + 4 + 4 + 8 + 8) 8 = leBytes 8 s.short_reads_num := by
    rw [hch]
    exact memcpyFrom_chunks _ 4 _ _ (by simp) (by simp [leBytes_length]) (by simp [leBytes_length])
  have f5 : memcpyFrom s.toBstring (0 + 4 + 4 + 8 + 8 + 8) 8 = leBytes 8 s.all_reads_count := by
    rw [hch]
    exact memcpyFrom_chunks _ 5 _ _ (by simp) (by simp [leBytes_length]) (by simp [leBytes_length])
  have f6 : memcpyFrom s.toBstring (0 + 4 + 4 + 8 + 8 + 8 + 8) 8 = leBytes 8 s.all_reads_len := by
    rw [hch]
    exact memcpyFrom_chunks _ 6 _ _ (by simp) (by simp [leBytes_length]) (by simp [leBytes_length])
  have f7 : memcpyFrom s.toBstring (0 + 4 + 4 + 8 + 8 + 8 + 8 + 8) 8
      = leBytes 8 s.total_reads_denovo_clustering := by
    rw [hch]
    exact memcpyFrom_chunks _ 7 _ _ (by simp) (by simp [leBytes_length]) (by simp [leBytes_length])
  have f8 : memcpyFrom s.toBstring (0 + 4 + 4 + 8 + 8 + 8 + 8 + 8 + 8) 8
      = leBytes 8 s.reads_matched_per_db.length := by
    rw [hch]
    exact memcpyFrom_chunks _ 8 _ _ (by simp) (by simp [leBytes_length]) (by simp [leBytes_length])
  have fw : memcpyWords 8 s.toBstring r.reads_matched_per_db.length
      (0 + 4 + 4 + 8 + 8 + 8 + 8 + 8 + 8 + 8) = s.reads_matched_per_db := by
    have := memcpyWords_spec 8 s.reads_matched_per_db
      ([leBytes 4 s.min_read_len, leBytes 4 s.max_read_len, leBytes 8 s.total_reads_aligned,
          leBytes 8 s.total_mapped_sw_id_cov, leBytes 8 s.short_reads_num,
          leBytes 8 s.all_reads_count, leBytes 8 s.all_reads_len,
          leBytes 8 s.total_reads_denovo_clustering,
          leBytes 8 s.reads_matched_per_db.length].flatten)
      ([boolBytes s.is_stats_calc, boolBytes s.is_total_mapped_sw_id_cov].flatten)
    have he' : ∀ e ∈ s.reads_matched_per_db, e < 256 ^ 8 := he
    have hl : ([leBytes 4 s.min_read_len, leBytes 4 s.max_read_len,
          leBytes 8 s.total_reads_aligned,
          leBytes 8 s.total_mapped_sw_id_cov, leBytes 8 s.short_reads_num,
          leBytes 8 s.all_reads_count, leBytes 8 s.all_reads_len,
          leBytes 8 s.total_reads_denovo_clustering,
          leBytes 8 s.reads_matched_per_db.length].flatten).length
        = 0 + 4 + 4 + 8 + 8 + 8 + 8 + 8 + 8 + 8 := by
      simp [List.flatten, leBytes_length]
    rw [map_mod_of_lt _ _ he', hl] at this
    have key : s.toBstring
        = [leBytes 4 s.min_read_len, leBytes 4 s.max_read_len,
            leBytes 8 s.total_reads_aligned,
            leBytes 8 s.total_mapped_sw_id_cov, leBytes 8 s.short_reads_num,
            leBytes 8 s.all_reads_count, leBytes 8 s.all_reads_len,
            leBytes 8 s.total_reads_denovo_clustering,
            leBytes 8 s.reads_matched_per_db.length].flatten ++
          (wordsBytes 8 s.reads_matched_per_db ++
            [boolBytes s.is_stats_calc, boolBytes s.is_total_mapped_sw_id_cov].flatten) := by
      rw [hch]
      simp only [List.flatten, List.append_assoc, List.append_nil]
    rw [hN, key]
    exact this
  have f10 : memcpyFrom s.toBstring
      (0 + 4 + 4 + 8 + 8 + 8 + 8 + 8 + 8 + 8 + 8 * r.reads_matched_per_db.length) 1
      = boolBytes s.is_stats_calc := by
    rw [hN, hch]
    exact memcpyFrom_chunks _ 10 _ _ (by simp)
      (by simp [leBytes_length, wordsBytes_length]; omega) (by simp [boolBytes_length])
  have f11 : memcpyFrom s.toBstring
      (0 + 4 + 4 + 8 + 8 + 8 + 8 + 8 + 8 + 8 + 8 * r.reads_matched_per_db.length + 1) 1
      = boolBytes s.is_total_mapped_sw_id_cov := by
    rw [hN, hch]
    exact memcpyFrom_chunks _ 11 _ _ (by simp)
      (by simp [leBytes_length, wordsBytes_length, boolBytes_length]; omega)
      (by simp [boolBytes_length])
  unfold Readstats.restoreFromDb
  simp only [hget, hpos, if_true, f0, f1, f2, f3, f4, f5, f6, f7, f8,
    leValue_leBytes_of_lt 8 _ hn, hN, restore_entries_eq]
  rw [hN] at fw f10 f11
  simp only [fw, f10, f11, boolValue_boolBytes,
    leValue_leBytes_of_lt 4 _ h1, leValue_leBytes_of_lt 4 _ h2, leValue_leBytes_of_lt 8 _ h3,
    leValue_leBytes_of_lt 8 _ h4, leValue_leBytes_of_lt 8 _ h5, leValue_leBytes_of_lt 8 _ h6,
    leValue_leBytes_of_lt 8 _ h7, leValue_leBytes_of_lt 8 _ h8]

/-- C4. Round trip of `Readstats`: for every `Readstats` state `s` (fields holding values of
their types) with `N = reads_matched_per_db.size()`, calling `restoreFromDb` on any `Readstats`
whose `reads_matched_per_db` also has `N` elements, with the key-value store returning
`s.toBstring()` for its `dbkey`, returns `true` and leaves `min_read_len`, `max_read_len`,
`total_reads_aligned`, `total_mapped_sw_id_cov`, `short_reads_num`, `all_reads_count`,
`all_reads_len`, `total_reads_denovo_clustering`, every `reads_matched_per_db` element,
`is_stats_calc` and `is_total_mapped_sw_id_cov` equal to those of `s`. -/
theorem Readstats_roundtrip (s r : Readstats) (kvdb_get : String → List Nat)
    (hs : s.WellTyped)
    (hN : r.reads_matched_per_db.length = s.reads_matched_per_db.length)
    (hget : kvdb_get r.dbkey = s.toBstring) :
    (r.restoreFromDb kvdb_get).1 = true ∧
    (r.restoreFromDb kvdb_get).2.min_read_len = s.min_read_len ∧
    (r.restoreFromDb kvdb_get).2.max_read_len = s.max_read_len ∧
    (r.restoreFromDb kvdb_get).2.total_reads_aligned = s.total_reads_aligned ∧
    (r.restoreFromDb kvdb_get).2.total_mapped_sw_id_cov = s.total_mapped_sw_id_cov ∧
    (r.restoreFromDb kvdb_get).2.short_reads_num = s.short_reads_num ∧
    (r.restoreFromDb kvdb_get).2.all_reads_count = s.all_reads_count ∧
    (r.restoreFromDb kvdb_get).2.all_reads_len = s.all_reads_len ∧
    (r.restoreFromDb kvdb_get).2.total_reads_denovo_clustering
      = s.total_reads_denovo_clustering ∧
    (r.restoreFromDb kvdb_get).2.reads_matched_per_db = s.reads_matched_per_db ∧
    (r.restoreFromDb kvdb_get).2.is_stats_calc = s.is_stats_calc ∧
    (r.restoreFromDb kvdb_get).2.is_total_mapped_sw_id_cov = s.is_total_mapped_sw_id_cov := by
  rw [Readstats_restore_of_toBstring s r kvdb_get hs hN hget]
  exact ⟨rfl, rfl, rfl, rfl, rfl, rfl, rfl, rfl, rfl, rfl, rfl, rfl⟩

theorem exStats_wellTyped : exStats.WellTyped := by
  unfold Readstats.WellTyped exStats
  refine ⟨by decide, by decide, by decide, by decide, by decide, by decide, by decide,
    by decide, by decide, by decide⟩

/-- The round trip instantiated at `exStats`, stored with `store_to_db` and restored into `exFresh`. -/
theorem Readstats_roundtrip_witness :
    (exStats.WellTyped ∧
      exFresh.reads_matched_per_db.length = exStats.reads_matched_per_db.length ∧
      exStats.store_to_db (fun _ => []) exFresh.dbkey = exStats.toBstring) ∧
    ((exFresh.restoreFromDb (exStats.store_to_db (fun _ => []))).1 = true ∧
    (exFresh.restoreFromDb (exStats.store_to_db (fun _ => []))).2.min_read_len
      = exStats.min_read_len ∧
    (exFresh.restoreFromDb (exStats.store_to_db (fun _ => []))).2.max_read_len
      = exStats.max_read_len ∧
    (exFresh.restoreFromDb (exStats.store_to_db (fun _ => []))).2.total_reads_aligned
      = exStats.total_reads_aligned ∧
    (exFresh.restoreFromDb (exStats.store_to_db (fun _ => []))).2.total_mapped_sw_id_cov
      = exStats.total_mapped_sw_id_cov ∧
    (exFresh.restoreFromDb (exStats.store_to_db (fun _ => []))).2.short_reads_num
      = exStats.short_reads_num ∧
    (exFresh.restoreFromDb (exStats.store_to_db (fun _ => []))).2.all_reads_count
      = exStats.all_reads_count ∧
    (exFresh.restoreFromDb (exStats.store_to_db (fun _ => []))).2.all_reads_len
      = exStats.all_reads_len ∧
    (exFresh.restoreFromDb (exStats.store_to_db (fun _ => []))).2.total_reads_denovo_clustering
      = exStats.total_reads_denovo_clustering ∧
    (exFresh.restoreFromDb (exStats.store_to_db (fun _ => []))).2.reads_matched_per_db
      = exStats.reads_matched_per_db ∧
    (exFresh.restoreFromDb (exStats.store_to_db (fun _ => []))).2.is_stats_calc
      = exStats.is_stats_calc ∧
    (exFresh.restoreFromDb (exStats.store_to_db (fun _ => []))).2.is_total_mapped_sw_id_cov
      = exStats.is_total_mapped_sw_id_cov) :=
  ⟨⟨exStats_wellTyped, by decide, by simp [Readstats.store_to_db, exFresh, exStats]⟩,
    Readstats_roundtrip exStats exFresh (exStats.store_to_db (fun _ => [])) exStats_wellTyped
      (by decide) (by simp [Readstats.store_to_db, exFresh, exStats])⟩

theorem restoreFromDb_fst (r : Readstats) (kvdb_get : String → List Nat)
    (h : (kvdb_get r.dbkey).length > 0) :
    (r.restoreFromDb kvdb_get).1
      = decide (leValue (memcpyFrom (kvdb_get r.dbkey) 56 8) = r.reads_matched_per_db.length) := by
  unfold Readstats.restoreFromDb
  simp only [h, if_true]
  by_cases hc : leValue (memcpyFrom (kvdb_get r.dbkey) 56 8) = r.reads_matched_per_db.length
  · simp [hc]
  · simp [hc]

theorem restoreFromDb_empty (r : Readstats) (kvdb_get : String → List Nat)
    (h : kvdb_get r.dbkey = []) : r.restoreFromDb kvdb_get = (false, r) := by
  unfold Readstats.restoreFromDb
  simp [h]

/-- C10. Method `restoreFromDb` reports success exactly when it can restore: for every
`Readstats` and every stored value that is either empty or a blob produced by `toBstring`,
`restoreFromDb` returns `true` if and only if the stored value is non-empty and the
`reads_matched_per_db_len` stored at offset 56 equals the current
`reads_matched_per_db.size()`; when the stored value is empty no field of the `Readstats` is
changed. -/
theorem restoreFromDb_true_iff (r s : Readstats) (kvdb_get : String → List Nat)
    (hb : kvdb_get r.dbkey = [] ∨ kvdb_get r.dbkey = s.toBstring) :
    ((r.restoreFromDb kvdb_get).1 = true ↔
      (kvdb_get r.dbkey ≠ [] ∧
        leValue (slice (kvdb_get r.dbkey) 56 8) = r.reads_matched_per_db.length)) ∧
    (kvdb_get r.dbkey = [] → (r.restoreFromDb kvdb_get).2 = r) := by
  constructor
  · rcases hb with h | h
    · rw [restoreFromDb_empty r kvdb_get h]
      simp [h]
    · have hpos : (kvdb_get r.dbkey).length > 0 := by
        rw [h, Readstats_toBstring_length]; omega
      have hne : kvdb_get r.dbkey ≠ [] := by
        intro h0
        rw [h0] at hpos
        simp at hpos
      rw [restoreFromDb_fst r kvdb_get hpos]
      simp only [decide_eq_true_eq, slice, memcpyFrom, ne_eq, hne, not_false_eq_true, true_and]
  · intro h
    rw [restoreFromDb_empty r kvdb_get h]

/-- The success criterion instantiated at `exFresh` and the stored blob of `exStats`. -/
theorem restoreFromDb_true_iff_witness :
    (exStats.store_to_db (fun _ => []) exFresh.dbkey = ([] : List Nat) ∨
      exStats.store_to_db (fun _ => []) exFresh.dbkey = exStats.toBstring) ∧
    (((exFresh.restoreFromDb (exStats.store_to_db (fun _ => []))).1 = true ↔
      (exStats.store_to_db (fun _ => []) exFresh.dbkey ≠ ([] : List Nat) ∧
        leValue (slice (exStats.store_to_db (fun _ => []) exFresh.dbkey) 56 8)
          = exFresh.reads_matched_per_db.length)) ∧
    (exStats.store_to_db (fun _ => []) exFresh.dbkey = ([] : List Nat) →
      (exFresh.restoreFromDb (exStats.store_to_db (fun _ => []))).2 = exFresh)) :=
  ⟨Or.inr (by simp [Readstats.store_to_db, exFresh, exStats]),
    restoreFromDb_true_iff exFresh exStats (exStats.store_to_db (fun _ => []))
      (Or.inr (by simp [Readstats.store_to_db, exFresh, exStats]))⟩

/-! ### Claims about text strings, `findref` and `id_win` -/

theorem leBytes_leValue : ∀ bs : List Nat, (∀ b ∈ bs, b < 256) →
    leBytes bs.length (leValue bs) = bs
  | [], _ => rfl
  | b :: bs, h => by
      have hb : b < 256 := h b (List.mem_cons_self _ _)
      have ih := leBytes_leValue bs (fun c hc => h c (List.mem_cons_of_mem _ hc))
      simp only [List.length_cons, leBytes, leValue]
      have e1 : (b + 256 * leValue bs) % 256 = b := by omega
      have e2 : (b + 256 * leValue bs) / 256 = leValue bs := by omega
      rw [e1, e2, ih]

theorem leValue_lt : ∀ bs : List Nat, (∀ b ∈ bs, b < 256) → leValue bs < 256 ^ bs.length
  | [], _ => by simp [leValue]
  | b :: bs, h => by
      have hb : b < 256 := h b (List.mem_cons_self _ _)
      have ih := leValue_lt bs (fun c hc => h c (List.mem_cons_of_mem _ hc))
      simp only [List.length_cons, leValue, pow_succ]
      omega

theorem convert_fix_eq_map (nt_table : Int → Nat) :
    ∀ seq : List Nat,
      convert_fix nt_table seq = seq.map (fun c => if c ≠ 32 then nt_table (charInt c) else c)
  | [] => rfl
  | c :: rest => by simp only [convert_fix, List.map_cons, convert_fix_eq_map nt_table rest]

theorem convert_fix_length (nt_table : Int → Nat) (seq : List Nat) :
    (convert_fix nt_table seq).length = seq.length := by
  rw [convert_fix_eq_map, List.length_map]

theorem convert_fix_append (nt_table : Int → Nat) (a b : List Nat) :
    convert_fix nt_table (a ++ b) = convert_fix nt_table a ++ convert_fix nt_table b := by
  simp only [convert_fix_eq_map, List.map_append]

/-- C17. Method `References::convert_fix` is a position-wise map: for every string `seq` of
bytes in `0..127` and every table `nt_table`, after `convert_fix` the string has the same
length, every position that held the space byte 32 still holds 32, and every other position
`i` holds `nt_table[old seq[i]]`. -/
theorem convert_fix_pointwise (nt_table : Int → Nat) (seq : List Nat)
    (hb : ∀ c ∈ seq, c < 128) :
    (convert_fix nt_table seq).length = seq.length ∧
    ∀ i : Nat, i < seq.length →
      (seq.getD i 0 = 32 → (convert_fix nt_table seq).getD i 0 = 32) ∧
      (seq.getD i 0 ≠ 32 →
        (convert_fix nt_table seq).getD i 0 = nt_table ((seq.getD i 0 : Nat) : Int)) := by
  refine ⟨convert_fix_length nt_table seq, ?_⟩
  intro i hi
  have hlt : seq.getD i 0 < 128 := by
    rw [List.getD_eq_getElem _ _ hi]
    exact hb _ (List.getElem_mem hi)
  have hval : (convert_fix nt_table seq).getD i 0
      = if seq.getD i 0 ≠ 32 then nt_table (charInt (seq.getD i 0)) else seq.getD i 0 := by
    rw [convert_fix_eq_map, List.getD_eq_getElem _ _ (by rw [List.length_map]; exact hi),
      List.getElem_map, List.getD_eq_getElem _ _ hi]
  constructor
  · intro h32
    rw [hval, if_neg (fun hne => hne h32), h32]
  · intro hne
    rw [hval, if_pos hne]
    unfold charInt
    rw [if_pos hlt]

/-- The position-wise statement instantiated at the string `A C space G` and a table that
maps every index to 7. -/
theorem convert_fix_pointwise_witness :
    (∀ c ∈ ([65, 67, 32, 71] : List Nat), c < 128) ∧
    ((convert_fix (fun _ => 7) [65, 67, 32, 71]).length = ([65, 67, 32, 71] : List Nat).length ∧
    ∀ i : Nat, i < ([65, 67, 32, 71] : List Nat).length →
      (([65, 67, 32, 71] : List Nat).getD i 0 = 32 →
        (convert_fix (fun _ => 7) [65, 67, 32, 71]).getD i 0 = 32) ∧
      (([65, 67, 32, 71] : List Nat).getD i 0 ≠ 32 →
        (convert_fix (fun _ => 7) [65, 67, 32, 71]).getD i 0
          = (fun _ => 7) ((([65, 67, 32, 71] : List Nat).getD i 0 : Nat) : Int))) :=
  ⟨by decide, convert_fix_pointwise (fun _ => 7) [65, 67, 32, 71] (by decide)⟩

theorem id_win_toString_eq (x : id_win) : x.toString = leBytes 4 x.id ++ leBytes 4 x.win := by
  unfold id_win.toString
  simp only [copy_n_eq _ _ _ (leBytes_length _ _), List.nil_append]

/-- C18. Round trip of `id_win`: for every `id_win` value `x` (any 32-bit `id` and `win`),
`x.toString()` is exactly 8 bytes, the 4 bytes of `id` followed by the 4 bytes of `win` in
little-endian byte order, and `id_win(x.toString())` has the same `id` and `win` as `x`. -/
theorem id_win_roundtrip (x : id_win) (h1 : x.id < 4294967296) (h2 : x.win < 4294967296) :
    x.toString.length = 8 ∧
    x.toString = leBytes 4 x.id ++ leBytes 4 x.win ∧
    ∃ y : id_win, id_win.from_str x.toString = some y ∧ y.id = x.id ∧ y.win = x.win := by
  have hs := id_win_toString_eq x
  have hl : x.toString.length = 8 := by
    rw [hs, List.length_append, leBytes_length, leBytes_length]
  refine ⟨hl, hs, ?_⟩
  have f0 : memcpyFrom x.toString 0 4 = leBytes 4 x.id := by
    rw [hs]
    unfold memcpyFrom
    rw [List.drop_zero, List.take_left' (leBytes_length 4 _)]
  have f1 : memcpyFrom x.toString 4 4 = leBytes 4 x.win := by
    rw [hs]
    unfold memcpyFrom
    rw [List.drop_left' (leBytes_length 4 _), List.take_of_length_le (by rw [leBytes_length])]
  refine ⟨{ id := x.id, win := x.win }, ?_, rfl, rfl⟩
  unfold id_win.from_str
  rw [if_pos (by rw [hl]), f0, f1, leValue_leBytes_of_lt 4 _ h1, leValue_leBytes_of_lt 4 _ h2]

/-- The round trip instantiated at `id = 2^32 - 1`, `win = 258`. -/
theorem id_win_roundtrip_witness :
    ((4294967295 : Nat) < 4294967296 ∧ (258 : Nat) < 4294967296) ∧
    ((id_win.mk 4294967295 258).toString.length = 8 ∧
    (id_win.mk 4294967295 258).toString
      = leBytes 4 (id_win.mk 4294967295 258).id ++ leBytes 4 (id_win.mk 4294967295 258).win ∧
    ∃ y : id_win, id_win.from_str (id_win.mk 4294967295 258).toString = some y ∧
      y.id = (id_win.mk 4294967295 258).id ∧ y.win = (id_win.mk 4294967295 258).win) :=
  ⟨⟨by decide, by decide⟩, id_win_roundtrip (id_win.mk 4294967295 258) (by decide) (by decide)⟩

/-- C19. Restoring an `id_win` fails exactly on a wrong length: for every string `str` (of
bytes), constructing `id_win(str)` terminates the program with an error if and only if
`str.size() != 8`; for every 8-byte string it succeeds and `id_win(str).toString() == str`. -/
theorem id_win_from_str_fails_iff (str : List Nat) (hb : ∀ b ∈ str, b < 256) :
    (id_win.from_str str = none ↔ str.length ≠ 8) ∧
    (str.length = 8 → ∃ x : id_win, id_win.from_str str = some x ∧ x.toString = str) := by
  constructor
  · unfold id_win.from_str
    by_cases h : str.length = 8
    · simp [h]
    · simp [h]
  · intro h
    refine ⟨_, by unfold id_win.from_str; rw [if_pos (by rw [h])], ?_⟩
    rw [id_win_toString_eq]
    have ht : ∀ b ∈ str.take 4, b < 256 := fun b hb' => hb b (List.mem_of_mem_take hb')
    have hd : ∀ b ∈ (str.drop 4).take 4, b < 256 :=
      fun b hb' => hb b (List.mem_of_mem_drop (List.mem_of_mem_take hb'))
    have l1 : (str.take 4).length = 4 := by rw [List.length_take]; omega
    have l2 : ((str.drop 4).take 4).length = 4 := by
      rw [List.length_take, List.length_drop]; omega
    have e1 := leBytes_leValue (str.take 4) ht
    have e2 := leBytes_leValue ((str.drop 4).take 4) hd
    rw [l1] at e1
    rw [l2] at e2
    simp only [memcpyFrom, List.drop_zero]
    rw [e1, e2]
    have e3 : (str.drop 4).take 4 = str.drop 4 :=
      List.take_of_length_le (by rw [List.length_drop]; omega)
    rw [e3, List.take_append_drop]

/-- The failure criterion instantiated at the 8-byte string `1 2 3 4 5 6 7 8`. -/
theorem id_win_from_str_fails_iff_witness :
    (∀ b ∈ ([1, 2, 3, 4, 5, 6, 7, 8] : List Nat), b < 256) ∧
    ((id_win.from_str [1, 2, 3, 4, 5, 6, 7, 8] = none
        ↔ ([1, 2, 3, 4, 5, 6, 7, 8] : List Nat).length ≠ 8) ∧
    (([1, 2, 3, 4, 5, 6, 7, 8] : List Nat).length = 8 →
      ∃ x : id_win, id_win.from_str [1, 2, 3, 4, 5, 6, 7, 8] = some x ∧
        x.toString = [1, 2, 3, 4, 5, 6, 7, 8])) :=
  ⟨by decide, id_win_from_str_fails_iff [1, 2, 3, 4, 5, 6, 7, 8] (by decide)⟩

theorem contains_nil_iff (id : List Nat) : Contains [] id ↔ id = [] := by
  constructor
  · rintro ⟨pre, post, h⟩
    have h' := congrArg List.length h
    simp only [List.length_nil, List.length_append] at h'
    exact List.length_eq_zero.mp (by omega)
  · intro h
    exact ⟨[], [], by simp [h]⟩

theorem contains_cons_iff (c : Nat) (rest id : List Nat) :
    Contains (c :: rest) id ↔ id <+: (c :: rest) ∨ Contains rest id := by
  constructor
  · rintro ⟨pre, post, h⟩
    cases pre with
    | nil => exact Or.inl ⟨post, by simpa using h.symm⟩
    | cons p pre =>
      simp only [List.cons_append, List.cons.injEq] at h
      exact Or.inr ⟨pre, post, h.2⟩
  · rintro (⟨t, ht⟩ | ⟨pre, post, h⟩)
    · exact ⟨[], t, by simpa using ht.symm⟩
    · exact ⟨c :: pre, post, by simp [h]⟩

theorem str_find_from_isSome (id : List Nat) :
    ∀ (header : List Nat) (pos : Nat),
      (str_find_from id header pos).isSome = true ↔ Contains header id := by
  intro header
  induction header with
  | nil =>
    intro pos
    rw [contains_nil_iff]
    by_cases h : id = [] <;> simp [str_find_from, h]
  | cons c rest ih =>
    intro pos
    rw [contains_cons_iff]
    by_cases h : id.isPrefixOf (c :: rest) = true
    · simp only [str_find_from, h, if_true, Option.isSome_some, true_iff]
      exact Or.inl (List.isPrefixOf_iff_prefix.mp h)
    · simp only [str_find_from, h, Bool.false_eq_true, if_false]
      rw [ih (pos + 1)]
      constructor
      · exact Or.inr
      · rintro (hp | hc)
        · exact absurd (List.isPrefixOf_iff_prefix.mpr hp) h
        · exact hc

theorem str_find_isSome (header id : List Nat) :
    (str_find header id).isSome = true ↔ Contains header id :=
  str_find_from_isSome id header 0

theorem int_of_unsigned_of_lt (i : Nat) (h : i < 2147483648) : int_of_unsigned i = (i : Int) := by
  unfold int_of_unsigned
  have e : i % 4294967296 = i := Nat.mod_eq_of_lt (by omega)
  rw [e, if_pos h]

theorem findref_loop_none (id : List Nat) :
    ∀ (l : List BaseRecord) (k : Nat), k + l.length ≤ 2147483648 →
      (findref_loop id l k = -1 ↔ ∀ r ∈ l, ¬ Contains r.header id) := by
  intro l
  induction l with
  | nil => intro k _; simp [findref_loop]
  | cons r rest ih =>
    intro k hk
    simp only [List.length_cons] at hk
    by_cases h : (str_find r.header id).isSome = true
    · have hc := (str_find_isSome _ _).mp h
      simp only [findref_loop, h, if_true, List.mem_cons, forall_eq_or_imp]
      rw [int_of_unsigned_of_lt k (by omega)]
      constructor
      · intro hneg; omega
      · intro hall; exact absurd hc hall.1
    · have hc : ¬ Contains r.header id := fun hc => h ((str_find_isSome _ _).mpr hc)
      simp only [findref_loop, h, Bool.false_eq_true, if_false, List.mem_cons, forall_eq_or_imp]
      rw [ih (k + 1) (by omega)]
      constructor
      · intro hall; exact ⟨hc, hall⟩
      · intro hall; exact hall.2

theorem findref_loop_first (id : List Nat) :
    ∀ (pre : List BaseRecord) (r : BaseRecord) (post : List BaseRecord) (k : Nat),
      k + pre.length < 2147483648 → Contains r.header id →
      (∀ r' ∈ pre, ¬ Contains r'.header id) →
      findref_loop id (pre ++ r :: post) k = ((k + pre.length : Nat) : Int) := by
  intro pre
  induction pre with
  | nil =>
    intro r post k hk hc _
    have h := (str_find_isSome _ _).mpr hc
    simp only [List.nil_append, findref_loop, h, if_true, List.length_nil, Nat.add_zero]
    exact int_of_unsigned_of_lt k (by simpa using hk)
  | cons p pre ih =>
    intro r post k hk hc hpre
    simp only [List.length_cons] at hk
    have hp : ¬ (str_find p.header id).isSome = true :=
      fun h => hpre p (List.mem_cons_self _ _) ((str_find_isSome _ _).mp h)
    simp only [List.cons_append, findref_loop, hp, Bool.false_eq_true, if_false,
      List.length_cons, List.append_eq]
    rw [ih r post (k + 1) (by omega) hc (fun r' hr' => hpre r' (List.mem_cons_of_mem _ hr'))]
    congr 1
    omega

/-- C16. Method `References::findref` is a first-match linear search: for every buffer (of at
most `2^31` records, so that the index fits the `int` result) and every string `id`,
`findref(id)` returns the smallest index `i` such that `buffer[i].header` contains `id` as a
substring, and returns `-1` if and only if no header contains `id`. -/
theorem findref_first_match (buffer : List BaseRecord) (id : List Nat)
    (hlen : buffer.length ≤ 2147483648) :
    (findref buffer id = -1 ↔ ∀ r ∈ buffer, ¬ Contains r.header id) ∧
    (∀ (pre : List BaseRecord) (r : BaseRecord) (post : List BaseRecord),
      buffer = pre ++ r :: post → Contains r.header id →
      (∀ r' ∈ pre, ¬ Contains r'.header id) →
      findref buffer id = (pre.length : Int)) := by
  constructor
  · exact findref_loop_none id buffer 0 (by omega)
  · intro pre r post hb hc hpre
    subst hb
    have hl : pre.length < 2147483648 := by
      simp only [List.length_append, List.length_cons] at hlen
      omega
    have := findref_loop_first id pre r post 0 (by omega) hc hpre
    rw [Nat.zero_add] at this
    exact this

/-- The search statement instantiated at a buffer of two records with the headers `ab` and
`cab` and the id `ca`. -/
theorem findref_first_match_witness :
    ([{ BaseRecord.default with header := [97, 98] },
      { BaseRecord.default with header := [99, 97, 98] }] : List BaseRecord).length
        ≤ 2147483648 ∧
    ((findref [{ BaseRecord.default with header := [97, 98] },
        { BaseRecord.default with header := [99, 97, 98] }] [99, 97] = -1 ↔
      ∀ r ∈ ([{ BaseRecord.default with header := [97, 98] },
        { BaseRecord.default with header := [99, 97, 98] }] : List BaseRecord),
        ¬ Contains r.header [99, 97]) ∧
    (∀ (pre : List BaseRecord) (r : BaseRecord) (post : List BaseRecord),
      [{ BaseRecord.default with header := [97, 98] },
        { BaseRecord.default with header := [99, 97, 98] }] = pre ++ r :: post →
      Contains r.header [99, 97] →
      (∀ r' ∈ pre, ¬ Contains r'.header [99, 97]) →
      findref [{ BaseRecord.default with header := [97, 98] },
        { BaseRecord.default with header := [99, 97, 98] }] [99, 97] = (pre.length : Int))) :=
  ⟨by decide, findref_first_match [{ BaseRecord.default with header := [97, 98] },
      { BaseRecord.default with header := [99, 97, 98] }] [99, 97] (by decide)⟩

/-! ### Claims about `calcSuffix` -/

theorem rfind_below_last (ch : Char) (a t rest : List Char) (ht : ∀ c ∈ t, c ≠ ch) :
    ∀ k : Nat, k ≤ t.length →
      rfind_below (a ++ ch :: (t ++ rest)) ch (a.length + 1 + k) = a.length := by
  intro k
  induction k with
  | zero =>
    intro _
    have h : (a ++ ch :: (t ++ rest))[a.length]? = some ch := by
      rw [List.getElem?_append_right (le_refl _)]
      simp
    simp only [Nat.add_zero, rfind_below, h, if_true]
  | succ k ih =>
    intro hk
    have hk' : k < t.length := by omega
    have h : (a ++ ch :: (t ++ rest))[a.length + 1 + k]? = some t[k] := by
      rw [List.getElem?_append_right (by omega)]
      have e : a.length + 1 + k - a.length = k + 1 := by omega
      rw [e, List.getElem?_cons_succ, List.getElem?_append_left hk', List.getElem?_eq_getElem hk']
    have hne : ¬ (some t[k] = some ch) := by
      intro heq
      exact ht _ (List.getElem_mem hk') (Option.some.inj heq)
    have e : a.length + 1 + (k + 1) = (a.length + 1 + k) + 1 := by omega
    rw [e]
    simp only [rfind_below, h, hne, if_false]
    exact ih (by omega)

theorem size_add_of_lt (a b : Nat) (h : a + b < 18446744073709551616) : size_add a b = a + b :=
  Nat.mod_eq_of_lt h

theorem size_sub_of_le (a b : Nat) (h : b ≤ a) (ha : a < 18446744073709551616) :
    size_sub a b = a - b := by
  unfold size_sub
  omega

theorem substr_after (a t : List Char) (c : Char) (h : t.length ≤ npos) :
    substr (a ++ c :: t) (a.length + 1) npos = some t := by
  unfold substr
  rw [if_neg (by simp)]
  have e : (a ++ c :: t).drop (a.length + 1) = t := by
    rw [← List.drop_drop, List.drop_left]
    rfl
  rw [e, List.take_of_length_le h]

theorem substr_between (a m rest : List Char) (c : Char) :
    substr (a ++ c :: (m ++ rest)) (a.length + 1) m.length = some m := by
  unfold substr
  rw [if_neg (by simp)]
  have e : (a ++ c :: (m ++ rest)).drop (a.length + 1) = m ++ rest := by
    rw [← List.drop_drop, List.drop_left]
    rfl
  rw [e, List.take_left]

/-- C20 (as stated, refuted). For the name `reads.gz` with `opts.is_gz` set, the text after
the last `'.'` is `gz` and the name has no second `'.'`, so the claim gives the suffix `gz`;
`calcSuffix` sets the suffix to `reads`. -/
theorem calcSuffix_single_dot_counterexample :
    (Readstats.calcSuffix "reads.gz" true exFresh).map (fun s => s.suffix) = some "reads" ∧
    (Readstats.calcSuffix "reads.gz" true exFresh).map (fun s => s.suffix) ≠ some "gz" := by
  decide

/-- C20 (amended). Method `Readstats::calcSuffix` uses the suffix of the first reads file
without `gz`: for every first reads-file name `a.t` (`t` the text after the last `'.'`),
suffix is `t` unless `opts.is_gz` is set and `t` equals `gz` case-insensitively; and when
`opts.is_gz` is set, `t` equals `gz` case-insensitively and the name has a second `'.'`
(`a` is `b.m`, `m` without `'.'`), suffix is the text `m` between the last two `'.'`
characters.  The name with `is_gz`, the text `gz` and a single `'.'` is left out. -/
theorem calcSuffix_amended (readfile0 : String) (is_gz : Bool) (s : Readstats)
    (a t : List Char) (hname : readfile0.data = a ++ '.' :: t) (ht : ∀ c ∈ t, c ≠ '.')
    (hlen : readfile0.data.length < npos) :
    (¬ (is_gz = true ∧ to_lower t = ['g', 'z']) →
      Readstats.calcSuffix readfile0 is_gz s = some { s with suffix := String.mk t }) ∧
    (∀ b m : List Char, is_gz = true → to_lower t = ['g', 'z'] → a = b ++ '.' :: m →
      (∀ c ∈ m, c ≠ '.') →
      Readstats.calcSuffix readfile0 is_gz s = some { s with suffix := String.mk m }) := by
  have hl : a.length + 1 + t.length < npos := by
    rw [hname] at hlen
    simp only [List.length_append, List.length_cons] at hlen
    omega
  unfold npos at hl
  have hpos : rfind readfile0.data '.' npos = a.length := by
    unfold rfind
    rw [hname]
    have e : min (npos + 1) (a ++ '.' :: t).length = a.length + 1 + t.length := by
      simp only [List.length_append, List.length_cons, npos]
      omega
    rw [e]
    have := rfind_below_last '.' a t [] ht t.length (le_refl _)
    rw [List.append_nil] at this
    exact this
  have hsfx : substr readfile0.data (size_add (a.length) 1) npos = some t := by
    rw [size_add_of_lt _ _ (by omega), hname]
    exact substr_after a t '.' (by unfold npos; omega)
  constructor
  · intro hno
    unfold Readstats.calcSuffix
    simp only [hpos, hsfx]
    rw [if_neg (fun h => hno ⟨h.1, h.2.symm⟩)]
  · intro b m hgz hlow ha hm
    have hla : a.length = b.length + 1 + m.length := by
      rw [ha]
      simp only [List.length_append, List.length_cons]
      omega
    have hnameb : readfile0.data = b ++ '.' :: (m ++ '.' :: t) := by
      rw [hname, ha]
      simp
    have hpos2 : rfind readfile0.data '.' (size_sub a.length 1) = b.length := by
      unfold rfind
      rw [size_sub_of_le _ _ (by omega) (by omega)]
      have e : min (a.length - 1 + 1) readfile0.data.length = b.length + 1 + m.length := by
        rw [hname]
        simp only [List.length_append, List.length_cons]
        omega
      rw [e, hnameb]
      exact rfind_below_last '.' b m ('.' :: t) hm m.length (le_refl _)
    have hsfx2 : substr readfile0.data (size_add b.length 1)
        (size_sub (size_sub a.length b.length) 1) = some m := by
      rw [size_add_of_lt _ _ (by omega), size_sub_of_le a.length b.length (by omega) (by omega),
        size_sub_of_le _ _ (by omega) (by omega)]
      have e : a.length - b.length - 1 = m.length := by omega
      rw [e, hnameb]
      exact substr_between b m ('.' :: t) '.'
    unfold Readstats.calcSuffix
    simp only [hpos, hsfx]
    rw [if_pos ⟨hgz, hlow.symm⟩]
    simp only [hpos2, hsfx2]

/-- The amended statement instantiated at the name `reads.fastq.gz` with `is_gz` set. -/
theorem calcSuffix_amended_witness :
    (("reads.fastq.gz" : String).data
        = ['r', 'e', 'a', 'd', 's', '.', 'f', 'a', 's', 't', 'q'] ++ '.' :: ['g', 'z'] ∧
      (∀ c ∈ ['g', 'z'], c ≠ '.') ∧ ("reads.fastq.gz" : String).data.length < npos) ∧
    Readstats.calcSuffix "reads.fastq.gz" true exFresh
      = some { exFresh with suffix := String.mk ['f', 'a', 's', 't', 'q'] } :=
  ⟨⟨by decide, by decide, by decide⟩,
    (calcSuffix_amended "reads.fastq.gz" true exFresh
      ['r', 'e', 'a', 'd', 's', '.', 'f', 'a', 's', 't', 'q'] ['g', 'z']
      (by decide) (by decide) (by decide)).2 ['r', 'e', 'a', 'd', 's'] ['f', 'a', 's', 't', 'q']
      rfl (by decide) (by decide) (by decide)⟩

theorem rtrim_nil : rtrim [] = [] := rfl

theorem rtrim_append_ws (line : List Nat) :
    ∃ ws : List Nat, line = rtrim line ++ ws := by
  refine ⟨(line.reverse.takeWhile isspace).reverse, ?_⟩
  unfold rtrim
  rw [← List.reverse_append, List.takeWhile_append_dropWhile, List.reverse_reverse]

theorem front_rtrim_of_ne_nil (line : List Nat) (h : rtrim line ≠ []) :
    front (rtrim line) = front line := by
  obtain ⟨ws, hws⟩ := rtrim_append_ws line
  cases hr : rtrim line with
  | nil => exact absurd hr h
  | cons c tl =>
    rw [hr] at hws
    rw [hws]
    rfl

theorem front_rtrim_cases (line : List Nat) :
    front (rtrim line) = front line ∨ front (rtrim line) = 0 := by
  by_cases h : rtrim line = []
  · right
    rw [h]
    rfl
  · left
    exact front_rtrim_of_ne_nil line h

theorem dropWhile_append_singleton (p : Nat → Bool) (c : Nat) (hc : p c = false) :
    ∀ xs : List Nat, (xs ++ [c]).dropWhile p = xs.dropWhile p ++ [c]
  | [] => by simp [List.dropWhile, hc]
  | x :: xs => by
      by_cases hx : p x = true
      · simp only [List.cons_append, List.dropWhile_cons, hx, if_true]
        exact dropWhile_append_singleton p c hc xs
      · simp [List.dropWhile_cons, hx]

theorem rtrim_cons_of_not_space (c : Nat) (tl : List Nat) (hc : isspace c = false) :
    rtrim (c :: tl) = c :: rtrim tl := by
  unfold rtrim
  rw [List.reverse_cons, dropWhile_append_singleton isspace c hc, List.reverse_append]
  rfl

theorem front_rtrim_of_not_space (line : List Nat) (c : Nat) (hf : front line = c)
    (hc : isspace c = false) (hne : line ≠ []) : front (rtrim line) = c := by
  cases line with
  | nil => exact absurd rfl hne
  | cons x tl =>
    have hx : x = c := hf
    subst hx
    rw [rtrim_cons_of_not_space x tl hc]
    rfl

theorem rtrim_of_no_space : ∀ line : List Nat, (∀ c ∈ line, isspace c = false) →
    rtrim line = line
  | [], _ => rfl
  | c :: tl, h => by
      rw [rtrim_cons_of_not_space c tl (h c (List.mem_cons_self _ _)),
        rtrim_of_no_space tl (fun x hx => h x (List.mem_cons_of_mem _ hx))]

theorem count_read_nil (s : Readstats) : count_read s [] = s := by
  simp [count_read]

theorem count_read_fields (s : Readstats) (seq : List Nat) (h : seq ≠ []) :
    (count_read s seq).all_reads_count = (s.all_reads_count + 1) % 18446744073709551616 ∧
    (count_read s seq).all_reads_len = (s.all_reads_len + seq.length) % 18446744073709551616 ∧
    (count_read s seq).min_read_len
      = (if seq.length < s.min_read_len then seq.length % 4294967296 else s.min_read_len) ∧
    (count_read s seq).max_read_len
      = (if seq.length > s.max_read_len then seq.length % 4294967296 else s.max_read_len) := by
  unfold count_read
  rw [if_neg h]
  by_cases h1 : seq.length < s.min_read_len <;> by_cases h2 : seq.length > s.max_read_len <;>
    simp [h1, h2]

theorem foldl_count_read_counts :
    ∀ (seqs : List (List Nat)) (s : Readstats), (∀ q ∈ seqs, q ≠ []) →
      s.all_reads_count + seqs.length < 18446744073709551616 →
      s.all_reads_len + (seqs.map List.length).sum < 18446744073709551616 →
      (seqs.foldl count_read s).all_reads_count = s.all_reads_count + seqs.length ∧
      (seqs.foldl count_read s).all_reads_len = s.all_reads_len + (seqs.map List.length).sum
  | [], s, _, _, _ => by simp
  | q :: seqs, s, hne, h1, h2 => by
      simp only [List.length_cons, List.map_cons, List.sum_cons] at h1 h2
      obtain ⟨f1, f2, _, _⟩ := count_read_fields s q (hne q (List.mem_cons_self _ _))
      have g1 : (count_read s q).all_reads_count = s.all_reads_count + 1 := by
        rw [f1]; exact Nat.mod_eq_of_lt (by omega)
      have g2 : (count_read s q).all_reads_len = s.all_reads_len + q.length := by
        rw [f2]; exact Nat.mod_eq_of_lt (by omega)
      have ih := foldl_count_read_counts seqs (count_read s q)
        (fun x hx => hne x (List.mem_cons_of_mem _ hx)) (by rw [g1]; omega) (by rw [g2]; omega)
      simp only [List.foldl_cons, List.length_cons, List.map_cons, List.sum_cons]
      rw [ih.1, ih.2, g1, g2]
      constructor <;> omega

theorem foldl_count_read_min_max :
    ∀ (seqs : List (List Nat)) (s : Readstats), (∀ q ∈ seqs, q ≠ []) →
      (∀ q ∈ seqs, q.length < 4294967296) →
      (seqs.foldl count_read s).min_read_len = minLen s.min_read_len (seqs.map List.length) ∧
      (seqs.foldl count_read s).max_read_len
        = (seqs.map List.length).foldl max s.max_read_len
  | [], s, _, _ => by simp [minLen]
  | q :: seqs, s, hne, hlt => by
      obtain ⟨_, _, f3, f4⟩ := count_read_fields s q (hne q (List.mem_cons_self _ _))
      have hq := hlt q (List.mem_cons_self _ _)
      have g3 : (count_read s q).min_read_len = min s.min_read_len q.length := by
        rw [f3, Nat.mod_eq_of_lt hq]
        by_cases h : q.length < s.min_read_len
        · rw [if_pos h]; omega
        · rw [if_neg h]; omega
      have g4 : (count_read s q).max_read_len = max s.max_read_len q.length := by
        rw [f4, Nat.mod_eq_of_lt hq]
        by_cases h : q.length > s.max_read_len
        · rw [if_pos h]; omega
        · rw [if_neg h]; omega
      have ih := foldl_count_read_min_max seqs (count_read s q)
        (fun x hx => hne x (List.mem_cons_of_mem _ hx))
        (fun x hx => hlt x (List.mem_cons_of_mem _ hx))
      simp only [List.foldl_cons, List.map_cons, minLen] at ih ⊢
      rw [ih.1, ih.2, g3, g4]
      exact ⟨rfl, rfl⟩
theorem calculate_line_empty (st : CalcSt) : calculate_line st [] = some st := by
  unfold calculate_line
  simp

theorem calculate_loop_cons (l : List Nat) (rest : List (List Nat)) (st st' : CalcSt)
    (h : calculate_line st l = some st') :
    calculate_loop (l :: rest) st = calculate_loop rest st' := by
  simp only [calculate_loop, h]

theorem calculate_loop_cons_none (l : List Nat) (rest : List (List Nat)) (st : CalcSt)
    (h : calculate_line st l = none) : calculate_loop (l :: rest) st = none := by
  simp only [calculate_loop, h]

theorem calculate_loop_skip_empty :
    ∀ (pre rest : List (List Nat)) (st : CalcSt), (∀ l ∈ pre, l = []) →
      calculate_loop (pre ++ rest) st = calculate_loop rest st
  | [], _, _, _ => rfl
  | l :: pre, rest, st, h => by
      have hl : l = [] := h l (List.mem_cons_self _ _)
      subst hl
      rw [List.cons_append, calculate_loop_cons _ _ _ _ (calculate_line_empty st)]
      exact calculate_loop_skip_empty pre rest st (fun x hx => h x (List.mem_cons_of_mem _ hx))

theorem calculate_line_fasta_header (st : CalcSt) (h : List Nat) (hm : FastaMode st)
    (hh : front h = 62) :
    ∃ st' : CalcSt, calculate_line st h = some st' ∧
      (st'.isFasta = true ∧ st'.isFastq = false ∧ 1 ≤ st'.tcount) ∧
      st'.sequence = [] ∧ st'.stats = count_read st.stats st.sequence := by
  have hne : h ≠ [] := by
    intro h0
    rw [h0] at hh
    exact absurd hh (by decide)
  have hf : front (rtrim h) = 62 := front_rtrim_of_not_space h 62 hh (by decide) hne
  unfold calculate_line
  rcases hm with h0 | ⟨ha, hq, ht⟩
  · simp [h0, hne, hf, FASTA_HEADER_START, FASTQ_HEADER_START]
  · have ht1 : ¬ st.tcount + 1 = 1 := by omega
    simp [hne, hf, ha, hq, ht1, FASTA_HEADER_START, FASTQ_HEADER_START]

theorem calculate_line_fasta_body (st : CalcSt) (l : List Nat)
    (hm : st.isFasta = true ∧ st.isFastq = false ∧ 1 ≤ st.tcount) (hl : front l ≠ 62) :
    ∃ st' : CalcSt, calculate_line st l = some st' ∧
      (st'.isFasta = true ∧ st'.isFastq = false ∧ 1 ≤ st'.tcount) ∧
      st'.sequence = st.sequence ++ rtrim l ∧ st'.stats = st.stats := by
  obtain ⟨ha, hq, ht⟩ := hm
  by_cases hne : l = []
  · subst hne
    exact ⟨st, calculate_line_empty st, ⟨ha, hq, ht⟩, by simp [rtrim_nil], rfl⟩
  · have hf : front (rtrim l) ≠ 62 := by
      rcases front_rtrim_cases l with h | h
      · rw [h]; exact hl
      · rw [h]; decide
    have ht1 : ¬ st.tcount + 1 = 1 := by omega
    unfold calculate_line
    simp [hne, hf, ha, hq, ht1, FASTA_HEADER_START, FASTQ_HEADER_START]

theorem calculate_loop_fasta_body :
    ∀ (body rest : List (List Nat)) (st : CalcSt),
      (st.isFasta = true ∧ st.isFastq = false ∧ 1 ≤ st.tcount) →
      (∀ l ∈ body, front l ≠ 62) →
      ∃ st' : CalcSt, calculate_loop (body ++ rest) st = calculate_loop rest st' ∧
        (st'.isFasta = true ∧ st'.isFastq = false ∧ 1 ≤ st'.tcount) ∧
        st'.sequence = st.sequence ++ fastaSeq body ∧ st'.stats = st.stats
  | [], rest, st, hm, _ => ⟨st, rfl, hm, by simp [fastaSeq], rfl⟩
  | l :: body, rest, st, hm, hb => by
      obtain ⟨st1, e1, m1, q1, s1⟩ :=
        calculate_line_fasta_body st l hm (hb l (List.mem_cons_self _ _))
      obtain ⟨st2, e2, m2, q2, s2⟩ := calculate_loop_fasta_body body rest st1 m1
        (fun x hx => hb x (List.mem_cons_of_mem _ hx))
      refine ⟨st2, ?_, m2, ?_, by rw [s2, s1]⟩
      · rw [List.cons_append, calculate_loop_cons _ _ _ _ e1]
        exact e2
      · rw [q2, q1]
        simp [fastaSeq, List.append_assoc]

theorem calculate_loop_fasta :
    ∀ (recs : List (List Nat × List (List Nat))) (st : CalcSt), FastaMode st →
      (∀ r ∈ recs, front r.1 = 62 ∧ (∀ l ∈ r.2, front l ≠ 62)) →
      calculate_loop (recs.flatMap (fun r => r.1 :: r.2)) st
        = some ((st.sequence :: recs.map (fun r => fastaSeq r.2)).foldl count_read st.stats)
  | [], st, _, _ => by simp [calculate_loop]
  | r :: recs, st, hm, hr => by
      obtain ⟨hh, hb⟩ := hr r (List.mem_cons_self _ _)
      obtain ⟨st1, e1, m1, q1, s1⟩ := calculate_line_fasta_header st r.1 hm hh
      obtain ⟨st2, e2, m2, q2, s2⟩ := calculate_loop_fasta_body r.2
        (recs.flatMap (fun r => r.1 :: r.2)) st1 m1 hb
      have ih := calculate_loop_fasta recs st2 (Or.inr m2)
        (fun x hx => hr x (List.mem_cons_of_mem _ hx))
      rw [List.flatMap_cons, List.cons_append, calculate_loop_cons _ _ _ _ e1, e2, ih, q2, q1,
        s2, s1]
      simp

/-- Statistics after `Readstats::calculate` on one FASTA file: `count_read` applied to the
read of every record in turn. -/
theorem calculate_fasta_stats (pre : List (List Nat))
    (recs : List (List Nat × List (List Nat))) (s : Readstats)
    (hpre : ∀ l ∈ pre, l = []) (hrecs : ∀ r ∈ recs, FastaRec r) :
    Readstats.calculate [fastaLines pre recs] s
      = some ((recs.map (fun r => fastaSeq r.2)).foldl count_read s) := by
  have h := calculate_loop_fasta recs
    { count := 0, tcount := 0, isFastq := false, isFasta := false, sequence := [], stats := s }
    (Or.inl rfl) (fun r hr => ⟨(hrecs r hr).1, (hrecs r hr).2.1⟩)
  simp only [Readstats.calculate, calculate_file, fastaLines]
  rw [calculate_loop_skip_empty pre _ _ hpre, h]
  simp [count_read_nil]
theorem calculate_loop_fastq_record (r : FastqRec) (rest : List (List Nat)) (st : CalcSt)
    (hm : FastqStart st) (hr : r.Ok) :
    ∃ st' : CalcSt,
      calculate_loop (r.header :: r.seq :: r.plus :: r.qual :: rest) st = calculate_loop rest st' ∧
      (st'.isFastq = true ∧ st'.isFasta = false ∧ st'.count = 4 ∧ 1 ≤ st'.tcount) ∧
      st'.sequence = rtrim r.seq ∧ st'.stats = count_read st.stats st.sequence := by
  obtain ⟨hh, hs, hsp, hp, hq⟩ := hr
  have hhne : r.header ≠ [] := by
    intro h0; rw [h0] at hh; exact absurd hh (by decide)
  have hpne : r.plus ≠ [] := by
    intro h0; rw [h0] at hp; exact absurd hp (by decide)
  have hsne : r.seq ≠ [] := by
    intro h0; rw [h0] at hs; exact hs rfl
  have fh : front (rtrim r.header) = 64 := front_rtrim_of_not_space _ 64 hh (by decide) hhne
  have fp : front (rtrim r.plus) = 43 := front_rtrim_of_not_space _ 43 hp (by decide) hpne
  have fs : front (rtrim r.seq) ≠ 43 := by
    rw [front_rtrim_of_ne_nil _ hs]; exact hsp
  -- header line
  have e1 : ∃ st1 : CalcSt, calculate_line st r.header = some st1 ∧
      st1.isFastq = true ∧ st1.isFasta = false ∧ st1.count = 1 ∧ 1 ≤ st1.tcount ∧
      st1.sequence = [] ∧ st1.stats = count_read st.stats st.sequence := by
    unfold calculate_line
    rcases hm with ⟨h0, hc⟩ | ⟨hq', ha', hc, ht⟩
    · simp [h0, hc, hhne, fh, FASTA_HEADER_START, FASTQ_HEADER_START]
    · have ht1 : ¬ st.tcount + 1 = 1 := by omega
      simp [hhne, fh, hq', ha', hc, ht1, FASTA_HEADER_START, FASTQ_HEADER_START]
  obtain ⟨st1, c1, q1, a1, n1, t1, s1, x1⟩ := e1
  -- sequence line
  have e2 : ∃ st2 : CalcSt, calculate_line st1 r.seq = some st2 ∧
      st2.isFastq = true ∧ st2.isFasta = false ∧ st2.count = 2 ∧ 1 ≤ st2.tcount ∧
      st2.sequence = rtrim r.seq ∧ st2.stats = st1.stats := by
    have ht1 : ¬ st1.tcount + 1 = 1 := by omega
    unfold calculate_line
    simp [hsne, fs, q1, a1, n1, ht1, s1, FASTA_HEADER_START, FASTQ_HEADER_START]
  obtain ⟨st2, c2, q2, a2, n2, t2, s2, x2⟩ := e2
  -- separator line
  have e3 : ∃ st3 : CalcSt, calculate_line st2 r.plus = some st3 ∧
      st3.isFastq = true ∧ st3.isFasta = false ∧ st3.count = 3 ∧ 1 ≤ st3.tcount ∧
      st3.sequence = st2.sequence ∧ st3.stats = st2.stats := by
    have ht1 : ¬ st2.tcount + 1 = 1 := by omega
    unfold calculate_line
    simp [hpne, fp, q2, a2, n2, ht1, FASTA_HEADER_START, FASTQ_HEADER_START]
  obtain ⟨st3, c3, q3, a3, n3, t3, s3, x3⟩ := e3
  -- quality line
  have e4 : ∃ st4 : CalcSt, calculate_line st3 r.qual = some st4 ∧
      st4.isFastq = true ∧ st4.isFasta = false ∧ st4.count = 4 ∧ 1 ≤ st4.tcount ∧
      st4.sequence = st3.sequence ∧ st4.stats = st3.stats := by
    have ht1 : ¬ st3.tcount + 1 = 1 := by omega
    unfold calculate_line
    simp [hq, q3, a3, n3, ht1, FASTA_HEADER_START, FASTQ_HEADER_START]
  obtain ⟨st4, c4, q4, a4, n4, t4, s4, x4⟩ := e4
  refine ⟨st4, ?_, ⟨q4, a4, n4, t4⟩, by rw [s4, s3, s2], by rw [x4, x3, x2, x1]⟩
  rw [calculate_loop_cons _ _ _ _ c1, calculate_loop_cons _ _ _ _ c2,
    calculate_loop_cons _ _ _ _ c3, calculate_loop_cons _ _ _ _ c4]

theorem calculate_loop_fastq :
    ∀ (recs : List FastqRec) (st : CalcSt), FastqStart st → (∀ r ∈ recs, r.Ok) →
      calculate_loop (fastqLines recs) st
        = some ((st.sequence :: recs.map (fun r => rtrim r.seq)).foldl count_read st.stats)
  | [], st, _, _ => by simp [fastqLines, calculate_loop]
  | r :: recs, st, hm, hr => by
      obtain ⟨st1, e1, m1, q1, s1⟩ := calculate_loop_fastq_record r (fastqLines recs) st hm
        (hr r (List.mem_cons_self _ _))
      have ih := calculate_loop_fastq recs st1 (Or.inr m1)
        (fun x hx => hr x (List.mem_cons_of_mem _ hx))
      have e : fastqLines (r :: recs)
          = r.header :: r.seq :: r.plus :: r.qual :: fastqLines recs := by
        simp [fastqLines]
      rw [e, e1, ih, q1, s1]
      simp

/-- Statistics after `Readstats::calculate` on one FASTQ file: `count_read` applied to the
right-trimmed sequence line of every record in turn. -/
theorem calculate_fastq_stats (recs : List FastqRec) (s : Readstats)
    (hrecs : ∀ r ∈ recs, r.Ok) :
    Readstats.calculate [fastqLines recs] s
      = some ((recs.map (fun r => rtrim r.seq)).foldl count_read s) := by
  have h := calculate_loop_fastq recs
    { count := 0, tcount := 0, isFastq := false, isFasta := false, sequence := [], stats := s }
    (Or.inl ⟨rfl, rfl⟩) hrecs
  simp only [Readstats.calculate, calculate_file]
  rw [h]
  simp [count_read_nil]
theorem fastaSeq_length : ∀ body : List (List Nat),
    (fastaSeq body).length = (body.map (fun l => (rtrim l).length)).sum
  | [] => rfl
  | l :: body => by
      have ih := fastaSeq_length body
      unfold fastaSeq at ih ⊢
      rw [List.flatMap_cons, List.length_append, ih, List.map_cons, List.sum_cons]

/-- C11. FASTA statistics: for a reads file made of empty lines followed by records, each a
header line starting with `>` followed by lines that do not start with `>` (sequence lines
and empty lines) whose right-trimmed concatenation is not empty, `Readstats::calculate`
succeeds, adds the number of records to `all_reads_count` and adds to `all_reads_len` the sum
over the records of the lengths of their right-trimmed sequence lines, as long as the two
64-bit counters do not wrap. -/
theorem calculate_fasta_counts (pre : List (List Nat))
    (recs : List (List Nat × List (List Nat))) (s : Readstats)
    (hpre : ∀ l ∈ pre, l = []) (hrecs : ∀ r ∈ recs, FastaRec r)
    (hcount : s.all_reads_count + recs.length < 18446744073709551616)
    (hlen : s.all_reads_len
        + (recs.map (fun r => (r.2.map (fun l => (rtrim l).length)).sum)).sum
      < 18446744073709551616) :
    ∃ s1 : Readstats, Readstats.calculate [fastaLines pre recs] s = some s1 ∧
      s1.all_reads_count = s.all_reads_count + recs.length ∧
      s1.all_reads_len = s.all_reads_len
        + (recs.map (fun r => (r.2.map (fun l => (rtrim l).length)).sum)).sum := by
  have e : (recs.map (fun r => fastaSeq r.2)).map List.length
      = recs.map (fun r => (r.2.map (fun l => (rtrim l).length)).sum) := by
    rw [List.map_map]
    apply List.map_congr_left
    intro r _
    exact fastaSeq_length r.2
  have hne : ∀ q ∈ recs.map (fun r => fastaSeq r.2), q ≠ [] := by
    intro q hq
    obtain ⟨r, hr, rfl⟩ := List.mem_map.mp hq
    exact (hrecs r hr).2.2
  have h := foldl_count_read_counts (recs.map (fun r => fastaSeq r.2)) s hne
    (by rw [List.length_map]; exact hcount) (by rw [e]; exact hlen)
  rw [List.length_map, e] at h
  exact ⟨_, calculate_fasta_stats pre recs s hpre hrecs, h.1, h.2⟩

/-- Witness of C11: an empty line, a record with a two-line sequence split by an empty line
(`>r1`, `AC `, empty, `GT`) and a record `>r2`, `A\r`: 2 reads, 5 nucleotides. -/
theorem calculate_fasta_counts_witness :
    ((∀ l ∈ ([[]] : List (List Nat)), l = []) ∧
     (∀ r ∈ ([([62, 114, 49], [[65, 67, 32], [], [71, 84]]), ([62, 114, 50], [[65, 13]])] :
        List (List Nat × List (List Nat))), FastaRec r)) ∧
    ∃ s1 : Readstats,
      Readstats.calculate
        [fastaLines [[]] [([62, 114, 49], [[65, 67, 32], [], [71, 84]]),
                          ([62, 114, 50], [[65, 13]])]]
        (Readstats.fresh 30000 "" 0) = some s1 ∧
      s1.all_reads_count = 0 + 2 ∧ s1.all_reads_len = 0 + 5 :=
  ⟨⟨by decide, by decide⟩,
   calculate_fasta_counts [[]] [([62, 114, 49], [[65, 67, 32], [], [71, 84]]),
      ([62, 114, 50], [[65, 13]])] (Readstats.fresh 30000 "" 0)
    (by decide) (by decide) (by decide) (by decide)⟩

/-- C12. FASTQ statistics: for a reads file made of records of four lines each (a header
starting with `@`, a sequence line that is not blank and does not start with `+`, a separator
starting with `+`, a non-empty quality line of any content), `Readstats::calculate` succeeds,
adds the number of records to `all_reads_count` and adds to `all_reads_len` the sum of the
lengths of the right-trimmed sequence lines, as long as the two 64-bit counters do not
wrap. -/
theorem calculate_fastq_counts (recs : List FastqRec) (s : Readstats)
    (hrecs : ∀ r ∈ recs, r.Ok)
    (hcount : s.all_reads_count + recs.length < 18446744073709551616)
    (hlen : s.all_reads_len + (recs.map (fun r => (rtrim r.seq).length)).sum
      < 18446744073709551616) :
    ∃ s1 : Readstats, Readstats.calculate [fastqLines recs] s = some s1 ∧
      s1.all_reads_count = s.all_reads_count + recs.length ∧
      s1.all_reads_len = s.all_reads_len + (recs.map (fun r => (rtrim r.seq).length)).sum := by
  have e : (recs.map (fun r => rtrim r.seq)).map List.length
      = recs.map (fun r => (rtrim r.seq).length) := by
    rw [List.map_map]
    rfl
  have hne : ∀ q ∈ recs.map (fun r => rtrim r.seq), q ≠ [] := by
    intro q hq
    obtain ⟨r, hr, rfl⟩ := List.mem_map.mp hq
    exact (hrecs r hr).2.1
  have h := foldl_count_read_counts (recs.map (fun r => rtrim r.seq)) s hne
    (by rw [List.length_map]; exact hcount) (by rw [e]; exact hlen)
  rw [List.length_map, e] at h
  exact ⟨_, calculate_fastq_stats recs s hrecs, h.1, h.2⟩

/-- Witness of C12: the records `@r1 / ACG\r / + / @>!` and `@r2 / TT / +r2 / >>`, whose
quality lines start with `@` and `>`: 2 reads, 5 nucleotides. -/
theorem calculate_fastq_counts_witness :
    (∀ r ∈ ([⟨[64, 114, 49], [65, 67, 71, 13], [43], [64, 62, 33]⟩,
        ⟨[64, 114, 50], [84, 84], [43, 114, 50], [62, 62]⟩] : List FastqRec), r.Ok) ∧
    ∃ s1 : Readstats,
      Readstats.calculate
        [fastqLines [⟨[64, 114, 49], [65, 67, 71, 13], [43], [64, 62, 33]⟩,
                     ⟨[64, 114, 50], [84, 84], [43, 114, 50], [62, 62]⟩]]
        (Readstats.fresh 30000 "" 0) = some s1 ∧
      s1.all_reads_count = 0 + 2 ∧ s1.all_reads_len = 0 + 5 :=
  ⟨by decide,
   calculate_fastq_counts [⟨[64, 114, 49], [65, 67, 71, 13], [43], [64, 62, 33]⟩,
      ⟨[64, 114, 50], [84, 84], [43, 114, 50], [62, 62]⟩] (Readstats.fresh 30000 "" 0)
    (by decide) (by decide) (by decide)⟩
theorem calculate_one_long_read (M : Nat) :
    ∃ s1 : Readstats,
      Readstats.calculate [[[62, 114], List.replicate (M + 1) 65]] (Readstats.fresh M "" 0)
        = some s1 ∧
      s1.all_reads_count = 1 ∧ s1.all_reads_len = (M + 1) % 18446744073709551616 ∧
      s1.min_read_len = M ∧ s1.max_read_len = (M + 1) % 4294967296 := by
  have hns : ∀ c ∈ List.replicate (M + 1) 65, isspace c = false := by
    intro c hc
    rw [List.eq_of_mem_replicate hc]
    decide
  have hseq : fastaSeq [List.replicate (M + 1) 65] = List.replicate (M + 1) 65 := by
    simp [fastaSeq, rtrim_of_no_space _ hns]
  have hne : List.replicate (M + 1) 65 ≠ [] := by
    simp [List.replicate_succ]
  have hrec : ∀ r ∈ [(([62, 114] : List Nat), [List.replicate (M + 1) 65])], FastaRec r := by
    intro r hr
    rw [List.mem_singleton] at hr
    subst hr
    refine ⟨rfl, ?_, ?_⟩
    · intro l hl
      rw [List.mem_singleton] at hl
      subst hl
      simp [front, List.replicate_succ]
    · show fastaSeq [List.replicate (M + 1) 65] ≠ []
      rw [hseq]
      exact hne
  have h := calculate_fasta_stats [] [([62, 114], [List.replicate (M + 1) 65])]
    (Readstats.fresh M "" 0) (by simp) hrec
  have hl : fastaLines [] [(([62, 114] : List Nat), [List.replicate (M + 1) 65])]
      = [[62, 114], List.replicate (M + 1) 65] := by
    simp [fastaLines]
  rw [hl] at h
  simp only [List.map_cons, List.map_nil, List.foldl_cons, List.foldl_nil, hseq] at h
  obtain ⟨f1, f2, f3, f4⟩ := count_read_fields (Readstats.fresh M "" 0) _ hne
  refine ⟨_, h, ?_, ?_, ?_, ?_⟩
  · rw [f1]; rfl
  · rw [f2, List.length_replicate]
    simp [Readstats.fresh]
  · rw [f3, List.length_replicate]
    simp [Readstats.fresh]
  · rw [f4, List.length_replicate]
    simp [Readstats.fresh]

/-- C13, the code at a failing input, with 30000 for `MAX_READ_LEN`: a FASTA file with the
single read `>r` of 30001 nucleotides `A`, on a freshly constructed `Readstats`. The read is
counted and is the shortest and the longest counted read, `max_read_len` is 30001, and
`min_read_len` is 30000, the value the constructor starts from, because
`sequence.size() < min_read_len` is false. For any other value of `MAX_READ_LEN` a read one
byte longer than it gives the same. -/
theorem calculate_min_read_len_stuck_at_start :
    ∃ s1 : Readstats,
      Readstats.calculate [[[62, 114], List.replicate 30001 65]] (Readstats.fresh 30000 "" 0)
        = some s1 ∧
      s1.all_reads_count = 1 ∧ s1.all_reads_len = 30001 ∧ s1.min_read_len = 30000 ∧
      s1.max_read_len = 30001 :=
  calculate_one_long_read 30000

/-- What `Readstats::calculate` computes for the two length members on a freshly constructed
`Readstats` over a well-formed FASTA file, or over a well-formed FASTQ file, whose reads are
shorter than `2^32`: `max_read_len` is the length of the longest counted read (0 without
reads), and `min_read_len` is the smallest of the constructor's start value `MAX_READ_LEN`
and the lengths of the counted reads, which is the length of the shortest counted read as
soon as one counted read is no longer than `MAX_READ_LEN`. -/
theorem calculate_min_max_values (MAX_READ_LEN : Nat) (dbkey : String) (n_indexfiles : Nat) :
    (∀ (pre : List (List Nat)) (recs : List (List Nat × List (List Nat))),
      (∀ l ∈ pre, l = []) → (∀ r ∈ recs, FastaRec r) →
      (∀ r ∈ recs, (fastaSeq r.2).length < 4294967296) →
      ∃ s1 : Readstats,
        Readstats.calculate [fastaLines pre recs]
          (Readstats.fresh MAX_READ_LEN dbkey n_indexfiles) = some s1 ∧
        s1.min_read_len = minLen MAX_READ_LEN (recs.map (fun r => (fastaSeq r.2).length)) ∧
        s1.max_read_len = maxLen (recs.map (fun r => (fastaSeq r.2).length))) ∧
    (∀ (recs : List FastqRec),
      (∀ r ∈ recs, r.Ok) → (∀ r ∈ recs, (rtrim r.seq).length < 4294967296) →
      ∃ s1 : Readstats,
        Readstats.calculate [fastqLines recs]
          (Readstats.fresh MAX_READ_LEN dbkey n_indexfiles) = some s1 ∧
        s1.min_read_len = minLen MAX_READ_LEN (recs.map (fun r => (rtrim r.seq).length)) ∧
        s1.max_read_len = maxLen (recs.map (fun r => (rtrim r.seq).length))) := by
  constructor
  · intro pre recs hpre hrecs hlt
    have hne : ∀ q ∈ recs.map (fun r => fastaSeq r.2), q ≠ [] := by
      intro q hq
      obtain ⟨r, hr, rfl⟩ := List.mem_map.mp hq
      exact (hrecs r hr).2.2
    have hlt2 : ∀ q ∈ recs.map (fun r => fastaSeq r.2), q.length < 4294967296 := by
      intro q hq
      obtain ⟨r, hr, rfl⟩ := List.mem_map.mp hq
      exact hlt r hr
    have h := foldl_count_read_min_max (recs.map (fun r => fastaSeq r.2))
      (Readstats.fresh MAX_READ_LEN dbkey n_indexfiles) hne hlt2
    rw [List.map_map] at h
    exact ⟨_, calculate_fasta_stats pre recs _ hpre hrecs, h.1, h.2⟩
  · intro recs hrecs hlt
    have hne : ∀ q ∈ recs.map (fun r => rtrim r.seq), q ≠ [] := by
      intro q hq
      obtain ⟨r, hr, rfl⟩ := List.mem_map.mp hq
      exact (hrecs r hr).2.1
    have hlt2 : ∀ q ∈ recs.map (fun r => rtrim r.seq), q.length < 4294967296 := by
      intro q hq
      obtain ⟨r, hr, rfl⟩ := List.mem_map.mp hq
      exact hlt r hr
    have h := foldl_count_read_min_max (recs.map (fun r => rtrim r.seq))
      (Readstats.fresh MAX_READ_LEN dbkey n_indexfiles) hne hlt2
    rw [List.map_map] at h
    exact ⟨_, calculate_fastq_stats recs _ hrecs, h.1, h.2⟩

/-- The two length members at concrete files, with 30000 for `MAX_READ_LEN`: the FASTA file `>r1`, `AC `,
empty, `GT`, `>r2`, `A\r` has reads of 4 and 1 nucleotides; the FASTQ file
`@r1 / ACG\r / + / @>!`, `@r2 / TT / +r2 / >>` has reads of 3 and 2 nucleotides. -/
theorem calculate_min_max_values_example :
    (∃ s1 : Readstats,
      Readstats.calculate
        [fastaLines [[]] [([62, 114, 49], [[65, 67, 32], [], [71, 84]]),
                          ([62, 114, 50], [[65, 13]])]]
        (Readstats.fresh 30000 "" 0) = some s1 ∧
      s1.min_read_len = 1 ∧ s1.max_read_len = 4) ∧
    (∃ s1 : Readstats,
      Readstats.calculate
        [fastqLines [⟨[64, 114, 49], [65, 67, 71, 13], [43], [64, 62, 33]⟩,
                     ⟨[64, 114, 50], [84, 84], [43, 114, 50], [62, 62]⟩]]
        (Readstats.fresh 30000 "" 0) = some s1 ∧
      s1.min_read_len = 2 ∧ s1.max_read_len = 3) :=
  ⟨(calculate_min_max_values 30000 "" 0).1 [[]]
      [([62, 114, 49], [[65, 67, 32], [], [71, 84]]), ([62, 114, 50], [[65, 13]])]
      (by decide) (by decide) (by decide),
   (calculate_min_max_values 30000 "" 0).2
      [⟨[64, 114, 49], [65, 67, 71, 13], [43], [64, 62, 33]⟩,
       ⟨[64, 114, 50], [84, 84], [43, 114, 50], [62, 62]⟩]
      (by decide) (by decide)⟩
theorem front_rtrim_ne (line : List Nat) (c : Nat) (hc : c ≠ 0) (h : front line ≠ c) :
    front (rtrim line) ≠ c := by
  rcases front_rtrim_cases line with e | e
  · rw [e]; exact h
  · rw [e]; exact fun h0 => hc h0.symm

theorem calculate_line_first_not_header (st : CalcSt) (l : List Nat) (ht : st.tcount = 0)
    (hne : l ≠ []) (h1 : front l ≠ 62) (h2 : front l ≠ 64) : calculate_line st l = none := by
  have f1 := front_rtrim_ne l 62 (by decide) h1
  have f2 := front_rtrim_ne l 64 (by decide) h2
  unfold calculate_line
  simp [hne, ht, f1, f2, FASTA_HEADER_START, FASTQ_HEADER_START]

theorem calculate_line_fastq_first (st : CalcSt) (l : List Nat) (ht : st.tcount = 0)
    (hc : st.count = 0) (h : front l = 64) : ∃ st1 : CalcSt, calculate_line st l = some st1 ∧ FastqAt st1 1 := by
  have hne : l ≠ [] := by
    intro h0; rw [h0] at h; exact absurd h (by decide)
  have f := front_rtrim_of_not_space l 64 h (by decide) hne
  unfold calculate_line FastqAt
  simp [hne, ht, hc, f, FASTA_HEADER_START, FASTQ_HEADER_START]

theorem calculate_line_fastq_boundary (st : CalcSt) (l : List Nat) (hm : FastqAt st 4)
    (hne : l ≠ []) (h : front l ≠ 64) : calculate_line st l = none := by
  obtain ⟨hq, ha, hc, ht⟩ := hm
  have f := front_rtrim_ne l 64 (by decide) h
  have ht1 : ¬ st.tcount + 1 = 1 := by omega
  unfold calculate_line
  simp [hne, ht1, hq, ha, hc, f, FASTQ_HEADER_START]

theorem calculate_line_fastq_step (st : CalcSt) (l : List Nat) (c : Nat) (hm : FastqAt st c)
    (hc1 : 1 ≤ c) (hc4 : c ≤ 4) (hne : l ≠ []) :
    calculate_line st l = none ∨
      ∃ st1 : CalcSt, calculate_line st l = some st1 ∧
        FastqAt st1 (if c = 4 then 1 else c + 1) := by
  obtain ⟨hq, ha, hc, ht⟩ := hm
  have ht1 : ¬ st.tcount + 1 = 1 := by omega
  have hcases : c = 1 ∨ c = 2 ∨ c = 3 ∨ c = 4 := by omega
  unfold calculate_line FastqAt
  rcases hcases with e | e | e | e <;> subst e
  · by_cases hp : front (rtrim l) = 43 <;>
      simp [hne, ht1, hq, ha, hc, hp, FASTA_HEADER_START, FASTQ_HEADER_START]
  · by_cases hp : front (rtrim l) = 43 <;>
      simp [hne, ht1, hq, ha, hc, hp, FASTA_HEADER_START, FASTQ_HEADER_START]
  · simp [hne, ht1, hq, ha, hc, FASTA_HEADER_START, FASTQ_HEADER_START]
  · by_cases hp : front (rtrim l) = 64 <;>
      simp [hne, ht1, hq, ha, hc, hp, FASTA_HEADER_START, FASTQ_HEADER_START]

theorem calculate_loop_fastq_boundary :
    ∀ (lines : List (List Nat)) (st : CalcSt) (c j : Nat) (l : List Nat),
      FastqAt st c → 1 ≤ c → c ≤ 4 → (c + j) % 4 = 0 →
      (nonEmptyLines lines)[j]? = some l → front l ≠ 64 →
      calculate_loop lines st = none
  | [], _, _, _, _, _, _, _, _, hj, _ => by simp [nonEmptyLines] at hj
  | x :: rest, st, c, j, l, hm, hc1, hc4, hmod, hj, hl => by
      by_cases hx : x = []
      · subst hx
        rw [calculate_loop_cons _ _ _ _ (calculate_line_empty st)]
        have hj2 : (nonEmptyLines rest)[j]? = some l := by
          simpa [nonEmptyLines] using hj
        exact calculate_loop_fastq_boundary rest st c j l hm hc1 hc4 hmod hj2 hl
      · have hf : nonEmptyLines (x :: rest) = x :: nonEmptyLines rest := by
          simp [nonEmptyLines, hx]
        rw [hf] at hj
        cases j with
        | zero =>
          have hxl : x = l := by simpa using hj
          subst hxl
          have h4 : c = 4 := by omega
          subst h4
          exact calculate_loop_cons_none _ _ _ (calculate_line_fastq_boundary st x hm hx hl)
        | succ j =>
          have hj2 : (nonEmptyLines rest)[j]? = some l := by simpa using hj
          rcases calculate_line_fastq_step st x c hm hc1 hc4 hx with e | ⟨st1, e, m1⟩
          · exact calculate_loop_cons_none _ _ _ e
          · rw [calculate_loop_cons _ _ _ _ e]
            refine calculate_loop_fastq_boundary rest st1 _ j l m1 ?_ ?_ ?_ hj2 hl
            · split <;> omega
            · split <;> omega
            · split <;> omega

/-- C14. Header validation in `Readstats::calculate`. (1) If the first non-empty line of a
reads file starts with neither `>` nor `@`, the call fails. (2) If the first non-empty line
starts with `@` and, for some `k`, the non-empty line that follows `k + 1` groups of four
non-empty lines does not start with `@`, the call fails. -/
theorem calculate_header_validation (s : Readstats) (others : List (List (List Nat))) :
    (∀ (pre : List (List Nat)) (l : List Nat) (rest : List (List Nat)),
      (∀ x ∈ pre, x = []) → l ≠ [] → front l ≠ 62 → front l ≠ 64 →
      Readstats.calculate ((pre ++ l :: rest) :: others) s = none) ∧
    (∀ (pre : List (List Nat)) (l0 : List Nat) (rest : List (List Nat)) (k : Nat)
        (l : List Nat),
      (∀ x ∈ pre, x = []) → front l0 = 64 →
      (nonEmptyLines rest)[4 * k + 3]? = some l → front l ≠ 64 →
      Readstats.calculate ((pre ++ l0 :: rest) :: others) s = none) := by
  constructor
  · intro pre l rest hpre hne h1 h2
    simp only [Readstats.calculate, calculate_file]
    rw [calculate_loop_skip_empty pre _ _ hpre,
      calculate_loop_cons_none _ _ _ (calculate_line_first_not_header _ l rfl hne h1 h2)]
  · intro pre l0 rest k l hpre h0 hj hl
    simp only [Readstats.calculate, calculate_file]
    obtain ⟨st1, e1, m1⟩ := calculate_line_fastq_first
      { count := 0, tcount := 0, isFastq := false, isFasta := false, sequence := [],
        stats := s } l0 rfl rfl h0
    rw [calculate_loop_skip_empty pre _ _ hpre, calculate_loop_cons _ _ _ _ e1,
      calculate_loop_fastq_boundary rest st1 1 (4 * k + 3) l m1 (by omega) (by omega)
        (by omega) hj hl]

/-- Witness of C14: the file `ACGT` fails, and the file `@r1 / ACGT / + / !!!! / (empty) /
r2 / AC / + / !!`, whose fifth non-empty line is `r2`, fails. -/
theorem calculate_header_validation_witness :
    Readstats.calculate [[] ++ [65, 67, 71, 84] :: []] (Readstats.fresh 30000 "" 0) = none ∧
    Readstats.calculate
      [[] ++ [64, 114, 49] :: [[65, 67, 71, 84], [43], [33, 33, 33, 33], [],
        [114, 50], [65, 67], [43], [33, 33]]] (Readstats.fresh 30000 "" 0) = none :=
  ⟨(calculate_header_validation (Readstats.fresh 30000 "" 0) []).1 [] [65, 67, 71, 84] []
      (by decide) (by decide) (by decide) (by decide),
   (calculate_header_validation (Readstats.fresh 30000 "" 0) []).2 [] [64, 114, 49]
      [[65, 67, 71, 84], [43], [33, 33, 33, 33], [], [114, 50], [65, 67], [43], [33, 33]]
      0 [114, 50] (by decide) (by decide) (by decide) (by decide)⟩
theorem load_loop_next (nt_table : Int → Nat) (getId : BaseRecord → List Nat)
    (clear : BaseRecord → BaseRecord) (numseq_part : Nat) (fuel : Nat) (st st1 : LoadSt)
    (h : load_step nt_table getId clear numseq_part st = LoadStep.next st1) :
    load_loop nt_table getId clear numseq_part (fuel + 1) st
      = load_loop nt_table getId clear numseq_part fuel st1 := by
  simp only [load_loop, h]

theorem load_loop_done (nt_table : Int → Nat) (getId : BaseRecord → List Nat)
    (clear : BaseRecord → BaseRecord) (numseq_part : Nat) (fuel : Nat) (st : LoadSt) (buffer : List BaseRecord)
    (h : load_step nt_table getId clear numseq_part st = LoadStep.done buffer) :
    load_loop nt_table getId clear numseq_part (fuel + 1) st = some (some buffer) := by
  simp only [load_loop, h]

theorem load_step_limit (nt_table : Int → Nat) (getId : BaseRecord → List Nat)
    (clear : BaseRecord → BaseRecord) (numseq_part : Nat) (st : LoadSt) (h : st.num_seq_read = numseq_part) :
    load_step nt_table getId clear numseq_part st = LoadStep.done st.buffer := by
  unfold load_step
  rw [if_pos h]

theorem load_step_last (nt_table : Int → Nat) (getId : BaseRecord → List Nat)
    (clear : BaseRecord → BaseRecord) (numseq_part : Nat) (st : LoadSt) (hn : st.num_seq_read ≠ numseq_part)
    (hl : st.lastRec = true) (he : st.rec_.isEmpty = false) :
    load_step nt_table getId clear numseq_part st
      = LoadStep.done (st.buffer ++ [pushed getId st.rec_ st.num_seq_read]) := by
  unfold load_step
  simp [hn, hl, he]

theorem load_step_last_empty (nt_table : Int → Nat) (getId : BaseRecord → List Nat)
    (clear : BaseRecord → BaseRecord) (numseq_part : Nat) (st : LoadSt) (hn : st.num_seq_read ≠ numseq_part)
    (hl : st.lastRec = true) (he : st.rec_.isEmpty = true) :
    load_step nt_table getId clear numseq_part st = LoadStep.done st.buffer := by
  unfold load_step
  simp [hn, hl, he]

theorem load_step_end (nt_table : Int → Nat) (getId : BaseRecord → List Nat)
    (clear : BaseRecord → BaseRecord) (numseq_part : Nat) (st : LoadSt) (hn : st.num_seq_read ≠ numseq_part)
    (hl : st.lastRec = false) (he : st.eof = false) (hi : st.ifs = []) :
    load_step nt_table getId clear numseq_part st
      = LoadStep.next { st with line := [], eof := true, lastRec := true } := by
  unfold load_step
  simp [hn, hl, he, hi, getline]

theorem load_step_empty_line (nt_table : Int → Nat) (getId : BaseRecord → List Nat)
    (clear : BaseRecord → BaseRecord) (numseq_part : Nat) (st : LoadSt) (rest : List (List Nat))
    (hn : st.num_seq_read ≠ numseq_part)
    (hl : st.lastRec = false) (he : st.eof = false) (hi : st.ifs = [] :: rest) :
    load_step nt_table getId clear numseq_part st
      = LoadStep.next { st with line := [], ifs := rest, eof := rest.isEmpty,
                                lastRec := rest.isEmpty } := by
  unfold load_step
  simp [hn, hl, he, hi, getline]

theorem load_step_body_line (nt_table : Int → Nat) (getId : BaseRecord → List Nat)
    (clear : BaseRecord → BaseRecord) (numseq_part : Nat) (st : LoadSt) (x : List Nat) (rest : List (List Nat))
    (hn : st.num_seq_read ≠ numseq_part)
    (hl : st.lastRec = false) (he : st.eof = false) (hq : st.isFastq = false)
    (hi : st.ifs = x :: rest) (hx : x ≠ []) (h1 : front x ≠ 62) (h2 : front x ≠ 64) :
    load_step nt_table getId clear numseq_part st
      = LoadStep.next { st with
          line := convert_fix nt_table (rtrim x), ifs := rest, eof := rest.isEmpty,
          lastRec := rest.isEmpty, count := st.count + 1,
          rec_ := { st.rec_ with
            sequence := st.rec_.sequence ++ convert_fix nt_table (rtrim x) } } := by
  have f1 := front_rtrim_ne x 62 (by decide) h1
  have f2 := front_rtrim_ne x 64 (by decide) h2
  unfold load_step
  simp [hn, hl, he, hq, hi, hx, f1, f2, getline, FASTA_HEADER_START, FASTQ_HEADER_START]

theorem load_step_header (nt_table : Int → Nat) (getId : BaseRecord → List Nat)
    (clear : BaseRecord → BaseRecord) (numseq_part : Nat) (st : LoadSt) (h : List Nat) (rest : List (List Nat))
    (hn : st.num_seq_read ≠ numseq_part)
    (hl : st.lastRec = false) (he : st.eof = false) (hr : st.rec_.isEmpty = false)
    (hi : st.ifs = h :: rest) (hh : front h = 62) :
    load_step nt_table getId clear numseq_part st
      = LoadStep.next { st with
          line := rtrim h, ifs := rest, eof := rest.isEmpty, lastRec := rest.isEmpty,
          isFastq := false, count := 0,
          rec_ := startRec clear
            { pushed getId st.rec_ st.num_seq_read with isEmpty := true } h,
          buffer := st.buffer ++ [pushed getId st.rec_ st.num_seq_read],
          num_seq_read := st.num_seq_read + 1 } := by
  have hne : h ≠ [] := by
    intro h0; rw [h0] at hh; exact absurd hh (by decide)
  have f := front_rtrim_of_not_space h 62 hh (by decide) hne
  unfold load_step
  simp [hn, hl, he, hr, hi, hne, f, getline, startRec, FASTA_HEADER_START,
    FASTQ_HEADER_START]

theorem load_step_first_header (nt_table : Int → Nat) (getId : BaseRecord → List Nat)
    (clear : BaseRecord → BaseRecord) (numseq_part : Nat) (st : LoadSt) (h : List Nat) (rest : List (List Nat))
    (hn : st.num_seq_read ≠ numseq_part)
    (hl : st.lastRec = false) (he : st.eof = false) (hr : st.rec_.isEmpty = true)
    (hi : st.ifs = h :: rest) (hh : front h = 62) :
    load_step nt_table getId clear numseq_part st
      = LoadStep.next { st with
          line := rtrim h, ifs := rest, eof := rest.isEmpty, lastRec := rest.isEmpty,
          isFastq := false, rec_ := startRec clear st.rec_ h } := by
  have hne : h ≠ [] := by
    intro h0; rw [h0] at hh; exact absurd hh (by decide)
  have f := front_rtrim_of_not_space h 62 hh (by decide) hne
  unfold load_step
  simp [hn, hl, he, hr, hi, hne, f, getline, startRec, FASTA_HEADER_START,
    FASTQ_HEADER_START]
theorem record_sequence_append_nil (r : BaseRecord) :
    ({ r with sequence := r.sequence ++ [] } : BaseRecord) = r := by
  cases r
  simp

theorem refSeq_nil (nt_table : Int → Nat) : refSeq nt_table [] = [] := rfl

theorem refSeq_cons (nt_table : Int → Nat) (x : List Nat) (body : List (List Nat)) :
    refSeq nt_table (x :: body) = convert_fix nt_table (rtrim x) ++ refSeq nt_table body := by
  simp [refSeq]

theorem loadSpec_cons (nt_table : Int → Nat) (getId : BaseRecord → List Nat)
    (clear : BaseRecord → BaseRecord) (n : Nat) (cur : BaseRecord) (x : List Nat)
    (body : List (List Nat)) (recs : List (List Nat × List (List Nat))) :
    loadSpec nt_table getId clear n cur (x :: body) recs
      = loadSpec nt_table getId clear n
          { cur with sequence := cur.sequence ++ convert_fix nt_table (rtrim x) } body recs := by
  cases recs <;> simp [loadSpec, refSeq_cons, List.append_assoc]

theorem loadSpec_body_nil (nt_table : Int → Nat) (getId : BaseRecord → List Nat)
    (clear : BaseRecord → BaseRecord) (n : Nat) (cur : BaseRecord)
    (r : List Nat × List (List Nat)) (recs : List (List Nat × List (List Nat))) :
    loadSpec nt_table getId clear n cur [] (r :: recs)
      = pushed getId cur n :: loadSpec nt_table getId clear (n + 1)
          (startRec clear { pushed getId cur n with isEmpty := true } r.1) r.2 recs := by
  simp [loadSpec, refSeq_nil, record_sequence_append_nil]

theorem loadSpec_nil_nil (nt_table : Int → Nat) (getId : BaseRecord → List Nat)
    (clear : BaseRecord → BaseRecord) (n : Nat) (cur : BaseRecord) :
    loadSpec nt_table getId clear n cur [] [] = [pushed getId cur n] := by
  simp [loadSpec, refSeq_nil, record_sequence_append_nil]

theorem load_loop_fasta (nt_table : Int → Nat) (getId : BaseRecord → List Nat)
    (clear : BaseRecord → BaseRecord) (numseq_part : Nat) :
    ∀ (recs : List (List Nat × List (List Nat))) (body : List (List Nat)) (st : LoadSt),
      LoadInv numseq_part st → st.ifs = body ++ recs.flatMap (fun r => r.1 :: r.2) →
      (∀ l ∈ body, front l ≠ 62 ∧ front l ≠ 64) → (∀ r ∈ recs, FastaRefRec r) →
      ∀ fuel : Nat, st.ifs.length + 2 ≤ fuel →
      load_loop nt_table getId clear numseq_part fuel st
        = some (some (st.buffer ++
            (loadSpec nt_table getId clear st.num_seq_read st.rec_ body recs).take
              (numseq_part - st.num_seq_read)))
  | [], [], st, hinv, hifs, _, _, fuel, hfuel => by
      obtain ⟨hq, hr, hl, he, hle⟩ := hinv
      obtain ⟨f, rfl⟩ : ∃ f, fuel = f + 2 := ⟨fuel - 2, by omega⟩
      have hi : st.ifs = [] := by simpa using hifs
      by_cases hn : st.num_seq_read = numseq_part
      · rw [load_loop_done _ _ _ _ _ _ _ (load_step_limit nt_table getId clear _ st hn), hn]
        simp
      · have hpos : 1 ≤ numseq_part - st.num_seq_read := by omega
        rw [loadSpec_nil_nil, List.take_of_length_le (by simpa using hpos)]
        cases hE : st.eof with
        | true =>
          rw [hE] at hl
          rw [load_loop_done _ _ _ _ _ _ _
            (load_step_last nt_table getId clear _ st hn hl hr)]
        | false =>
          rw [hE] at hl
          rw [load_loop_next _ _ _ _ _ _ _
              (load_step_end nt_table getId clear _ st hn hl hE hi)]
          exact load_loop_done nt_table getId clear numseq_part f _ _
            (load_step_last nt_table getId clear numseq_part
              { st with line := [], eof := true, lastRec := true } hn rfl hr)
  | r :: recs, [], st, hinv, hifs, _, hrecs, fuel, hfuel => by
      obtain ⟨hq, hr, hl, he, hle⟩ := hinv
      obtain ⟨f, rfl⟩ : ∃ f, fuel = f + 1 := ⟨fuel - 1, by omega⟩
      have hi : st.ifs = r.1 :: (r.2 ++ recs.flatMap (fun r => r.1 :: r.2)) := by
        simpa using hifs
      by_cases hn : st.num_seq_read = numseq_part
      · rw [load_loop_done _ _ _ _ _ _ _ (load_step_limit nt_table getId clear _ st hn), hn]
        simp
      · have hE : st.eof = false := by
          cases hE : st.eof with
          | false => rfl
          | true => rw [he hE] at hi; exact absurd hi (by simp)
        rw [hE] at hl
        have hrr := hrecs r (List.mem_cons_self _ _)
        rw [load_loop_next _ _ _ _ _ _ _
          (load_step_header nt_table getId clear _ st r.1 _ hn hl hE hr hi hrr.1)]
        have ih := load_loop_fasta nt_table getId clear numseq_part recs r.2
          { st with
            line := rtrim r.1, ifs := r.2 ++ recs.flatMap (fun r => r.1 :: r.2),
            eof := (r.2 ++ recs.flatMap (fun r => r.1 :: r.2)).isEmpty,
            lastRec := (r.2 ++ recs.flatMap (fun r => r.1 :: r.2)).isEmpty,
            isFastq := false, count := 0,
            rec_ := startRec clear
              { pushed getId st.rec_ st.num_seq_read with isEmpty := true } r.1,
            buffer := st.buffer ++ [pushed getId st.rec_ st.num_seq_read],
            num_seq_read := st.num_seq_read + 1 }
          ⟨rfl, rfl, rfl, by simp [List.isEmpty_iff], by
            show st.num_seq_read + 1 ≤ numseq_part
            omega⟩
          rfl hrr.2 (fun x hx => hrecs x (List.mem_cons_of_mem _ hx)) f
          (by rw [hi] at hfuel; simp only [List.length_cons] at hfuel ⊢; omega)
        rw [ih, loadSpec_body_nil]
        have e : numseq_part - st.num_seq_read = (numseq_part - (st.num_seq_read + 1)) + 1 := by
          omega
        rw [e, List.take_succ_cons]
        simp
  | recs, x :: body, st, hinv, hifs, hbody, hrecs, fuel, hfuel => by
      obtain ⟨hq, hr, hl, he, hle⟩ := hinv
      obtain ⟨f, rfl⟩ : ∃ f, fuel = f + 1 := ⟨fuel - 1, by omega⟩
      have hi : st.ifs = x :: (body ++ recs.flatMap (fun r => r.1 :: r.2)) := by
        simpa using hifs
      by_cases hn : st.num_seq_read = numseq_part
      · rw [load_loop_done _ _ _ _ _ _ _ (load_step_limit nt_table getId clear _ st hn), hn]
        simp
      · have hE : st.eof = false := by
          cases hE : st.eof with
          | false => rfl
          | true => rw [he hE] at hi; exact absurd hi (by simp)
        rw [hE] at hl
        have hx := hbody x (List.mem_cons_self _ _)
        have hb : ∀ l ∈ body, front l ≠ 62 ∧ front l ≠ 64 :=
          fun l hl => hbody l (List.mem_cons_of_mem _ hl)
        rw [loadSpec_cons]
        by_cases hxe : x = []
        · subst hxe
          rw [load_loop_next _ _ _ _ _ _ _
            (load_step_empty_line nt_table getId clear _ st _ hn hl hE hi)]
          have ih := load_loop_fasta nt_table getId clear numseq_part recs body
            { st with
              line := [], ifs := body ++ recs.flatMap (fun r => r.1 :: r.2),
              eof := (body ++ recs.flatMap (fun r => r.1 :: r.2)).isEmpty,
              lastRec := (body ++ recs.flatMap (fun r => r.1 :: r.2)).isEmpty }
            ⟨hq, hr, rfl, by simp [List.isEmpty_iff], hle⟩ rfl hb hrecs f
            (by rw [hi] at hfuel; simp only [List.length_cons] at hfuel ⊢; omega)
          rw [ih]
          have e : convert_fix nt_table (rtrim []) = [] := rfl
          rw [e, record_sequence_append_nil]
        · rw [load_loop_next _ _ _ _ _ _ _
            (load_step_body_line nt_table getId clear _ st x _ hn hl hE hq hi hxe hx.1 hx.2)]
          have ih := load_loop_fasta nt_table getId clear numseq_part recs body
            { st with
              line := convert_fix nt_table (rtrim x),
              ifs := body ++ recs.flatMap (fun r => r.1 :: r.2),
              eof := (body ++ recs.flatMap (fun r => r.1 :: r.2)).isEmpty,
              lastRec := (body ++ recs.flatMap (fun r => r.1 :: r.2)).isEmpty,
              count := st.count + 1,
              rec_ := { st.rec_ with
                sequence := st.rec_.sequence ++ convert_fix nt_table (rtrim x) } }
            ⟨hq, hr, rfl, by simp [List.isEmpty_iff], hle⟩ rfl hb hrecs f
            (by rw [hi] at hfuel; simp only [List.length_cons] at hfuel ⊢; omega)
          rw [ih]
theorem loadSpec_view (nt_table : Int → Nat) (getId : BaseRecord → List Nat)
    (clear : BaseRecord → BaseRecord) (hclear : ∀ r, (clear r).sequence = []) :
    ∀ (recs : List (List Nat × List (List Nat))) (n : Nat) (cur : BaseRecord)
      (body : List (List Nat)),
      (loadSpec nt_table getId clear n cur body recs).map recView
        = (n, cur.header, cur.format, cur.sequence ++ refSeq nt_table body)
            :: fastaView nt_table (n + 1) recs
  | [], n, cur, body => by simp [loadSpec, recView, pushed, fastaView]
  | r :: recs, n, cur, body => by
      simp only [loadSpec, List.map_cons]
      rw [loadSpec_view nt_table getId clear hclear recs]
      simp [recView, pushed, fastaView, startRec, hclear]

theorem fastaView_length (nt_table : Int → Nat) :
    ∀ (recs : List (List Nat × List (List Nat))) (n : Nat),
      (fastaView nt_table n recs).length = recs.length
  | [], _ => rfl
  | r :: recs, n => by simp [fastaView, fastaView_length nt_table recs]

theorem fastaView_getElem (nt_table : Int → Nat) :
    ∀ (recs : List (List Nat × List (List Nat))) (n i : Nat) (r : List Nat × List (List Nat)),
      recs[i]? = some r →
      (fastaView nt_table n recs)[i]?
        = some (n + i, rtrim r.1, BIO_FORMAT.FASTA, refSeq nt_table r.2)
  | [], _, _, _, h => by simp at h
  | x :: recs, n, 0, r, h => by
      have hx : x = r := by simpa using h
      subst hx
      simp [fastaView]
  | x :: recs, n, i + 1, r, h => by
      have h2 : recs[i]? = some r := by simpa using h
      have ih := fastaView_getElem nt_table recs (n + 1) i r h2
      simp only [fastaView, List.getElem?_cons_succ]
      rw [ih]
      have e : n + 1 + i = n + (i + 1) := by omega
      rw [e]

theorem load_loop_start (nt_table : Int → Nat) (getId : BaseRecord → List Nat)
    (clear : BaseRecord → BaseRecord) (numseq_part : Nat)
    (recs : List (List Nat × List (List Nat))) (hrecs : ∀ r ∈ recs, FastaRefRec r) :
    ∀ (pre : List (List Nat)) (st : LoadSt),
      st.rec_.isEmpty = true → st.lastRec = st.eof → (st.eof = true → st.ifs = []) →
      st.num_seq_read ≤ numseq_part →
      st.ifs = pre ++ recs.flatMap (fun r => r.1 :: r.2) → (∀ l ∈ pre, l = []) →
      ∀ fuel : Nat, st.ifs.length + 2 ≤ fuel →
      load_loop nt_table getId clear numseq_part fuel st
        = some (some (st.buffer ++
            (match recs with
              | [] => []
              | r :: recs1 =>
                  loadSpec nt_table getId clear st.num_seq_read
                    (startRec clear st.rec_ r.1) r.2 recs1).take
              (numseq_part - st.num_seq_read)))
  | [], st, hr, hl, he, hle, hifs, _, fuel, hfuel => by
      by_cases hn : st.num_seq_read = numseq_part
      · obtain ⟨f, rfl⟩ : ∃ f, fuel = f + 1 := ⟨fuel - 1, by omega⟩
        rw [load_loop_done _ _ _ _ _ _ _ (load_step_limit nt_table getId clear _ st hn), hn]
        simp
      · cases recs with
        | nil =>
          obtain ⟨f, rfl⟩ : ∃ f, fuel = f + 2 := ⟨fuel - 2, by omega⟩
          have hi : st.ifs = [] := by simpa using hifs
          simp only [List.take_nil, List.append_nil]
          cases hE : st.eof with
          | true =>
            rw [hE] at hl
            rw [load_loop_done _ _ _ _ _ _ _
              (load_step_last_empty nt_table getId clear _ st hn hl hr)]
          | false =>
            rw [hE] at hl
            rw [load_loop_next _ _ _ _ _ _ _
              (load_step_end nt_table getId clear _ st hn hl hE hi)]
            exact load_loop_done nt_table getId clear numseq_part f _ _
              (load_step_last_empty nt_table getId clear numseq_part
                { st with line := [], eof := true, lastRec := true } hn rfl hr)
        | cons r recs1 =>
          obtain ⟨f, rfl⟩ : ∃ f, fuel = f + 1 := ⟨fuel - 1, by omega⟩
          have hi : st.ifs = r.1 :: (r.2 ++ recs1.flatMap (fun r => r.1 :: r.2)) := by
            simpa using hifs
          have hE : st.eof = false := by
            cases hE : st.eof with
            | false => rfl
            | true => rw [he hE] at hi; exact absurd hi (by simp)
          rw [hE] at hl
          have hrr := hrecs r (List.mem_cons_self _ _)
          rw [load_loop_next _ _ _ _ _ _ _
            (load_step_first_header nt_table getId clear _ st r.1 _ hn hl hE hr hi hrr.1)]
          exact load_loop_fasta nt_table getId clear numseq_part recs1 r.2
            { st with
              line := rtrim r.1, ifs := r.2 ++ recs1.flatMap (fun r => r.1 :: r.2),
              eof := (r.2 ++ recs1.flatMap (fun r => r.1 :: r.2)).isEmpty,
              lastRec := (r.2 ++ recs1.flatMap (fun r => r.1 :: r.2)).isEmpty,
              isFastq := false, rec_ := startRec clear st.rec_ r.1 }
            ⟨rfl, rfl, rfl, by simp [List.isEmpty_iff], hle⟩
            rfl hrr.2 (fun x hx => hrecs x (List.mem_cons_of_mem _ hx)) f
            (by rw [hi] at hfuel; simp only [List.length_cons] at hfuel ⊢; omega)
  | x :: pre, st, hr, hl, he, hle, hifs, hpre, fuel, hfuel => by
      obtain ⟨f, rfl⟩ : ∃ f, fuel = f + 1 := ⟨fuel - 1, by omega⟩
      have hx : x = [] := hpre x (List.mem_cons_self _ _)
      subst hx
      have hi : st.ifs = [] :: (pre ++ recs.flatMap (fun r => r.1 :: r.2)) := by
        simpa using hifs
      by_cases hn : st.num_seq_read = numseq_part
      · rw [load_loop_done _ _ _ _ _ _ _ (load_step_limit nt_table getId clear _ st hn), hn]
        simp
      · have hE : st.eof = false := by
          cases hE : st.eof with
          | false => rfl
          | true => rw [he hE] at hi; exact absurd hi (by simp)
        rw [hE] at hl
        rw [load_loop_next _ _ _ _ _ _ _
          (load_step_empty_line nt_table getId clear _ st _ hn hl hE hi)]
        exact load_loop_start nt_table getId clear numseq_part recs hrecs pre
          { st with
            line := [], ifs := pre ++ recs.flatMap (fun r => r.1 :: r.2),
            eof := (pre ++ recs.flatMap (fun r => r.1 :: r.2)).isEmpty,
            lastRec := (pre ++ recs.flatMap (fun r => r.1 :: r.2)).isEmpty }
          hr rfl (by simp [List.isEmpty_iff]) hle rfl
          (fun l hl => hpre l (List.mem_cons_of_mem _ hl)) f
          (by rw [hi] at hfuel; simp only [List.length_cons] at hfuel ⊢; omega)

theorem load_fasta_view (nt_table : Int → Nat) (getId : BaseRecord → List Nat)
    (clear : BaseRecord → BaseRecord) (rec0 : BaseRecord) (numseq_part : Nat)
    (pre : List (List Nat)) (recs : List (List Nat × List (List Nat))) (fuel : Nat)
    (hrec0 : rec0.isEmpty = true) (hclear : ∀ r, (clear r).sequence = [])
    (hpre : ∀ l ∈ pre, l = []) (hrecs : ∀ r ∈ recs, FastaRefRec r)
    (hfuel : (fastaLines pre recs).length + 2 ≤ fuel) :
    ∃ buffer : List BaseRecord,
      References.load nt_table getId clear rec0 numseq_part (fastaLines pre recs) [] fuel
        = some (some buffer) ∧
      buffer.map recView = (fastaView nt_table 0 recs).take numseq_part := by
  have h := load_loop_start nt_table getId clear numseq_part recs hrecs pre
    { ifs := fastaLines pre recs, eof := false, line := [], rec_ := rec0, isFastq := true,
      lastRec := false, count := 0, num_seq_read := 0, buffer := [] }
    hrec0 rfl (fun h => absurd h (by simp)) (Nat.zero_le _) rfl hpre fuel hfuel
  refine ⟨_, h, ?_⟩
  cases recs with
  | nil => simp [fastaView]
  | cons r recs1 =>
    simp only [List.nil_append, Nat.sub_zero, List.map_take]
    rw [loadSpec_view nt_table getId clear hclear]
    simp [fastaView, startRec, hclear]
/-- C15. Reference loading (FASTA): the text from `start_part` on consists of empty lines
followed by records, each a header line starting with `>` followed by lines that start with
neither `>` nor `@`. With a default-constructed record that is marked empty and a `clear`
that empties the sequence, `References::load` into an empty buffer returns (given fuel for
every line and two more iterations) with `buffer.size() = min(numseq_part, number of
records)`, and the `i`-th buffered record has `nid = i`, the right-trimmed `i`-th header line
as header, format FASTA, and as sequence the concatenation of the `convert_fix` images of
its right-trimmed lines. -/
theorem load_fasta_records (nt_table : Int → Nat) (getId : BaseRecord → List Nat)
    (clear : BaseRecord → BaseRecord) (rec0 : BaseRecord) (numseq_part : Nat)
    (pre : List (List Nat)) (recs : List (List Nat × List (List Nat))) (fuel : Nat)
    (hrec0 : rec0.isEmpty = true) (hclear : ∀ r, (clear r).sequence = [])
    (hpre : ∀ l ∈ pre, l = []) (hrecs : ∀ r ∈ recs, FastaRefRec r)
    (hfuel : (fastaLines pre recs).length + 2 ≤ fuel) :
    ∃ buffer : List BaseRecord,
      References.load nt_table getId clear rec0 numseq_part (fastaLines pre recs) [] fuel
        = some (some buffer) ∧
      buffer.length = min numseq_part recs.length ∧
      ∀ (i : Nat) (b : BaseRecord) (r : List Nat × List (List Nat)),
        buffer[i]? = some b → recs[i]? = some r →
        b.nid = i ∧ b.header = rtrim r.1 ∧ b.format = BIO_FORMAT.FASTA ∧
        b.sequence = r.2.flatMap (fun l => convert_fix nt_table (rtrim l)) := by
  obtain ⟨buffer, hload, hview⟩ := load_fasta_view nt_table getId clear rec0 numseq_part pre
    recs fuel hrec0 hclear hpre hrecs hfuel
  have hlen : buffer.length = min numseq_part recs.length := by
    have h := congrArg List.length hview
    rw [List.length_map, List.length_take, fastaView_length] at h
    exact h
  refine ⟨buffer, hload, hlen, ?_⟩
  intro i b r hb hr
  have hi : i < buffer.length := by
    rcases Nat.lt_or_ge i buffer.length with h | h
    · exact h
    · rw [List.getElem?_eq_none h] at hb
      exact absurd hb (by simp)
  have hin : i < numseq_part := by
    rw [hlen] at hi
    exact lt_of_lt_of_le hi (Nat.min_le_left _ _)
  have h1 : (buffer.map recView)[i]? = some (recView b) := by
    rw [List.getElem?_map, hb]
    rfl
  rw [hview, List.getElem?_take_of_lt hin, fastaView_getElem nt_table recs 0 i r hr] at h1
  have h2 := Option.some.inj h1
  simp only [recView, Prod.mk.injEq, Nat.zero_add] at h2
  exact ⟨h2.1.symm, h2.2.1.symm, h2.2.2.1.symm, h2.2.2.2.symm⟩

/-- Witness of C15: the text `(empty) / >r1 x\r / AC / (empty) / G T / >r2 / >r3 / A /
(empty)` with `numseq_part = 2`, a table that maps every byte to 7, the header as id, and
the sample `clear` and default record. -/
theorem load_fasta_records_witness :
    (BaseRecord.default.isEmpty = true ∧ (∀ r, (BaseRecord.clear r).sequence = []) ∧
     (∀ r ∈ ([([62, 114, 49, 32, 120, 13], [[65, 67], [], [71, 32, 84]]),
        ([62, 114, 50], []), ([62, 114, 51], [[65], []])] :
        List (List Nat × List (List Nat))), FastaRefRec r)) ∧
    ∃ buffer : List BaseRecord,
      References.load (fun _ => 7) (fun r => r.header) BaseRecord.clear BaseRecord.default 2
        (fastaLines [[]] [([62, 114, 49, 32, 120, 13], [[65, 67], [], [71, 32, 84]]),
          ([62, 114, 50], []), ([62, 114, 51], [[65], []])]) [] 12
        = some (some buffer) ∧
      buffer.length
        = min 2 ([([62, 114, 49, 32, 120, 13], [[65, 67], [], [71, 32, 84]]),
            ([62, 114, 50], []), ([62, 114, 51], [[65], []])] :
            List (List Nat × List (List Nat))).length ∧
      ∀ (i : Nat) (b : BaseRecord) (r : List Nat × List (List Nat)),
        buffer[i]? = some b →
        ([([62, 114, 49, 32, 120, 13], [[65, 67], [], [71, 32, 84]]),
            ([62, 114, 50], []), ([62, 114, 51], [[65], []])] :
            List (List Nat × List (List Nat)))[i]? = some r →
        b.nid = i ∧ b.header = rtrim r.1 ∧ b.format = BIO_FORMAT.FASTA ∧
        b.sequence = r.2.flatMap (fun l => convert_fix (fun _ => 7) (rtrim l)) :=
  ⟨⟨by decide, fun _ => rfl, by decide⟩,
   load_fasta_records (fun _ => 7) (fun r => r.header) BaseRecord.clear BaseRecord.default 2
    [[]] [([62, 114, 49, 32, 120, 13], [[65, 67], [], [71, 32, 84]]),
      ([62, 114, 50], []), ([62, 114, 51], [[65], []])] 12
    (by decide) (fun _ => rfl) (by decide) (by decide) (by decide)⟩

/-- The buffer that `References::load` builds from the text of the witness of C15, by
evaluation. -/
theorem load_example_buffer :
    References.load (fun _ => 7) (fun r => r.header) BaseRecord.clear BaseRecord.default 2
        (fastaLines [[]] [([62, 114, 49, 32, 120, 13], [[65, 67], [], [71, 32, 84]]),
          ([62, 114, 50], []), ([62, 114, 51], [[65], []])]) [] 12
      = some (some [
          { id := [62, 114, 49, 32, 120], header := [62, 114, 49, 32, 120],
            sequence := [7, 7, 7, 32, 7], quality := [], format := BIO_FORMAT.FASTA, nid := 0,
            isEmpty := false },
          { id := [62, 114, 50], header := [62, 114, 50],
            sequence := [], quality := [], format := BIO_FORMAT.FASTA, nid := 1,
            isEmpty := false }]) := by
  decide

/-! ### Claims about `trim_leading_dashes` -/

theorem find_first_not_of_from_eq (ch : Char) :
    ∀ (s : List Char) (i : Nat),
      find_first_not_of_from ch s i
        = if s.dropWhile (fun c => c == ch) = [] then npos
          else i + (s.takeWhile (fun c => c == ch)).length
  | [], i => by simp [find_first_not_of_from]
  | c :: rest, i => by
      by_cases h : c = ch
      · subst h
        simp only [find_first_not_of_from, ne_eq, not_true_eq_false, if_false,
          List.dropWhile_cons, beq_self_eq_true, if_true, List.takeWhile_cons,
          List.length_cons]
        rw [find_first_not_of_from_eq c rest (i + 1)]
        split
        · rfl
        · omega
      · have hb : (c == ch) = false := by simpa using h
        simp [find_first_not_of_from, h, hb, List.dropWhile_cons, List.takeWhile_cons]

theorem drop_takeWhile_length (p : Char → Bool) :
    ∀ s : List Char, s.drop (s.takeWhile p).length = s.dropWhile p
  | [] => rfl
  | c :: rest => by
      by_cases h : p c = true
      · simp [List.takeWhile_cons, List.dropWhile_cons, h, drop_takeWhile_length p rest]
      · simp [List.takeWhile_cons, List.dropWhile_cons, h]

theorem trim_leading_dashes_eq (name : List Char) (hlen : name.length < npos) :
    trim_leading_dashes name
      = some (if name.dropWhile (fun c => c == '-') = [] then name
              else name.dropWhile (fun c => c == '-')) := by
  unfold trim_leading_dashes find_first_not_of
  rw [find_first_not_of_from_eq]
  by_cases h : name.dropWhile (fun c => c == '-') = []
  · simp [h]
  · have hl : (name.takeWhile (fun c => c == '-')).length ≤ name.length :=
      List.Sublist.length_le (List.takeWhile_sublist _)
    simp only [h, if_false, Nat.zero_add]
    rw [if_pos (by omega)]
    unfold substr
    rw [if_neg (by omega), drop_takeWhile_length]
    have hl2 : (name.dropWhile (fun c => c == '-')).length ≤ npos := by
      have := List.Sublist.length_le (List.dropWhile_sublist (fun c => c == '-') (l := name))
      omega
    rw [List.take_of_length_le hl2]

/-- C21 (as stated, refuted). For the name `--` the function returns `--`, which begins
with `-`. -/
theorem trim_leading_dashes_all_dashes_counterexample :
    trim_leading_dashes ['-', '-'] = some ['-', '-'] ∧
    (['-', '-'] : List Char).head? = some '-' := by
  decide

/-- C21 (amended). Function `trim_leading_dashes` removes the dashes from the beginning of a
name that holds a character other than `-`: the result `r` satisfies `name = d + r` where
`d` consists only of `-` characters, and `r` does not begin with `-`. A name that consists
only of `-` characters (the empty name included) is returned unchanged. -/
theorem trim_leading_dashes_amended (name : List Char) (hlen : name.length < npos) :
    ((∃ c ∈ name, c ≠ '-') →
      ∃ d r : List Char, trim_leading_dashes name = some r ∧ name = d ++ r ∧
        (∀ c ∈ d, c = '-') ∧ r.head? ≠ some '-') ∧
    ((∀ c ∈ name, c = '-') → trim_leading_dashes name = some name) := by
  rw [trim_leading_dashes_eq name hlen]
  constructor
  · rintro ⟨c, hc, hne⟩
    have h : name.dropWhile (fun c => c == '-') ≠ [] := by
      intro h0
      have := List.dropWhile_eq_nil_iff.mp h0 c hc
      exact hne (by simpa using this)
    refine ⟨name.takeWhile (fun c => c == '-'), name.dropWhile (fun c => c == '-'), ?_,
      (List.takeWhile_append_dropWhile _ _).symm, ?_, ?_⟩
    · rw [if_neg h]
    · intro x hx
      simpa using List.mem_takeWhile_imp hx
    · intro hh
      cases hd : name.dropWhile (fun c => c == '-') with
      | nil => exact h hd
      | cons y ys =>
        rw [hd] at hh
        have hy : y = '-' := by simpa using hh
        have := List.head_dropWhile_not (fun c => c == '-') name h
        simp only [hd, List.head_cons] at this
        rw [hy] at this
        simp at this
  · intro hall
    have h : name.dropWhile (fun c => c == '-') = [] := by
      rw [List.dropWhile_eq_nil_iff]
      intro x hx
      simpa using hall x hx
    rw [if_pos h]

/-- The amended statement instantiated at the name `--ref`. -/
theorem trim_leading_dashes_amended_witness :
    ((['-', '-', 'r', 'e', 'f'] : List Char).length < npos ∧
      ∃ c ∈ (['-', '-', 'r', 'e', 'f'] : List Char), c ≠ '-') ∧
    ∃ d r : List Char, trim_leading_dashes ['-', '-', 'r', 'e', 'f'] = some r ∧
      ['-', '-', 'r', 'e', 'f'] = d ++ r ∧ (∀ c ∈ d, c = '-') ∧ r.head? ≠ some '-' :=
  ⟨⟨by decide, by decide⟩,
   (trim_leading_dashes_amended ['-', '-', 'r', 'e', 'f'] (by decide)).1 (by decide)⟩

/-! ### Claims about the initial table -/

/-- State of the main loop of `init_win_f` after all `numbvs` iterations, for any `numbvs`. -/
theorem init_win_f_inv (rd : CharMem) (ptr0 base : Int) (numbvs : Nat) (mem : Mem)
    (hz : Zeroed mem base 4)
    (hp : ∀ j : Nat, j < 3 + numbvs / 4 → 0 ≤ rd (ptr0 + (j : Int))) :
    InitInv rd ptr0 base numbvs
      (init_f_loop rd numbvs 1
        { mem := (init_f_stamp rd base 3 ptr0 mem).2, ptr := (init_f_stamp rd base 3 ptr0 mem).1,
          setbit := base + 4, win_ptr1 := base, win_ptr2 := base + 4 }) := by
  have h := init_f_loop_inv rd ptr0 base numbvs 0 _ (init_f_stamp_inv rd ptr0 base mem hz)
    (by intro j hj; exact hp j (by simpa using hj))
  simpa using h

/-- Bits of every one of the `numbvs + 4` entries after `init_win_f`, for any `numbvs`: the
entries of the depths up to `numbvs / 4` are in closed form, the `numbvs % 4` entries behind
them are the shifted entries of the last depth. -/
theorem init_win_f_bits (rd : CharMem) (ptr0 base : Int) (numbvs : Nat) (mem : Mem)
    (hz : Zeroed mem base 4)
    (hp : ∀ j : Nat, j < 3 + numbvs / 4 → 0 ≤ rd (ptr0 + (j : Int)))
    (o b : Nat) (ho : o < numbvs + 4) :
    (init_win_f rd ptr0 base (base + 4) numbvs mem (base + (o : Int))).testBit b
      = if o / 4 ≤ numbvs / 4 then specBit (fun j => rd (ptr0 + (j : Int))) (o / 4) (o % 4) b
        else (decide (1 ≤ b) &&
          specBit (fun j => rd (ptr0 + (j : Int))) (numbvs / 4 + 1) (o % 4) b) := by
  have h := init_win_f_inv rd ptr0 base numbvs mem hz hp
  have e : o = 4 * (o / 4) + o % 4 := by omega
  unfold init_win_f
  by_cases hd : o / 4 ≤ numbvs / 4
  · rw [if_pos hd]
    have := h.full (o / 4) (o % 4) b hd (by omega)
    rw [← e] at this
    exact this
  · rw [if_neg hd]
    have hd1 : o / 4 = numbvs / 4 + 1 := by omega
    have := h.part (o % 4) b (by omega)
    rw [← hd1, ← e] at this
    rw [this, hd1]

/-- C28. Closed form of the initial table: for every multiple-of-4 `numbvs` and every pattern
`p` of length `numbvs/4 + 3` (over `{0,1,2,3}` or any other character values), after
`init_win_f` on a zeroed table, for every depth `d` in `0..numbvs/4`, nucleotide `c` in `0..3`
and bit `b`, bit `b` of the byte at offset `4*d+c` is set if and only if `b ≤ 3`,
`d + 2 - b ≥ 0` and `p[d+2-b] = c`. -/
theorem init_win_f_closed_form
    (numbvs : Nat) (p : List Nat) (rd : CharMem) (base bittable_000 : Int) (mem : Mem)
    (hmul : numbvs % 4 = 0) (hlen : p.length = numbvs / 4 + 3) (hrd : HoldsRead rd base p)
    (hz : Zeroed mem bittable_000 (numbvs + 4)) :
    ∀ d c b : Nat, d ≤ numbvs / 4 → c < 4 →
      ((init_win_f rd base bittable_000 (bittable_000 + 4) numbvs mem
          (bittable_000 + ((4 * d + c : Nat) : Int))).testBit b = true ↔
        b ≤ 3 ∧ b ≤ d + 2 ∧ p.getD (d + 2 - b) 0 = c) := by
  intro d c b hd hc
  rw [init_win_f_bits rd base bittable_000 numbvs mem (Zeroed_mono _ _ _ 4 (by omega) hz)
    (fun j hj => holdsRead_nonneg rd base p hrd j (by omega)) (4 * d + c) b (by omega)]
  have e1 : (4 * d + c) / 4 = d := by omega
  have e2 : (4 * d + c) % 4 = c := by omega
  rw [e1, e2, if_pos hd]
  unfold specBit
  rw [decide_eq_true_iff]
  constructor
  · rintro ⟨h1, h2, h3⟩
    refine ⟨h1, h2, ?_⟩
    simp only [] at h3
    rw [hrd (d + 2 - b) (by omega)] at h3
    exact_mod_cast h3
  · rintro ⟨h1, h2, h3⟩
    refine ⟨h1, h2, ?_⟩
    show rd (base + ((d + 2 - b : Nat) : Int)) = (c : Int)
    rw [hrd (d + 2 - b) (by omega), h3]

/-- The closed form instantiated at `numbvs = 4` and the pattern `0 1 2 3`. -/
theorem init_win_f_closed_form_witness :
    (4 % 4 = 0 ∧ ([0, 1, 2, 3] : List Nat).length = 4 / 4 + 3) ∧
    ∀ d c b : Nat, d ≤ 4 / 4 → c < 4 →
      ((init_win_f (readMem [0, 1, 2, 3]) 0 8 (8 + 4) 4 zeroMem
          (8 + ((4 * d + c : Nat) : Int))).testBit b = true ↔
        b ≤ 3 ∧ b ≤ d + 2 ∧ ([0, 1, 2, 3] : List Nat).getD (d + 2 - b) 0 = c) :=
  ⟨⟨by decide, by decide⟩,
   init_win_f_closed_form 4 [0, 1, 2, 3] (readMem [0, 1, 2, 3]) 0 8 zeroMem (by decide)
    (by decide) (readMem_holds _) (zeroMem_zeroed _ _)⟩

/-- C24 (as stated, refuted). For the pattern `0 1 2 3` and `numbvs = 4` on a zeroed table
(at addresses `8..15`), the depth-0 entry of `pattern[0] = 0` is `0b100`, not `0b111`, and
the depth-0 entries of the nucleotides `1` and `2` hold the bits 1 and 0. -/
theorem init_win_f_depth0_counterexample :
    init_win_f (readMem [0, 1, 2, 3]) 0 8 12 4 zeroMem 8 = 4 ∧
    init_win_f (readMem [0, 1, 2, 3]) 0 8 12 4 zeroMem 9 = 2 ∧
    init_win_f (readMem [0, 1, 2, 3]) 0 8 12 4 zeroMem 10 = 1 := by
  decide

/-- C24 (amended). Depth-0 stamp of `init_win_f`: for every pattern `p` and every `numbvs`,
after `init_win_f` on a zeroed table, bit 2 is set in the depth-0 entry of nucleotide `p[0]`,
bit 1 in the depth-0 entry of nucleotide `p[1]` and bit 0 in the depth-0 entry of nucleotide
`p[2]`, and these are the only bits set at depth 0. -/
theorem init_win_f_depth0_amended
    (numbvs : Nat) (p : List Nat) (rd : CharMem) (base bittable_000 : Int) (mem : Mem)
    (hlen : p.length = numbvs / 4 + 3) (hrd : HoldsRead rd base p)
    (hz : Zeroed mem bittable_000 (numbvs + 4)) :
    ∀ c b : Nat, c < 4 →
      ((init_win_f rd base bittable_000 (bittable_000 + 4) numbvs mem
          (bittable_000 + (c : Int))).testBit b = true ↔
        (b = 2 ∧ p.getD 0 0 = c) ∨ (b = 1 ∧ p.getD 1 0 = c) ∨ (b = 0 ∧ p.getD 2 0 = c)) := by
  intro c b hc
  rw [init_win_f_bits rd base bittable_000 numbvs mem (Zeroed_mono _ _ _ 4 (by omega) hz)
    (fun j hj => holdsRead_nonneg rd base p hrd j (by omega)) c b (by omega)]
  have e1 : c / 4 = 0 := by omega
  have e2 : c % 4 = c := by omega
  rw [e1, e2, if_pos (Nat.zero_le _)]
  unfold specBit
  rw [decide_eq_true_iff]
  have r0 := hrd 0 (by omega)
  have r1 := hrd 1 (by omega)
  have r2 := hrd 2 (by omega)
  simp only [Nat.cast_zero, add_zero, Nat.cast_one, Nat.cast_ofNat] at r0 r1 r2
  constructor
  · rintro ⟨_, h2, h3⟩
    have hb : b = 0 ∨ b = 1 ∨ b = 2 := by omega
    rcases hb with rfl | rfl | rfl
    · right; right
      refine ⟨rfl, ?_⟩
      simp only [Nat.zero_add, Nat.sub_zero, Nat.cast_ofNat] at h3
      rw [r2] at h3
      exact_mod_cast h3
    · right; left
      refine ⟨rfl, ?_⟩
      simp only [Nat.zero_add, Nat.add_one_sub_one, Nat.cast_one] at h3
      rw [r1] at h3
      exact_mod_cast h3
    · left
      refine ⟨rfl, ?_⟩
      simp only [Nat.zero_add, Nat.sub_self, Nat.cast_zero, add_zero] at h3
      rw [r0] at h3
      exact_mod_cast h3
  · rintro (⟨rfl, h⟩ | ⟨rfl, h⟩ | ⟨rfl, h⟩)
    · refine ⟨by omega, by omega, ?_⟩
      simp only [Nat.zero_add, Nat.sub_self, Nat.cast_zero, add_zero]
      rw [r0, h]
    · refine ⟨by omega, by omega, ?_⟩
      simp only [Nat.zero_add, Nat.add_one_sub_one, Nat.cast_one]
      rw [r1, h]
    · refine ⟨by omega, by omega, ?_⟩
      simp only [Nat.zero_add, Nat.sub_zero, Nat.cast_ofNat]
      rw [r2, h]

/-- The amended depth-0 statement instantiated at `numbvs = 4` and the pattern `0 1 2 3`. -/
theorem init_win_f_depth0_amended_witness :
    (([0, 1, 2, 3] : List Nat).length = 4 / 4 + 3) ∧
    ∀ c b : Nat, c < 4 →
      ((init_win_f (readMem [0, 1, 2, 3]) 0 8 (8 + 4) 4 zeroMem (8 + (c : Int))).testBit b = true ↔
        (b = 2 ∧ ([0, 1, 2, 3] : List Nat).getD 0 0 = c) ∨
        (b = 1 ∧ ([0, 1, 2, 3] : List Nat).getD 1 0 = c) ∨
        (b = 0 ∧ ([0, 1, 2, 3] : List Nat).getD 2 0 = c)) :=
  ⟨by decide,
   init_win_f_depth0_amended 4 [0, 1, 2, 3] (readMem [0, 1, 2, 3]) 0 8 zeroMem (by decide)
    (readMem_holds _) (zeroMem_zeroed _ _)⟩
/-- C25 (as stated, refuted). With `numbvs = 4`, the pattern `1 1 1 1` and a table (at
addresses `8..15`) whose depth-0 entry of `A` holds 1 before the call, `init_win_f` leaves 1
in that entry and 2 in the depth-1 entry of `A`; on an all-zero table both are 0. -/
theorem init_win_f_not_cleared_counterexample :
    (init_win_f (readMem [1, 1, 1, 1]) 0 8 12 4 (store zeroMem 8 1) 8 = 1 ∧
      init_win_f (readMem [1, 1, 1, 1]) 0 8 12 4 zeroMem 8 = 0) ∧
    (init_win_f (readMem [1, 1, 1, 1]) 0 8 12 4 (store zeroMem 8 1) 12 = 2 ∧
      init_win_f (readMem [1, 1, 1, 1]) 0 8 12 4 zeroMem 12 = 0) := by
  decide

/-- C25 (amended). Function `init_win_f` overwrites the entries below depth 0: for every
pattern, every `numbvs` and every initial content of the table whose four depth-0 entries are
zero, the `numbvs + 4` table entries after `init_win_f` are the same as after `init_win_f` run
on an all-zero table, so the result does not depend on what the deeper entries held before the
call. -/
theorem init_win_f_overwrites_amended
    (numbvs : Nat) (p : List Nat) (rd : CharMem) (base bittable_000 : Int) (mem : Mem)
    (hlen : p.length = numbvs / 4 + 3) (hrd : HoldsRead rd base p)
    (hz : Zeroed mem bittable_000 4) :
    ∀ o : Nat, o < numbvs + 4 →
      init_win_f rd base bittable_000 (bittable_000 + 4) numbvs mem (bittable_000 + (o : Int))
        = init_win_f rd base bittable_000 (bittable_000 + 4) numbvs zeroMem
            (bittable_000 + (o : Int)) := by
  intro o ho
  apply Nat.eq_of_testBit_eq
  intro b
  rw [init_win_f_bits rd base bittable_000 numbvs mem hz
      (fun j hj => holdsRead_nonneg rd base p hrd j (by omega)) o b ho,
    init_win_f_bits rd base bittable_000 numbvs zeroMem (zeroMem_zeroed _ _)
      (fun j hj => holdsRead_nonneg rd base p hrd j (by omega)) o b ho]

/-- The amended statement instantiated at `numbvs = 4`, the pattern `1 1 1 1` and a table
whose depth-1 entry of `A` (address 12) holds 9 before the call. -/
theorem init_win_f_overwrites_amended_witness :
    (([1, 1, 1, 1] : List Nat).length = 4 / 4 + 3 ∧ Zeroed (store zeroMem 12 9) 8 4) ∧
    ∀ o : Nat, o < 4 + 4 →
      init_win_f (readMem [1, 1, 1, 1]) 0 8 (8 + 4) 4 (store zeroMem 12 9) (8 + (o : Int))
        = init_win_f (readMem [1, 1, 1, 1]) 0 8 (8 + 4) 4 zeroMem (8 + (o : Int)) :=
  ⟨⟨by decide, fun o ho => store_other zeroMem 12 9 _ (by omega)⟩,
   init_win_f_overwrites_amended 4 [1, 1, 1, 1] (readMem [1, 1, 1, 1]) 0 8 (store zeroMem 12 9)
    (by decide) (readMem_holds _) (fun o ho => store_other zeroMem 12 9 _ (by omega))⟩

/-- C27 (as stated, refuted). For the pattern `0 1 2 3` and `numbvs = 4` on a zeroed table
(at addresses `8..15`): at depth 0 the entry of `c = 0 = π[0]` has bit 3 clear, and at depth 1
the entry of `c = 1 = π[1]` has bit 3 clear while the entry of `c = 0 = π[0]` has it set. -/
theorem init_win_f_high_bit_counterexample :
    ((init_win_f (readMem [0, 1, 2, 3]) 0 8 12 4 zeroMem 8).testBit 3 = false ∧
      ([0, 1, 2, 3] : List Nat).getD 0 0 = 0) ∧
    ((init_win_f (readMem [0, 1, 2, 3]) 0 8 12 4 zeroMem 13).testBit 3 = false ∧
      ([0, 1, 2, 3] : List Nat).getD 1 0 = 1) ∧
    ((init_win_f (readMem [0, 1, 2, 3]) 0 8 12 4 zeroMem 12).testBit 3 = true ∧
      ([0, 1, 2, 3] : List Nat).getD 1 0 ≠ 0) := by
  decide

/-- C27 (amended). The high bit marks a match with the character one depth above: after
`init_win_f` on a zeroed table for a pattern `π` of length `numbvs/4 + 3` (`numbvs` a
multiple of 4), for every depth `d` in the table and every nucleotide `c`, bit 3 (mask
`0b1000`) of entry `[d][c]` is set if and only if `d ≥ 1` and `c = π[d-1]`; the bit that is
set if and only if `c = π[d]` is bit 2 (mask `0b0100`). -/
theorem init_win_f_high_bit_amended
    (numbvs : Nat) (p : List Nat) (rd : CharMem) (base bittable_000 : Int) (mem : Mem)
    (hmul : numbvs % 4 = 0) (hlen : p.length = numbvs / 4 + 3) (hrd : HoldsRead rd base p)
    (hz : Zeroed mem bittable_000 (numbvs + 4)) :
    ∀ d c : Nat, d ≤ numbvs / 4 → c < 4 →
      ((init_win_f rd base bittable_000 (bittable_000 + 4) numbvs mem
          (bittable_000 + ((4 * d + c : Nat) : Int))).testBit 3 = true ↔
        1 ≤ d ∧ p.getD (d - 1) 0 = c) ∧
      ((init_win_f rd base bittable_000 (bittable_000 + 4) numbvs mem
          (bittable_000 + ((4 * d + c : Nat) : Int))).testBit 2 = true ↔
        p.getD d 0 = c) := by
  intro d c hd hc
  have e1 : (4 * d + c) / 4 = d := by omega
  have e2 : (4 * d + c) % 4 = c := by omega
  have hb : ∀ b : Nat,
      (init_win_f rd base bittable_000 (bittable_000 + 4) numbvs mem
          (bittable_000 + ((4 * d + c : Nat) : Int))).testBit b
        = specBit (fun j => rd (base + (j : Int))) d c b := by
    intro b
    rw [init_win_f_bits rd base bittable_000 numbvs mem (Zeroed_mono _ _ _ 4 (by omega) hz)
      (fun j hj => holdsRead_nonneg rd base p hrd j (by omega)) (4 * d + c) b (by omega),
      e1, e2, if_pos hd]
  rw [hb 3, hb 2]
  unfold specBit
  rw [decide_eq_true_iff, decide_eq_true_iff]
  constructor
  · constructor
    · rintro ⟨_, h2, h3⟩
      refine ⟨by omega, ?_⟩
      simp only [] at h3
      have e : d + 2 - 3 = d - 1 := by omega
      rw [e, hrd (d - 1) (by omega)] at h3
      exact_mod_cast h3
    · rintro ⟨h1, h3⟩
      refine ⟨by omega, by omega, ?_⟩
      show rd (base + ((d + 2 - 3 : Nat) : Int)) = (c : Int)
      have e : d + 2 - 3 = d - 1 := by omega
      rw [e, hrd (d - 1) (by omega), h3]
  · constructor
    · rintro ⟨_, _, h3⟩
      simp only [] at h3
      have e : d + 2 - 2 = d := by omega
      rw [e, hrd d (by omega)] at h3
      exact_mod_cast h3
    · intro h3
      refine ⟨by omega, by omega, ?_⟩
      show rd (base + ((d + 2 - 2 : Nat) : Int)) = (c : Int)
      have e : d + 2 - 2 = d := by omega
      rw [e, hrd d (by omega), h3]

/-- The amended high-bit statement instantiated at `numbvs = 4` and the pattern `0 1 2 3`. -/
theorem init_win_f_high_bit_amended_witness :
    (4 % 4 = 0 ∧ ([0, 1, 2, 3] : List Nat).length = 4 / 4 + 3) ∧
    ∀ d c : Nat, d ≤ 4 / 4 → c < 4 →
      ((init_win_f (readMem [0, 1, 2, 3]) 0 8 (8 + 4) 4 zeroMem
          (8 + ((4 * d + c : Nat) : Int))).testBit 3 = true ↔
        1 ≤ d ∧ ([0, 1, 2, 3] : List Nat).getD (d - 1) 0 = c) ∧
      ((init_win_f (readMem [0, 1, 2, 3]) 0 8 (8 + 4) 4 zeroMem
          (8 + ((4 * d + c : Nat) : Int))).testBit 2 = true ↔
        ([0, 1, 2, 3] : List Nat).getD d 0 = c) :=
  ⟨⟨by decide, by decide⟩,
   init_win_f_high_bit_amended 4 [0, 1, 2, 3] (readMem [0, 1, 2, 3]) 0 8 zeroMem (by decide)
    (by decide) (readMem_holds _) (zeroMem_zeroed _ _)⟩

/-! ### Claims about the window shift -/

/-- Entries of the forward table after the forward half of `offset_win_k1`. -/
theorem offset_fwd_values (rd : CharMem) (FW2 base : Int) (q : Nat) (m : Mem)
    (hq : 1 ≤ q) (h0 : 0 ≤ rd FW2) :
    (∀ c : Nat, c < 4 →
      offset_fwd rd FW2 base (base + 4) (4 * q) m (base + (c : Int))
        = (m (base + ((4 + c : Nat) : Int)) % 256 &&& 7) % 256) ∧
    (∀ d c : Nat, 1 ≤ d → d < q → c < 4 →
      offset_fwd rd FW2 base (base + 4) (4 * q) m (base + ((4 * d + c : Nat) : Int))
        = m (base + ((4 * (d + 1) + c : Nat) : Int)) % 256) ∧
    (∀ c : Nat, c < 4 →
      offset_fwd rd FW2 base (base + 4) (4 * q) m (base + ((4 * q + c : Nat) : Int))
        = if (c : Int) = rd FW2
          then ((((m (base + ((4 * q + c : Nat) : Int)) <<< 1) % 256 &&& 15) % 256) ||| 1) % 256
          else ((m (base + ((4 * q + c : Nat) : Int)) <<< 1) % 256 &&& 15) % 256) := by
  obtain ⟨c1, c2⟩ := fwd_copy_spec (4 * q) base (base + 4) m (by omega)
  obtain ⟨_, k2⟩ := mask_loop_spec 4 base (fwd_copy (4 * q) base (base + 4) m).2.2
  obtain ⟨_, s2⟩ := shl_loop_spec 4 (fwd_copy (4 * q) base (base + 4) m).1
    (mask_loop 4 base (fwd_copy (4 * q) base (base + 4) m).2.2).2
  rw [c1] at s2
  refine ⟨?_, ?_, ?_⟩
  · intro c hc
    unfold offset_fwd
    rw [c1, store_other _ _ _ _ (by omega), s2, k2, c2,
      if_neg (by omega), if_pos (by omega), if_pos (by omega)]
    have e : base + (c : Int) + (base + 4 - base) = base + ((4 + c : Nat) : Int) := by omega
    rw [e]
  · intro d c hd1 hdq hc
    unfold offset_fwd
    rw [c1, store_other _ _ _ _ (by omega), s2, k2, c2,
      if_neg (by omega), if_neg (by omega), if_pos (by omega)]
    have e : base + ((4 * d + c : Nat) : Int) + (base + 4 - base)
        = base + ((4 * (d + 1) + c : Nat) : Int) := by omega
    rw [e]
  · intro c hc
    have hs : (shl_loop 4 (base + ((4 * q : Nat) : Int))
        (mask_loop 4 base (fwd_copy (4 * q) base (base + 4) m).2.2).2).2
          (base + ((4 * q + c : Nat) : Int))
        = ((m (base + ((4 * q + c : Nat) : Int)) <<< 1) % 256 &&& 15) % 256 := by
      rw [s2, k2, c2, if_pos (by omega), if_neg (by omega), if_neg (by omega)]
    unfold offset_fwd
    rw [c1]
    by_cases hcf : (c : Int) = rd FW2
    · rw [if_pos hcf]
      have ea : base + ((4 * q : Nat) : Int) + rd FW2 = base + ((4 * q + c : Nat) : Int) := by
        omega
      rw [ea, store_same, hs]
    · rw [if_neg hcf, store_other _ _ _ _ (by omega), hs]

/-- Entries of the reverse table after the reverse half of `offset_win_k1`. -/
theorem offset_rev_values (rd : CharMem) (RW1 rb : Int) (q : Nat) (m : Mem)
    (hq : 1 ≤ q) (h0 : 0 ≤ rd RW1) (h4 : rd RW1 < 4) :
    (∀ c : Nat, c < 4 →
      offset_rev rd RW1 (rb + ((4 * q : Nat) : Int)) (rb + ((4 * q : Nat) : Int) + 4) (4 * q) m
          (rb + (c : Int))
        = if (c : Int) = rd RW1 then (((m (rb + (c : Int)) >>> 1) % 256) ||| 4) % 256
          else (m (rb + (c : Int)) >>> 1) % 256) ∧
    (∀ c : Nat, c < 4 →
      offset_rev rd RW1 (rb + ((4 * q : Nat) : Int)) (rb + ((4 * q : Nat) : Int) + 4) (4 * q) m
          (rb + ((4 + c : Nat) : Int))
        = if (c : Int) = rd RW1 then ((m (rb + (c : Int)) % 256) ||| 8) % 256
          else m (rb + (c : Int)) % 256) ∧
    (∀ d c : Nat, 2 ≤ d → d ≤ q → c < 4 →
      offset_rev rd RW1 (rb + ((4 * q : Nat) : Int)) (rb + ((4 * q : Nat) : Int) + 4) (4 * q) m
          (rb + ((4 * d + c : Nat) : Int))
        = m (rb + ((4 * (d - 1) + c : Nat) : Int)) % 256) := by
  obtain ⟨c1, c2, c3⟩ := rev_copy_spec (4 * q) (rb + ((4 * q : Nat) : Int))
    (rb + ((4 * q : Nat) : Int) + 4) m (by omega)
  obtain ⟨_, s2⟩ := shr_loop_spec 4
    (rev_copy (4 * q) (rb + ((4 * q : Nat) : Int)) (rb + ((4 * q : Nat) : Int) + 4) m).1
    (rev_copy (4 * q) (rb + ((4 * q : Nat) : Int)) (rb + ((4 * q : Nat) : Int) + 4) m).2.2
  rw [c1] at s2
  have e0 : rb + ((4 * q : Nat) : Int) - ((4 * q : Nat) : Int) = rb := by omega
  have e4 : rb + ((4 * q : Nat) : Int) + 4 - ((4 * q : Nat) : Int) = rb + 4 := by omega
  rw [e0] at s2
  have hs0 : ∀ c : Nat, c < 4 →
      (shr_loop 4 rb (rev_copy (4 * q) (rb + ((4 * q : Nat) : Int))
        (rb + ((4 * q : Nat) : Int) + 4) m).2.2).2 (rb + (c : Int))
        = (m (rb + (c : Int)) >>> 1) % 256 := by
    intro c hc
    rw [s2, c3, if_pos (by omega), if_neg (by omega)]
  have hs1 : ∀ d c : Nat, 1 ≤ d → d ≤ q → c < 4 →
      (shr_loop 4 rb (rev_copy (4 * q) (rb + ((4 * q : Nat) : Int))
        (rb + ((4 * q : Nat) : Int) + 4) m).2.2).2 (rb + ((4 * d + c : Nat) : Int))
        = m (rb + ((4 * (d - 1) + c : Nat) : Int)) % 256 := by
    intro d c hd1 hdq hc
    rw [s2, c3, if_neg (by omega), if_pos (by omega)]
    have e : rb + ((4 * d + c : Nat) : Int)
        - (rb + ((4 * q : Nat) : Int) + 4 - (rb + ((4 * q : Nat) : Int)))
        = rb + ((4 * (d - 1) + c : Nat) : Int) := by omega
    rw [e]
  refine ⟨?_, ?_, ?_⟩
  · intro c hc
    unfold offset_rev
    simp only [c1, c2, e0, e4]
    rw [store_other _ _ _ _ (by omega)]
    by_cases hcr : (c : Int) = rd RW1
    · rw [if_pos hcr]
      have ea : rb + rd RW1 = rb + (c : Int) := by omega
      rw [ea, store_same, hs0 c hc]
      rfl
    · rw [if_neg hcr, store_other _ _ _ _ (by omega), hs0 c hc]
  · intro c hc
    unfold offset_rev
    simp only [c1, c2, e0, e4]
    have h1 := hs1 1 c (le_refl 1) hq hc
    have e1 : ((4 * 1 + c : Nat) : Int) = ((4 + c : Nat) : Int) := by omega
    have e2 : rb + ((4 * (1 - 1) + c : Nat) : Int) = rb + (c : Int) := by
      simp
    rw [e1, e2] at h1
    by_cases hcr : (c : Int) = rd RW1
    · rw [if_pos hcr]
      have ea : rb + 4 + rd RW1 = rb + ((4 + c : Nat) : Int) := by omega
      rw [ea, store_same, store_other _ _ _ _ (by omega), h1]
      rfl
    · rw [if_neg hcr, store_other _ _ _ _ (by omega), store_other _ _ _ _ (by omega), h1]
  · intro d c hd2 hdq hc
    unfold offset_rev
    simp only [c1, c2, e0, e4]
    rw [store_other _ _ _ _ (by omega), store_other _ _ _ _ (by omega),
      hs1 d c (by omega) hdq hc]
/-- C26 (as stated, refuted). With `numbvs = 8`, the forward table at addresses `12..23` built
by `init_win_f` from the read `0 1 2 3 0 1`, `FW2` pointing at `R[5]` and `RW1` at `R[0]`:
the depth-1 entry of `A` was 8, so the claim gives `(8 << 1) & 0b1111 = 0` for it after
`offset_win_k1`; the function leaves 1 there, the old depth-2 entry of `A`. -/
theorem offset_fwd_interior_counterexample :
    init_win_f (readMem [0, 1, 2, 3, 0, 1]) 0 12 16 8 zeroMem 16 = 8 ∧
    init_win_f (readMem [0, 1, 2, 3, 0, 1]) 0 12 16 8 zeroMem 20 = 1 ∧
    offset_win_k1 (readMem [0, 1, 2, 3, 0, 1]) 5 0 8 12 16 8
      (init_win_f (readMem [0, 1, 2, 3, 0, 1]) 0 12 16 8 zeroMem) 16 = 1 ∧
    offset_win_k1 (readMem [0, 1, 2, 3, 0, 1]) 5 0 8 12 16 8
      (init_win_f (readMem [0, 1, 2, 3, 0, 1]) 0 12 16 8 zeroMem) 16
      ≠ ((init_win_f (readMem [0, 1, 2, 3, 0, 1]) 0 12 16 8 zeroMem 16) <<< 1) &&& 15 := by
  decide

theorem or_one_le_15 (x : Nat) (h : x ≤ 15) : x ||| 1 ≤ 15 := by
  have := @Nat.or_lt_two_pow x 1 4 (by omega) (by omega)
  omega

/-- C26 (amended). Forward half of `offset_win_k1`, for a positive multiple-of-4 `numbvs`, a
table of bytes, `RW1` pointing at a character in `{0,1,2,3}` and `FW2` at `addChar` (not
negative): the depth-0 entries of the new forward table are the old depth-1 entries masked with `0b0111`; every entry at a
depth `d` with `0 < d < numbvs/4` is the old entry at depth `d + 1`, unchanged; only the
entries of the last depth are shifted, `(old << 1) & 0b1111`, and the LSB of the last-depth
entry for `addChar` is additionally set. -/
theorem offset_fwd_amended
    (numbvs : Nat) (rd : CharMem) (FW2 RW1 bittable_100 : Int) (mem : Mem)
    (hpos : 0 < numbvs) (hmul : numbvs % 4 = 0) (hbytes : ∀ x, mem x < 256)
    (hF0 : 0 ≤ rd FW2) (hR0 : 0 ≤ rd RW1) (hR4 : rd RW1 < 4) :
    (∀ c : Nat, c < 4 →
      offset_win_k1 rd FW2 RW1 (bittable_100 - 4) bittable_100 (bittable_100 + 4) numbvs mem
          (bittable_100 + (c : Int))
        = mem (bittable_100 + ((4 + c : Nat) : Int)) &&& 7) ∧
    (∀ d c : Nat, 1 ≤ d → d < numbvs / 4 → c < 4 →
      offset_win_k1 rd FW2 RW1 (bittable_100 - 4) bittable_100 (bittable_100 + 4) numbvs mem
          (bittable_100 + ((4 * d + c : Nat) : Int))
        = mem (bittable_100 + ((4 * (d + 1) + c : Nat) : Int))) ∧
    (∀ c : Nat, c < 4 →
      offset_win_k1 rd FW2 RW1 (bittable_100 - 4) bittable_100 (bittable_100 + 4) numbvs mem
          (bittable_100 + ((numbvs + c : Nat) : Int))
        = if (c : Int) = rd FW2
          then ((mem (bittable_100 + ((numbvs + c : Nat) : Int)) <<< 1) % 256 &&& 15) ||| 1
          else (mem (bittable_100 + ((numbvs + c : Nat) : Int)) <<< 1) % 256 &&& 15) := by
  obtain ⟨q, rfl⟩ : ∃ q, numbvs = 4 * q := ⟨numbvs / 4, by omega⟩
  have hq4 : 4 * q / 4 = q := by omega
  rw [hq4]
  have hq : 1 ≤ q := by omega
  have e1 : bittable_100 - 4
      = (bittable_100 - ((4 * q : Nat) : Int) - 4) + ((4 * q : Nat) : Int) := by omega
  have e2 : bittable_100 - 4 + 4 = bittable_100 := by omega
  have hfr : ∀ x : Int, bittable_100 ≤ x →
      offset_rev rd RW1 (bittable_100 - 4) bittable_100 (4 * q) mem x = mem x := by
    intro x hx
    have := offset_rev_frame rd RW1 (bittable_100 - ((4 * q : Nat) : Int) - 4) q mem x hq hR0 hR4
      (by omega)
    rw [← e1, e2] at this
    exact this
  obtain ⟨f1, f2, f3⟩ := offset_fwd_values rd FW2 bittable_100 q
    (offset_rev rd RW1 (bittable_100 - 4) bittable_100 (4 * q) mem) hq hF0
  refine ⟨?_, ?_, ?_⟩
  · intro c hc
    unfold offset_win_k1
    rw [f1 c hc, hfr _ (by omega), Nat.mod_eq_of_lt (hbytes _)]
    apply Nat.mod_eq_of_lt
    have := @Nat.and_le_right (mem (bittable_100 + ((4 + c : Nat) : Int))) 7
    omega
  · intro d c hd1 hdq hc
    unfold offset_win_k1
    rw [f2 d c hd1 hdq hc, hfr _ (by omega), Nat.mod_eq_of_lt (hbytes _)]
  · intro c hc
    unfold offset_win_k1
    rw [f3 c hc, hfr _ (by omega)]
    have hX := @Nat.and_le_right ((mem (bittable_100 + ((4 * q + c : Nat) : Int)) <<< 1) % 256) 15
    have hX1 := or_one_le_15 _ hX
    rw [Nat.mod_eq_of_lt (a := (mem (bittable_100 + ((4 * q + c : Nat) : Int)) <<< 1) % 256 &&& 15)
      (by omega)]
    split
    · exact Nat.mod_eq_of_lt (by omega)
    · rfl

theorem store_zeroMem_byte (a : Int) (v : Nat) (x : Int) : store zeroMem a v x < 256 := by
  rw [store_apply]
  split
  · exact Nat.mod_lt _ (by omega)
  · exact zeroMem_byte x

/-- The amended statement instantiated at `numbvs = 8`, a table whose old depth-2 entry of
`A` in the forward table (address 20) holds 9, `FW2` at `R[5]` and `RW1` at `R[0]` of the
read `0 1 2 3 0 1`: the new depth-1 entry of `A` (address 16) is that entry. -/
theorem offset_fwd_amended_witness :
    (0 < 8 ∧ 8 % 4 = 0 ∧ (0 : Int) ≤ readMem [0, 1, 2, 3, 0, 1] 5 ∧
      (0 : Int) ≤ readMem [0, 1, 2, 3, 0, 1] 0 ∧ readMem [0, 1, 2, 3, 0, 1] 0 < 4) ∧
    ∀ d c : Nat, 1 ≤ d → d < 8 / 4 → c < 4 →
      offset_win_k1 (readMem [0, 1, 2, 3, 0, 1]) 5 0 (12 - 4) 12 (12 + 4) 8
          (store zeroMem 20 9) (12 + ((4 * d + c : Nat) : Int))
        = store zeroMem 20 9 (12 + ((4 * (d + 1) + c : Nat) : Int)) :=
  ⟨by decide,
   (offset_fwd_amended 8 (readMem [0, 1, 2, 3, 0, 1]) 5 0 12 (store zeroMem 20 9)
      (by decide) (by decide) (store_zeroMem_byte 20 9)
      (by decide) (by decide) (by decide)).2.1⟩
theorem le_of_testBit_high (x n : Nat) (h : ∀ b : Nat, n ≤ b → x.testBit b = false) :
    x < 2 ^ n :=
  Nat.lt_pow_two_of_testBit x (fun i hi => h i hi)

/-- The table that `init_win_f` builds satisfies the bit-width predicate, for any `numbvs`. -/
theorem init_win_f_width (rd : CharMem) (ptr0 base : Int) (numbvs : Nat) (mem : Mem)
    (hz : Zeroed mem base 4)
    (hp : ∀ j : Nat, j < 3 + numbvs / 4 → 0 ≤ rd (ptr0 + (j : Int))) :
    WidthInv (init_win_f rd ptr0 base (base + 4) numbvs mem) base numbvs := by
  constructor
  · intro o ho
    have h := le_of_testBit_high
      (init_win_f rd ptr0 base (base + 4) numbvs mem (base + (o : Int))) 4 (by
        intro b hb
        rw [init_win_f_bits rd ptr0 base numbvs mem hz hp o b ho]
        split
        · by_contra hne
          have := specBit_lt_four _ _ _ _ ((Bool.not_eq_false _).mp hne)
          omega
        · by_contra hne
          have h2 := (Bool.not_eq_false _).mp hne
          rw [Bool.and_eq_true] at h2
          have := specBit_lt_four _ _ _ _ h2.2
          omega)
    omega
  · intro c hc
    have h := le_of_testBit_high
      (init_win_f rd ptr0 base (base + 4) numbvs mem (base + (c : Int))) 3 (by
        intro b hb
        rw [init_win_f_bits rd ptr0 base numbvs mem hz hp c b (by omega)]
        have e1 : c / 4 = 0 := by omega
        rw [e1, if_pos (Nat.zero_le _)]
        unfold specBit
        rw [decide_eq_false_iff_not]
        rintro ⟨_, h2, _⟩
        omega)
    omega

theorem shr_or_4_le (x : Nat) (h : x ≤ 7) : (x >>> 1) % 256 ||| 4 ≤ 7 := by
  have h1 : x >>> 1 ≤ 3 := by
    rw [Nat.shiftRight_eq_div_pow]
    omega
  have := @Nat.or_lt_two_pow ((x >>> 1) % 256) 4 3 (by omega) (by omega)
  omega

theorem or_8_le (x : Nat) (h : x ≤ 7) : x % 256 ||| 8 ≤ 15 := by
  have := @Nat.or_lt_two_pow (x % 256) 8 4 (by omega) (by omega)
  omega

/-- One call of `offset_win_k1` keeps the bit-width predicate of the reverse table. -/
theorem offset_win_k1_rev_width (rd : CharMem) (FW2 RW1 b100 : Int) (q : Nat) (m : Mem)
    (hq : 1 ≤ q) (hF0 : 0 ≤ rd FW2) (hR0 : 0 ≤ rd RW1) (hR4 : rd RW1 < 4)
    (hW : WidthInv m (b100 - ((4 * q : Nat) : Int) - 4) (4 * q)) :
    WidthInv (offset_win_k1 rd FW2 RW1 (b100 - 4) b100 (b100 + 4) (4 * q) m)
      (b100 - ((4 * q : Nat) : Int) - 4) (4 * q) := by
  have e1 : b100 - 4 = (b100 - ((4 * q : Nat) : Int) - 4) + ((4 * q : Nat) : Int) := by omega
  have e2 : b100 - 4 + 4 = b100 := by omega
  obtain ⟨r0, r1, r2⟩ := offset_rev_values rd RW1 (b100 - ((4 * q : Nat) : Int) - 4) q m
    hq hR0 hR4
  rw [← e1, e2] at r0 r1 r2
  have key0 : ∀ c : Nat, c < 4 →
      offset_win_k1 rd FW2 RW1 (b100 - 4) b100 (b100 + 4) (4 * q) m
        (b100 - ((4 * q : Nat) : Int) - 4 + (c : Int)) ≤ 7 := by
    intro c hc
    unfold offset_win_k1
    rw [offset_fwd_frame rd FW2 b100 (4 * q) _ _ hF0 (by omega), r0 c hc]
    have hx := hW.2 c hc
    have h1 := shr_or_4_le _ hx
    split
    · exact le_trans (Nat.mod_le _ _) h1
    · have : (m (b100 - ((4 * q : Nat) : Int) - 4 + (c : Int)) >>> 1) ≤ 7 := by
        rw [Nat.shiftRight_eq_div_pow]
        omega
      exact le_trans (Nat.mod_le _ _) this
  refine ⟨?_, key0⟩
  intro o ho
  have e : o = 4 * (o / 4) + o % 4 := by omega
  rcases Nat.lt_or_ge o 4 with h4 | h4
  · exact le_trans (key0 o h4) (by omega)
  · unfold offset_win_k1
    rw [offset_fwd_frame rd FW2 b100 (4 * q) _ _ hF0 (by omega)]
    rcases Nat.lt_or_ge o 8 with h8 | h8
    · have eo : o = 4 + (o - 4) := by omega
      rw [eo, r1 (o - 4) (by omega)]
      have hx := hW.2 (o - 4) (by omega)
      have h1 := or_8_le _ hx
      split
      · exact le_trans (Nat.mod_le _ _) h1
      · exact le_trans (Nat.mod_le _ _) (by omega)
    · rw [e, r2 (o / 4) (o % 4) (by omega) (by omega) (by omega)]
      have hx := hW.1 (4 * (o / 4 - 1) + o % 4) (by omega)
      exact le_trans (Nat.mod_le _ _) hx

/-- One call of `offset_win_k1` keeps the bit-width predicate of the forward table. -/
theorem offset_win_k1_fwd_width (rd : CharMem) (FW2 RW1 b100 : Int) (q : Nat) (m : Mem)
    (hq : 1 ≤ q) (hF0 : 0 ≤ rd FW2) (hR0 : 0 ≤ rd RW1) (hR4 : rd RW1 < 4)
    (hW : WidthInv m b100 (4 * q)) :
    WidthInv (offset_win_k1 rd FW2 RW1 (b100 - 4) b100 (b100 + 4) (4 * q) m) b100 (4 * q) := by
  have e1 : b100 - 4 = (b100 - ((4 * q : Nat) : Int) - 4) + ((4 * q : Nat) : Int) := by omega
  have e2 : b100 - 4 + 4 = b100 := by omega
  have hfr : ∀ x : Int, b100 ≤ x →
      offset_rev rd RW1 (b100 - 4) b100 (4 * q) m x = m x := by
    intro x hx
    have := offset_rev_frame rd RW1 (b100 - ((4 * q : Nat) : Int) - 4) q m x hq hR0 hR4
      (by omega)
    rw [← e1, e2] at this
    exact this
  obtain ⟨f1, f2, f3⟩ := offset_fwd_values rd FW2 b100 q
    (offset_rev rd RW1 (b100 - 4) b100 (4 * q) m) hq hF0
  have key0 : ∀ c : Nat, c < 4 →
      offset_win_k1 rd FW2 RW1 (b100 - 4) b100 (b100 + 4) (4 * q) m (b100 + (c : Int)) ≤ 7 := by
    intro c hc
    unfold offset_win_k1
    rw [f1 c hc]
    exact le_trans (Nat.mod_le _ _) Nat.and_le_right
  refine ⟨?_, key0⟩
  intro o ho
  have e : o = 4 * (o / 4) + o % 4 := by omega
  rcases Nat.lt_or_ge o 4 with h4 | h4
  · exact le_trans (key0 o h4) (by omega)
  · unfold offset_win_k1
    rcases Nat.lt_or_ge o (4 * q) with hl | hl
    · rw [e, f2 (o / 4) (o % 4) (by omega) (by omega) (by omega), hfr _ (by omega)]
      have hx := hW.1 (4 * (o / 4 + 1) + o % 4) (by omega)
      exact le_trans (Nat.mod_le _ _) hx
    · have eo : o = 4 * q + (o - 4 * q) := by omega
      rw [eo, f3 (o - 4 * q) (by omega)]
      have hX := @Nat.and_le_right
        ((offset_rev rd RW1 (b100 - 4) b100 (4 * q) m
          (b100 + ((4 * q + (o - 4 * q) : Nat) : Int)) <<< 1) % 256) 15
      split
      · exact le_trans (Nat.mod_le _ _) (or_one_le_15 _ (le_trans (Nat.mod_le _ _) hX))
      · exact le_trans (Nat.mod_le _ _) hX
theorem and_15_of_le (x : Nat) (h : x ≤ 15) : x &&& 15 = x := by
  interval_cases x <;> rfl

/-- C29. Bit-width invariant of both tables: the predicate "every entry is at most 15 and
every depth-0 entry is at most 7" holds after `init_win_f` and after `init_win_r` on a zeroed
table (for a pattern of length `numbvs/4 + 3`, `init_win_r` called at its last character);
for a positive multiple-of-4 `numbvs` and `RW1`, `FW2` pointing at characters in `{0,1,2,3}`,
`offset_win_k1` preserves it for the reverse and for the forward table; and under the
predicate the low 4 bits of an entry are the whole entry, a value below 16. -/
theorem table_width_invariant
    (numbvs : Nat) (p : List Nat) (rd : CharMem) (base : Int)
    (hlen : p.length = numbvs / 4 + 3) (hrd : HoldsRead rd base p) :
    (∀ (bittable_000 : Int) (mem : Mem), Zeroed mem bittable_000 (numbvs + 4) →
      WidthInv (init_win_f rd base bittable_000 (bittable_000 + 4) numbvs mem)
        bittable_000 numbvs) ∧
    (∀ (bittable_000 : Int) (mem : Mem), Zeroed mem bittable_000 (numbvs + 4) →
      WidthInv (init_win_r rd (base + ((numbvs / 4 + 2 : Nat) : Int)) bittable_000
        (bittable_000 + 4) numbvs mem) bittable_000 numbvs) ∧
    (∀ (FW2 RW1 bittable_100 : Int) (mem : Mem), 0 < numbvs → numbvs % 4 = 0 →
      0 ≤ rd FW2 → rd FW2 < 4 → 0 ≤ rd RW1 → rd RW1 < 4 →
      (WidthInv mem (bittable_100 - (numbvs : Int) - 4) numbvs →
        WidthInv
          (offset_win_k1 rd FW2 RW1 (bittable_100 - 4) bittable_100 (bittable_100 + 4) numbvs mem)
          (bittable_100 - (numbvs : Int) - 4) numbvs) ∧
      (WidthInv mem bittable_100 numbvs →
        WidthInv
          (offset_win_k1 rd FW2 RW1 (bittable_100 - 4) bittable_100 (bittable_100 + 4) numbvs mem)
          bittable_100 numbvs)) ∧
    (∀ (m : Mem) (tb : Int), WidthInv m tb numbvs → ∀ o : Nat, o < numbvs + 4 →
      m (tb + (o : Int)) &&& 15 = m (tb + (o : Int)) ∧ m (tb + (o : Int)) < 16) := by
  refine ⟨?_, ?_, ?_, ?_⟩
  · intro b000 mem hz
    exact init_win_f_width rd base b000 numbvs mem (Zeroed_mono _ _ _ 4 (by omega) hz)
      (fun j hj => holdsRead_nonneg rd base p hrd j (by omega))
  · intro b000 mem hz
    rw [init_win_r_eq_f]
    exact init_win_f_width (fun a => rd (base + ((numbvs / 4 + 2 : Nat) : Int) - a)) 0 b000
      numbvs mem (Zeroed_mono _ _ _ 4 (by omega) hz)
      (fun j hj => by
        have := holdsRead_nonneg rd base p hrd (numbvs / 4 + 2 - j) (by omega)
        have e : base + ((numbvs / 4 + 2 - j : Nat) : Int)
            = base + ((numbvs / 4 + 2 : Nat) : Int) - (0 + (j : Int)) := by omega
        rw [e] at this
        exact this)
  · intro FW2 RW1 b100 mem hpos hmul hF0 _ hR0 hR4
    obtain ⟨q, rfl⟩ : ∃ q, numbvs = 4 * q := ⟨numbvs / 4, by omega⟩
    have hq : 1 ≤ q := by omega
    exact ⟨offset_win_k1_rev_width rd FW2 RW1 b100 q mem hq hF0 hR0 hR4,
      offset_win_k1_fwd_width rd FW2 RW1 b100 q mem hq hF0 hR0 hR4⟩
  · intro m tb hW o ho
    have h := hW.1 o ho
    exact ⟨and_15_of_le _ h, by omega⟩

/-- The invariant instantiated at `numbvs = 4`, the pattern `0 1 2 3` and zeroed tables (the
reverse table at addresses `0..7`, the forward table at `8..15`): it holds after both
initialisations and after one `offset_win_k1` on the initialised forward table. -/
theorem table_width_invariant_witness :
    (([0, 1, 2, 3] : List Nat).length = 4 / 4 + 3 ∧ 0 < 4 ∧ 4 % 4 = 0 ∧
      (0 : Int) ≤ readMem [0, 1, 2, 3] 3 ∧ readMem [0, 1, 2, 3] 3 < 4 ∧
      (0 : Int) ≤ readMem [0, 1, 2, 3] 0 ∧ readMem [0, 1, 2, 3] 0 < 4) ∧
    WidthInv (init_win_f (readMem [0, 1, 2, 3]) 0 8 (8 + 4) 4 zeroMem) 8 4 ∧
    WidthInv (init_win_r (readMem [0, 1, 2, 3]) (0 + ((4 / 4 + 2 : Nat) : Int)) 0 (0 + 4) 4
      zeroMem) 0 4 ∧
    WidthInv (offset_win_k1 (readMem [0, 1, 2, 3]) 3 0 (8 - 4) 8 (8 + 4) 4
      (init_win_f (readMem [0, 1, 2, 3]) 0 8 (8 + 4) 4 zeroMem)) 8 4 :=
  ⟨by decide,
   (table_width_invariant 4 [0, 1, 2, 3] (readMem [0, 1, 2, 3]) 0 (by decide)
      (readMem_holds _)).1 8 zeroMem (zeroMem_zeroed _ _),
   (table_width_invariant 4 [0, 1, 2, 3] (readMem [0, 1, 2, 3]) 0 (by decide)
      (readMem_holds _)).2.1 0 zeroMem (zeroMem_zeroed _ _),
   ((table_width_invariant 4 [0, 1, 2, 3] (readMem [0, 1, 2, 3]) 0 (by decide)
      (readMem_holds _)).2.2.1 3 0 8 (init_win_f (readMem [0, 1, 2, 3]) 0 8 (8 + 4) 4 zeroMem)
      (by decide) (by decide) (by decide) (by decide) (by decide) (by decide)).2
      ((table_width_invariant 4 [0, 1, 2, 3] (readMem [0, 1, 2, 3]) 0 (by decide)
        (readMem_holds _)).1 8 zeroMem (zeroMem_zeroed _ _))⟩
/-- C23 (as stated, refuted). With `numbvs = 4` (`P = 4`, `L = 8`), the read
`0 1 2 3 0 1 2 3 1 0`, `win = 0`, the reverse table at addresses `0..7` and the forward table
at `8..15`, both built on zeroed tables: after `offset_win_k1` with `RW1` at `R[win+P-1] = R[3]`
and `FW2` at `R[win+L] = R[8]`, the depth-1 entry of `A` of the forward table (address 12) is
0 where `init_win_f` for window 1 gives 1, and the depth-0 entry of `C` of the reverse table
(address 1) is 0 where `init_win_r` for window 1 gives 4. -/
theorem window_shift_counterexample :
    (offset_win_k1 (readMem [0, 1, 2, 3, 0, 1, 2, 3, 1, 0]) 8 3 4 8 12 4
        (init_win_f (readMem [0, 1, 2, 3, 0, 1, 2, 3, 1, 0]) 0 8 12 4
          (init_win_r (readMem [0, 1, 2, 3, 0, 1, 2, 3, 1, 0]) 7 0 4 4 zeroMem)) 12 = 0 ∧
      init_win_f (readMem [0, 1, 2, 3, 0, 1, 2, 3, 1, 0]) 1 8 12 4 zeroMem 12 = 1) ∧
    (offset_win_k1 (readMem [0, 1, 2, 3, 0, 1, 2, 3, 1, 0]) 8 3 4 8 12 4
        (init_win_f (readMem [0, 1, 2, 3, 0, 1, 2, 3, 1, 0]) 0 8 12 4
          (init_win_r (readMem [0, 1, 2, 3, 0, 1, 2, 3, 1, 0]) 7 0 4 4 zeroMem)) 1 = 0 ∧
      init_win_r (readMem [0, 1, 2, 3, 0, 1, 2, 3, 1, 0]) 8 0 4 4 zeroMem 1 = 4) := by
  decide

/-- C23 (amended). Window shift: let `P = numbvs/4 + 3` (`numbvs` a positive multiple of 4),
`L = 2P`, `R` a read over `{0,1,2,3}` and `win` a window with `win + L < |R|`. Starting from
the forward table built by `init_win_f` on `R[win .. win+P)` and the reverse table built by
`init_win_r` on `R[win+P .. win+L)` reading backward from position `win+L-1` (both on zeroed
tables), one call of `offset_win_k1` with `RW1` pointing at `R[win+L]` for the reverse half
and `FW2` pointing at `R[win+P]` for the forward half leaves both tables equal to the tables
that `init_win_f` and `init_win_r` build directly for window `win+1`. -/
theorem window_shift_amended
    (numbvs win : Nat) (R : List Nat) (rd : CharMem) (base bittable_100 : Int)
    (m memF memR memF1 memR1 : Mem)
    (hpos : 0 < numbvs) (hmul : numbvs % 4 = 0)
    (hR : ∀ x ∈ R, x < 4) (hlen : win + 2 * (numbvs / 4 + 3) < R.length)
    (hrd : HoldsRead rd base R)
    (hzF : Zeroed memF bittable_100 (numbvs + 4))
    (hzR : Zeroed memR (bittable_100 - (numbvs : Int) - 4) (numbvs + 4))
    (hzF1 : Zeroed memF1 bittable_100 (numbvs + 4))
    (hzR1 : Zeroed memR1 (bittable_100 - (numbvs : Int) - 4) (numbvs + 4))
    (hmF : ∀ o : Nat, o < numbvs + 4 →
      m (bittable_100 + (o : Int))
        = init_win_f rd (base + (win : Int)) bittable_100 (bittable_100 + 4) numbvs memF
            (bittable_100 + (o : Int)))
    (hmR : ∀ o : Nat, o < numbvs + 4 →
      m (bittable_100 - (numbvs : Int) - 4 + (o : Int))
        = init_win_r rd (base + ((win + 2 * (numbvs / 4 + 3) - 1 : Nat) : Int))
            (bittable_100 - (numbvs : Int) - 4) (bittable_100 - (numbvs : Int) - 4 + 4) numbvs
            memR (bittable_100 - (numbvs : Int) - 4 + (o : Int))) :
    ∀ o : Nat, o < numbvs + 4 →
      offset_win_k1 rd (base + ((win + (numbvs / 4 + 3) : Nat) : Int))
          (base + ((win + 2 * (numbvs / 4 + 3) : Nat) : Int))
          (bittable_100 - 4) bittable_100 (bittable_100 + 4) numbvs m
          (bittable_100 + (o : Int))
        = init_win_f rd (base + ((win + 1 : Nat) : Int)) bittable_100 (bittable_100 + 4) numbvs
            memF1 (bittable_100 + (o : Int)) ∧
      offset_win_k1 rd (base + ((win + (numbvs / 4 + 3) : Nat) : Int))
          (base + ((win + 2 * (numbvs / 4 + 3) : Nat) : Int))
          (bittable_100 - 4) bittable_100 (bittable_100 + 4) numbvs m
          (bittable_100 - (numbvs : Int) - 4 + (o : Int))
        = init_win_r rd (base + ((win + 2 * (numbvs / 4 + 3) : Nat) : Int))
            (bittable_100 - (numbvs : Int) - 4) (bittable_100 - (numbvs : Int) - 4 + 4) numbvs
            memR1 (bittable_100 - (numbvs : Int) - 4 + (o : Int)) := by
  obtain ⟨q, rfl⟩ : ∃ q, numbvs = 4 * q := ⟨numbvs / 4, by omega⟩
  have hq4 : 4 * q / 4 = q := by omega
  rw [hq4] at hlen hmR ⊢
  have hq : 1 ≤ q := by omega
  have hF2 : 0 ≤ rd (base + ((win + (q + 3) : Nat) : Int)) :=
    holdsRead_nonneg rd base R hrd _ (by omega)
  have hR0 : 0 ≤ rd (base + ((win + 2 * (q + 3) : Nat) : Int)) :=
    holdsRead_nonneg rd base R hrd _ (by omega)
  have hR4 : rd (base + ((win + 2 * (q + 3) : Nat) : Int)) < 4 :=
    holdsRead_lt_four rd base R hrd hR _ (by omega)
  -- forward table
  have hTF0 : TableIs m bittable_100 q (fun j => rd (base + (win : Int) + (j : Int))) :=
    TableIs_congr_mem _ m bittable_100 q _ hmF
      (init_win_f_table rd (base + (win : Int)) bittable_100 q memF
        (Zeroed_mono _ _ _ 4 (by omega) hzF)
        (fun j hj => by
          have := holdsRead_nonneg rd base R hrd (win + j) (by omega)
          have e : base + ((win + j : Nat) : Int) = base + (win : Int) + (j : Int) := by omega
          rw [e] at this
          exact this))
  have hTF := offset_win_k1_fwd_table rd (base + ((win + (q + 3) : Nat) : Int))
    (base + ((win + 2 * (q + 3) : Nat) : Int)) bittable_100 q m _ hq hTF0
    (by
      show rd (base + ((win + (q + 3) : Nat) : Int)) = rd (base + (win : Int) + ((q + 3 : Nat) : Int))
      congr 1
      omega) hF2 hR0 hR4
  have hTF1 := init_win_f_table rd (base + ((win + 1 : Nat) : Int)) bittable_100 q memF1
    (Zeroed_mono _ _ _ 4 (by omega) hzF1)
    (fun j hj => by
      have := holdsRead_nonneg rd base R hrd (win + 1 + j) (by omega)
      have e : base + ((win + 1 + j : Nat) : Int)
          = base + ((win + 1 : Nat) : Int) + (j : Int) := by omega
      rw [e] at this
      exact this)
  have eF : (fun j : Nat => rd (base + (win : Int) + ((j + 1 : Nat) : Int)))
      = (fun j : Nat => rd (base + ((win + 1 : Nat) : Int) + (j : Int))) := by
    funext j
    congr 1
    omega
  simp only [] at hTF
  rw [eF] at hTF
  -- reverse table
  simp only [init_win_r_eq_f] at hmR ⊢
  have hTR0 : TableIs m (bittable_100 - ((4 * q : Nat) : Int) - 4) q
      (fun j => rd (base + ((win + 2 * (q + 3) - 1 : Nat) : Int) - (0 + (j : Int)))) :=
    TableIs_congr_mem _ m _ q _ hmR
      (init_win_f_table (fun a => rd (base + ((win + 2 * (q + 3) - 1 : Nat) : Int) - a)) 0
        (bittable_100 - ((4 * q : Nat) : Int) - 4) q memR
        (Zeroed_mono _ _ _ 4 (by omega) hzR)
        (fun j hj => by
          have := holdsRead_nonneg rd base R hrd (win + 2 * (q + 3) - 1 - j) (by omega)
          have e : base + ((win + 2 * (q + 3) - 1 - j : Nat) : Int)
              = base + ((win + 2 * (q + 3) - 1 : Nat) : Int) - (0 + (j : Int)) := by omega
          rw [e] at this
          exact this))
  have hTR := offset_win_k1_rev_table rd (base + ((win + (q + 3) : Nat) : Int))
    (base + ((win + 2 * (q + 3) : Nat) : Int)) bittable_100 q m _ hq hTR0 hF2 hR0 hR4
  have hTR1 := init_win_f_table (fun a => rd (base + ((win + 2 * (q + 3) : Nat) : Int) - a)) 0
    (bittable_100 - ((4 * q : Nat) : Int) - 4) q memR1
    (Zeroed_mono _ _ _ 4 (by omega) hzR1)
    (fun j hj => by
      have := holdsRead_nonneg rd base R hrd (win + 2 * (q + 3) - j) (by omega)
      have e : base + ((win + 2 * (q + 3) - j : Nat) : Int)
          = base + ((win + 2 * (q + 3) : Nat) : Int) - (0 + (j : Int)) := by omega
      rw [e] at this
      exact this)
  have eR : (fun j : Nat => if j = 0 then rd (base + ((win + 2 * (q + 3) : Nat) : Int))
        else rd (base + ((win + 2 * (q + 3) - 1 : Nat) : Int) - (0 + ((j - 1 : Nat) : Int))))
      = (fun j : Nat => rd (base + ((win + 2 * (q + 3) : Nat) : Int) - (0 + (j : Int)))) := by
    funext j
    by_cases hj : j = 0
    · rw [if_pos hj]
      congr 1
      omega
    · rw [if_neg hj]
      congr 1
      omega
  simp only [] at hTR
  rw [eR] at hTR
  intro o ho
  exact ⟨TableIs_unique _ _ bittable_100 q _ hTF hTF1 o ho,
    TableIs_unique _ _ _ q _ hTR hTR1 o ho⟩

/-- The amended statement instantiated at `numbvs = 4` (`P = 4`, `L = 8`), the read
`0 1 2 3 0 1 2 3 1 0`, `win = 0`, the reverse table at addresses `0..7` and the forward table
at `8..15`: `FW2` at `R[4]`, `RW1` at `R[8]`. -/
theorem window_shift_amended_witness :
    (0 < 4 ∧ 4 % 4 = 0 ∧ (∀ x ∈ ([0, 1, 2, 3, 0, 1, 2, 3, 1, 0] : List Nat), x < 4) ∧
      0 + 2 * (4 / 4 + 3) < ([0, 1, 2, 3, 0, 1, 2, 3, 1, 0] : List Nat).length) ∧
    ∀ o : Nat, o < 4 + 4 →
      offset_win_k1 (readMem [0, 1, 2, 3, 0, 1, 2, 3, 1, 0])
          (0 + ((0 + (4 / 4 + 3) : Nat) : Int)) (0 + ((0 + 2 * (4 / 4 + 3) : Nat) : Int))
          (8 - 4) 8 (8 + 4) 4
          (init_win_f (readMem [0, 1, 2, 3, 0, 1, 2, 3, 1, 0]) 0 8 12 4
            (init_win_r (readMem [0, 1, 2, 3, 0, 1, 2, 3, 1, 0]) 7 0 4 4 zeroMem))
          (8 + (o : Int))
        = init_win_f (readMem [0, 1, 2, 3, 0, 1, 2, 3, 1, 0]) (0 + ((0 + 1 : Nat) : Int)) 8
            (8 + 4) 4 zeroMem (8 + (o : Int)) ∧
      offset_win_k1 (readMem [0, 1, 2, 3, 0, 1, 2, 3, 1, 0])
          (0 + ((0 + (4 / 4 + 3) : Nat) : Int)) (0 + ((0 + 2 * (4 / 4 + 3) : Nat) : Int))
          (8 - 4) 8 (8 + 4) 4
          (init_win_f (readMem [0, 1, 2, 3, 0, 1, 2, 3, 1, 0]) 0 8 12 4
            (init_win_r (readMem [0, 1, 2, 3, 0, 1, 2, 3, 1, 0]) 7 0 4 4 zeroMem))
          (8 - ((4 : Nat) : Int) - 4 + (o : Int))
        = init_win_r (readMem [0, 1, 2, 3, 0, 1, 2, 3, 1, 0])
            (0 + ((0 + 2 * (4 / 4 + 3) : Nat) : Int)) (8 - ((4 : Nat) : Int) - 4)
            (8 - ((4 : Nat) : Int) - 4 + 4) 4 zeroMem (8 - ((4 : Nat) : Int) - 4 + (o : Int)) :=
  ⟨by decide,
   window_shift_amended 4 0 [0, 1, 2, 3, 0, 1, 2, 3, 1, 0]
    (readMem [0, 1, 2, 3, 0, 1, 2, 3, 1, 0]) 0 8
    (init_win_f (readMem [0, 1, 2, 3, 0, 1, 2, 3, 1, 0]) 0 8 12 4
      (init_win_r (readMem [0, 1, 2, 3, 0, 1, 2, 3, 1, 0]) 7 0 4 4 zeroMem))
    zeroMem zeroMem zeroMem zeroMem (by decide) (by decide) (by decide) (by decide)
    (readMem_holds _) (zeroMem_zeroed _ _) (zeroMem_zeroed _ _) (zeroMem_zeroed _ _)
    (zeroMem_zeroed _ _) (by decide) (by decide)⟩

/-! ### `References::load` on FASTQ text -/

theorem isEmpty_false_of_ne_nil (l : List (List Nat)) (h : l ≠ []) : l.isEmpty = false := by
  cases l with
  | nil => exact absurd rfl h
  | cons _ _ => rfl

theorem load_step_q_header (nt_table : Int → Nat) (getId : BaseRecord → List Nat)
    (clear : BaseRecord → BaseRecord) (numseq_part : Nat) (st : LoadSt)
    (h : List Nat) (rest : List (List Nat)) (c : Int) (rec : BaseRecord)
    (buffer : List BaseRecord) (n : Nat)
    (hQ : LoadQ st (h :: rest) c rec buffer n) (hn : n ≠ numseq_part)
    (hr : rec.isEmpty = false) (hrest : rest ≠ []) (hh : front h = 64) :
    ∃ st1 : LoadSt, load_step nt_table getId clear numseq_part st = LoadStep.next st1 ∧
      LoadQ st1 rest 0
        { clear { pushed getId rec n with isEmpty := true } with
          format := BIO_FORMAT.FASTQ, header := rtrim h, isEmpty := false }
        (buffer ++ [pushed getId rec n]) (n + 1) := by
  obtain ⟨hl, he, _, _, hi, hrec, hbuf, hnum⟩ := hQ
  have hne : h ≠ [] := by
    intro h0; rw [h0] at hh; exact absurd hh (by decide)
  have f := front_rtrim_of_not_space h 64 hh (by decide) hne
  have hre := isEmpty_false_of_ne_nil rest hrest
  rw [← hrec] at hr
  have hn2 : st.num_seq_read ≠ numseq_part := by rw [hnum]; exact hn
  have key : load_step nt_table getId clear numseq_part st
      = LoadStep.next { st with
          line := rtrim h, ifs := rest, eof := rest.isEmpty, lastRec := rest.isEmpty,
          isFastq := true, count := 0,
          rec_ := { clear { pushed getId st.rec_ st.num_seq_read with isEmpty := true } with
            format := BIO_FORMAT.FASTQ, header := rtrim h, isEmpty := false },
          buffer := st.buffer ++ [pushed getId st.rec_ st.num_seq_read],
          num_seq_read := st.num_seq_read + 1 } := by
    unfold load_step
    simp [hn2, hl, he, hr, hi, hne, f, getline, FASTA_HEADER_START, FASTQ_HEADER_START]
  exact ⟨_, key, by simp [LoadQ, hre, hrec, hbuf, hnum]⟩

theorem load_step_q_first_header (nt_table : Int → Nat) (getId : BaseRecord → List Nat)
    (clear : BaseRecord → BaseRecord) (numseq_part : Nat) (st : LoadSt)
    (h : List Nat) (rest : List (List Nat)) (c : Int) (rec : BaseRecord)
    (buffer : List BaseRecord) (n : Nat)
    (hQ : LoadQ st (h :: rest) c rec buffer n) (hn : n ≠ numseq_part)
    (hr : rec.isEmpty = true) (hrest : rest ≠ []) (hh : front h = 64) :
    ∃ st1 : LoadSt, load_step nt_table getId clear numseq_part st = LoadStep.next st1 ∧
      LoadQ st1 rest c
        { clear rec with format := BIO_FORMAT.FASTQ, header := rtrim h, isEmpty := false }
        buffer n := by
  obtain ⟨hl, he, _, hc, hi, hrec, hbuf, hnum⟩ := hQ
  have hne : h ≠ [] := by
    intro h0; rw [h0] at hh; exact absurd hh (by decide)
  have f := front_rtrim_of_not_space h 64 hh (by decide) hne
  have hre := isEmpty_false_of_ne_nil rest hrest
  rw [← hrec] at hr
  have hn2 : st.num_seq_read ≠ numseq_part := by rw [hnum]; exact hn
  have key : load_step nt_table getId clear numseq_part st
      = LoadStep.next { st with
          line := rtrim h, ifs := rest, eof := rest.isEmpty, lastRec := rest.isEmpty,
          isFastq := true,
          rec_ := { clear st.rec_ with
            format := BIO_FORMAT.FASTQ, header := rtrim h, isEmpty := false } } := by
    unfold load_step
    simp [hn2, hl, he, hr, hi, hne, f, getline, FASTA_HEADER_START, FASTQ_HEADER_START]
  exact ⟨_, key, by simp [LoadQ, hre, hrec, hbuf, hnum, hc]⟩

theorem load_step_q_seq (nt_table : Int → Nat) (getId : BaseRecord → List Nat)
    (clear : BaseRecord → BaseRecord) (numseq_part : Nat) (st : LoadSt)
    (x : List Nat) (rest : List (List Nat)) (rec : BaseRecord)
    (buffer : List BaseRecord) (n : Nat)
    (hQ : LoadQ st (x :: rest) 0 rec buffer n) (hn : n ≠ numseq_part) (hrest : rest ≠ [])
    (hx : x ≠ []) (h1 : front x ≠ 62) (h2 : front x ≠ 64) (h3 : front x ≠ 43) :
    ∃ st1 : LoadSt, load_step nt_table getId clear numseq_part st = LoadStep.next st1 ∧
      LoadQ st1 rest 1
        { rec with sequence := rec.sequence ++ convert_fix nt_table (rtrim x) } buffer n := by
  obtain ⟨hl, he, hq, hc, hi, hrec, hbuf, hnum⟩ := hQ
  have f1 := front_rtrim_ne x 62 (by decide) h1
  have f2 := front_rtrim_ne x 64 (by decide) h2
  have f3 := front_rtrim_ne x 43 (by decide) h3
  have hre := isEmpty_false_of_ne_nil rest hrest
  have hn2 : st.num_seq_read ≠ numseq_part := by rw [hnum]; exact hn
  have key : load_step nt_table getId clear numseq_part st
      = LoadStep.next { st with
          line := convert_fix nt_table (rtrim x), ifs := rest, eof := rest.isEmpty,
          lastRec := rest.isEmpty, count := st.count + 1,
          rec_ := { st.rec_ with
            sequence := st.rec_.sequence ++ convert_fix nt_table (rtrim x) } } := by
    unfold load_step
    simp [hn2, hl, he, hq, hc, hi, hx, f1, f2, f3, getline, FASTA_HEADER_START,
      FASTQ_HEADER_START]
  exact ⟨_, key, by simp [LoadQ, hre, hrec, hbuf, hnum, hq, hc]⟩

theorem load_step_q_plus (nt_table : Int → Nat) (getId : BaseRecord → List Nat)
    (clear : BaseRecord → BaseRecord) (numseq_part : Nat) (st : LoadSt)
    (x : List Nat) (rest : List (List Nat)) (rec : BaseRecord)
    (buffer : List BaseRecord) (n : Nat)
    (hQ : LoadQ st (x :: rest) 1 rec buffer n) (hn : n ≠ numseq_part) (hrest : rest ≠ [])
    (hp : front x = 43) :
    ∃ st1 : LoadSt, load_step nt_table getId clear numseq_part st = LoadStep.next st1 ∧
      LoadQ st1 rest 2 rec buffer n := by
  obtain ⟨hl, he, hq, hc, hi, hrec, hbuf, hnum⟩ := hQ
  have hx : x ≠ [] := by
    intro h0; rw [h0] at hp; exact absurd hp (by decide)
  have f := front_rtrim_of_not_space x 43 hp (by decide) hx
  have hre := isEmpty_false_of_ne_nil rest hrest
  have hn2 : st.num_seq_read ≠ numseq_part := by rw [hnum]; exact hn
  have key : load_step nt_table getId clear numseq_part st
      = LoadStep.next { st with
          line := rtrim x, ifs := rest, eof := rest.isEmpty, count := st.count + 1 } := by
    unfold load_step
    simp [hn2, hl, he, hq, hc, hi, hx, f, getline, FASTA_HEADER_START, FASTQ_HEADER_START]
  exact ⟨_, key, by simp [LoadQ, hre, hrec, hbuf, hnum, hq, hl, hc]⟩

theorem load_step_q_qual (nt_table : Int → Nat) (getId : BaseRecord → List Nat)
    (clear : BaseRecord → BaseRecord) (numseq_part : Nat) (st : LoadSt)
    (x : List Nat) (rest : List (List Nat)) (rec : BaseRecord)
    (buffer : List BaseRecord) (n : Nat)
    (hQ : LoadQ st (x :: rest) 2 rec buffer n) (hn : n ≠ numseq_part) (hrest : rest ≠ [])
    (hx : x ≠ []) (h1 : front x ≠ 62) (h2 : front x ≠ 64) (h3 : front x ≠ 43) :
    ∃ st1 : LoadSt, load_step nt_table getId clear numseq_part st = LoadStep.next st1 ∧
      LoadQ st1 rest 3 { rec with quality := rtrim x } buffer n := by
  obtain ⟨hl, he, hq, hc, hi, hrec, hbuf, hnum⟩ := hQ
  have f1 := front_rtrim_ne x 62 (by decide) h1
  have f2 := front_rtrim_ne x 64 (by decide) h2
  have f3 := front_rtrim_ne x 43 (by decide) h3
  have hre := isEmpty_false_of_ne_nil rest hrest
  have hn2 : st.num_seq_read ≠ numseq_part := by rw [hnum]; exact hn
  have key : load_step nt_table getId clear numseq_part st
      = LoadStep.next { st with
          line := rtrim x, ifs := rest, eof := rest.isEmpty, count := st.count + 1,
          rec_ := { st.rec_ with quality := rtrim x } } := by
    unfold load_step
    simp [hn2, hl, he, hq, hc, hi, hx, f1, f2, f3, getline, FASTA_HEADER_START,
      FASTQ_HEADER_START]
  exact ⟨_, key, by simp [LoadQ, hre, hrec, hbuf, hnum, hq, hl, hc]⟩

theorem load_loop_q_trailing (nt_table : Int → Nat) (getId : BaseRecord → List Nat)
    (clear : BaseRecord → BaseRecord) (numseq_part : Nat) :
    ∀ (post : List (List Nat)) (st : LoadSt) (c : Int) (rec : BaseRecord)
      (buffer : List BaseRecord) (n : Nat),
      LoadQ st post c rec buffer n → n ≠ numseq_part → rec.isEmpty = false →
      post ≠ [] → (∀ l ∈ post, l = []) →
      ∀ fuel : Nat, post.length + 1 ≤ fuel →
      load_loop nt_table getId clear numseq_part fuel st
        = some (some (buffer ++ [pushed getId rec n]))
  | [], _, _, _, _, _, _, _, _, hne, _, _, _ => absurd rfl hne
  | [e], st, c, rec, buffer, n, hQ, hn, hr, _, hall, fuel, hfuel => by
      obtain ⟨f, rfl⟩ : ∃ f, fuel = f + 2 := ⟨fuel - 2, by simp at hfuel; omega⟩
      obtain ⟨hl, he, _, _, hi, hrec, hbuf, hnum⟩ := hQ
      have he0 : e = [] := hall e (List.mem_singleton.mpr rfl)
      subst he0
      have hn2 : st.num_seq_read ≠ numseq_part := by rw [hnum]; exact hn
      rw [load_loop_next _ _ _ _ _ _ _
        (load_step_empty_line nt_table getId clear _ st [] hn2 hl he hi)]
      have := load_loop_done nt_table getId clear numseq_part f _ _
        (load_step_last nt_table getId clear numseq_part
          { st with line := [], ifs := [], eof := ([] : List (List Nat)).isEmpty,
                    lastRec := ([] : List (List Nat)).isEmpty }
          hn2 rfl (by rw [← hrec] at hr; exact hr))
      rw [this]
      simp [hbuf, hrec, hnum]
  | e :: e2 :: post, st, c, rec, buffer, n, hQ, hn, hr, _, hall, fuel, hfuel => by
      obtain ⟨f, rfl⟩ : ∃ f, fuel = f + 1 := ⟨fuel - 1, by simp at hfuel; omega⟩
      obtain ⟨hl, he, hq, hc, hi, hrec, hbuf, hnum⟩ := hQ
      have he0 : e = [] := hall e (List.mem_cons_self _ _)
      subst he0
      have hn2 : st.num_seq_read ≠ numseq_part := by rw [hnum]; exact hn
      rw [load_loop_next _ _ _ _ _ _ _
        (load_step_empty_line nt_table getId clear _ st (e2 :: post) hn2 hl he hi)]
      exact load_loop_q_trailing nt_table getId clear numseq_part (e2 :: post)
        { st with line := [], ifs := e2 :: post, eof := (e2 :: post).isEmpty,
                  lastRec := (e2 :: post).isEmpty }
        c rec buffer n ⟨rfl, rfl, hq, hc, rfl, hrec, hbuf, hnum⟩ hn hr (by simp)
        (fun l hl => hall l (List.mem_cons_of_mem _ hl)) f
        (by simp only [List.length_cons] at hfuel ⊢; omega)

/-- The three lines behind the header of a FASTQ record. -/
theorem load_loop_q_tail (nt_table : Int → Nat) (getId : BaseRecord → List Nat)
    (clear : BaseRecord → BaseRecord) (numseq_part : Nat) (st : LoadSt)
    (s p u : List Nat) (rest : List (List Nat)) (rec : BaseRecord)
    (buffer : List BaseRecord) (n : Nat)
    (hQ : LoadQ st (s :: p :: u :: rest) 0 rec buffer n) (hn : n ≠ numseq_part)
    (hrest : rest ≠ [])
    (hs : s ≠ [] ∧ front s ≠ 62 ∧ front s ≠ 64 ∧ front s ≠ 43) (hp : front p = 43)
    (hu : u ≠ [] ∧ front u ≠ 62 ∧ front u ≠ 64 ∧ front u ≠ 43) :
    ∃ st3 : LoadSt,
      (∀ fuel : Nat, load_loop nt_table getId clear numseq_part (fuel + 3) st
        = load_loop nt_table getId clear numseq_part fuel st3) ∧
      LoadQ st3 rest 3
        { rec with sequence := rec.sequence ++ convert_fix nt_table (rtrim s),
                   quality := rtrim u } buffer n := by
  obtain ⟨st1, e1, q1⟩ := load_step_q_seq nt_table getId clear numseq_part st s _ rec buffer n
    hQ hn (by simp) hs.1 hs.2.1 hs.2.2.1 hs.2.2.2
  obtain ⟨st2, e2, q2⟩ := load_step_q_plus nt_table getId clear numseq_part st1 p _ _ buffer n
    q1 hn (by simp) hp
  obtain ⟨st3, e3, q3⟩ := load_step_q_qual nt_table getId clear numseq_part st2 u _ _ buffer n
    q2 hn hrest hu.1 hu.2.1 hu.2.2.1 hu.2.2.2
  refine ⟨st3, ?_, q3⟩
  intro fuel
  rw [load_loop_next _ _ _ _ _ _ _ e1, load_loop_next _ _ _ _ _ _ _ e2,
    load_loop_next _ _ _ _ _ _ _ e3]

theorem fastqLines_cons (r : FastqRec) (recs : List FastqRec) :
    fastqLines (r :: recs) = r.header :: r.seq :: r.plus :: r.qual :: fastqLines recs := by
  simp [fastqLines]

theorem fastqLines_length (recs : List FastqRec) : (fastqLines recs).length = 4 * recs.length := by
  induction recs with
  | nil => rfl
  | cons r recs ih => rw [fastqLines_cons]; simp only [List.length_cons, ih]; omega

theorem load_loop_fastq (nt_table : Int → Nat) (getId : BaseRecord → List Nat)
    (clear : BaseRecord → BaseRecord) (numseq_part : Nat) (post : List (List Nat))
    (hpost : post ≠ []) (hall : ∀ l ∈ post, l = []) :
    ∀ (recs : List FastqRec) (st : LoadSt) (cur : BaseRecord) (buffer : List BaseRecord)
      (n : Nat),
      LoadQ st (fastqLines recs ++ post) 3 cur buffer n → cur.isEmpty = false →
      n + 1 + recs.length ≤ numseq_part → (∀ r ∈ recs, FastqRefRec r) →
      ∀ fuel : Nat, (fastqLines recs ++ post).length + 1 ≤ fuel →
      load_loop nt_table getId clear numseq_part fuel st
        = some (some (buffer ++ loadSpecQ nt_table getId clear n cur recs))
  | [], st, cur, buffer, n, hQ, hr, hnum, _, fuel, hfuel => by
      simp only [fastqLines, List.flatMap_nil, List.nil_append] at hQ hfuel
      simp only [loadSpecQ]
      exact load_loop_q_trailing nt_table getId clear numseq_part post st 3 cur buffer n hQ
        (by omega) hr hpost hall fuel hfuel
  | r :: recs, st, cur, buffer, n, hQ, hr, hnum, hrecs, fuel, hfuel => by
      rw [fastqLines_cons] at hQ hfuel
      simp only [List.cons_append, List.length_cons] at hQ hfuel
      simp only [List.length_cons] at hnum
      obtain ⟨f, rfl⟩ : ∃ f, fuel = f + 3 + 1 := ⟨fuel - 4, by omega⟩
      obtain ⟨hh, hs, hp, hu⟩ := hrecs r (List.mem_cons_self _ _)
      have hne : fastqLines recs ++ post ≠ [] := by simp [hpost]
      obtain ⟨st1, e1, q1⟩ := load_step_q_header nt_table getId clear numseq_part st r.header
        _ 3 cur buffer n hQ (by omega) hr (by simp) hh
      obtain ⟨st4, e4, q4⟩ := load_loop_q_tail nt_table getId clear numseq_part st1 r.seq r.plus
        r.qual _ _ _ (n + 1) q1 (by omega) hne hs hp hu
      rw [load_loop_next _ _ _ _ _ _ _ e1, e4 f]
      have ih := load_loop_fastq nt_table getId clear numseq_part post hpost hall recs st4
        (fastqRec nt_table clear { pushed getId cur n with isEmpty := true } r)
        (buffer ++ [pushed getId cur n]) (n + 1) q4 rfl (by omega)
        (fun x hx => hrecs x (List.mem_cons_of_mem _ hx)) f (by omega)
      rw [ih]
      simp [loadSpecQ]

theorem loadSpecQ_view (nt_table : Int → Nat) (getId : BaseRecord → List Nat)
    (clear : BaseRecord → BaseRecord) (hclear : ∀ r, (clear r).sequence = []) :
    ∀ (recs : List FastqRec) (n : Nat) (cur : BaseRecord),
      (loadSpecQ nt_table getId clear n cur recs).map recViewQ
        = (n, cur.header, cur.format, cur.sequence, cur.quality)
            :: fastqView nt_table (n + 1) recs
  | [], n, cur => by simp [loadSpecQ, recViewQ, pushed, fastqView]
  | r :: recs, n, cur => by
      simp only [loadSpecQ, List.map_cons]
      rw [loadSpecQ_view nt_table getId clear hclear recs]
      simp [recViewQ, pushed, fastqView, fastqRec, hclear]

theorem fastqView_length (nt_table : Int → Nat) :
    ∀ (recs : List FastqRec) (n : Nat), (fastqView nt_table n recs).length = recs.length
  | [], _ => rfl
  | r :: recs, n => by simp [fastqView, fastqView_length nt_table recs]

theorem fastqView_getElem (nt_table : Int → Nat) :
    ∀ (recs : List FastqRec) (n i : Nat) (r : FastqRec),
      recs[i]? = some r →
      (fastqView nt_table n recs)[i]?
        = some (n + i, rtrim r.header, BIO_FORMAT.FASTQ, convert_fix nt_table (rtrim r.seq),
            rtrim r.qual)
  | [], _, _, _, h => by simp at h
  | x :: recs, n, 0, r, h => by
      have hx : x = r := by simpa using h
      subst hx
      simp [fastqView]
  | x :: recs, n, i + 1, r, h => by
      have h2 : recs[i]? = some r := by simpa using h
      have ih := fastqView_getElem nt_table recs (n + 1) i r h2
      simp only [fastqView, List.getElem?_cons_succ]
      rw [ih]
      have e : n + 1 + i = n + (i + 1) := by omega
      rw [e]

theorem load_fastq_view (nt_table : Int → Nat) (getId : BaseRecord → List Nat)
    (clear : BaseRecord → BaseRecord) (rec0 : BaseRecord) (numseq_part : Nat)
    (recs : List FastqRec) (post : List (List Nat)) (fuel : Nat)
    (hrec0 : rec0.isEmpty = true) (hclear : ∀ r, (clear r).sequence = [])
    (hrecs : ∀ r ∈ recs, FastqRefRec r) (hpost : post ≠ []) (hall : ∀ l ∈ post, l = [])
    (hnum : recs.length ≤ numseq_part)
    (hfuel : (fastqLines recs ++ post).length + 2 ≤ fuel) :
    ∃ buffer : List BaseRecord,
      References.load nt_table getId clear rec0 numseq_part (fastqLines recs ++ post) [] fuel
        = some (some buffer) ∧
      buffer.map recViewQ = fastqView nt_table 0 recs := by
  cases recs with
  | nil =>
    have h := load_loop_start nt_table getId clear numseq_part [] (by simp) post
      { ifs := fastqLines [] ++ post, eof := false, line := [], rec_ := rec0, isFastq := true,
        lastRec := false, count := 0, num_seq_read := 0, buffer := [] }
      hrec0 rfl (fun h => absurd h (by simp)) (Nat.zero_le _) (by simp [fastqLines]) hall
      fuel hfuel
    exact ⟨_, h, by simp [fastqView]⟩
  | cons r recs1 =>
    rw [fastqLines_cons] at hfuel ⊢
    simp only [List.cons_append, List.length_cons] at hfuel hnum ⊢
    obtain ⟨f, rfl⟩ : ∃ f, fuel = f + 3 + 1 := ⟨fuel - 4, by omega⟩
    obtain ⟨hh, hs, hp, hu⟩ := hrecs r (List.mem_cons_self _ _)
    have hne : fastqLines recs1 ++ post ≠ [] := by simp [hpost]
    obtain ⟨st1, e1, q1⟩ := load_step_q_first_header nt_table getId clear numseq_part
      { ifs := r.header :: r.seq :: r.plus :: r.qual :: (fastqLines recs1 ++ post),
        eof := false, line := [], rec_ := rec0, isFastq := true,
        lastRec := false, count := 0, num_seq_read := 0, buffer := [] }
      r.header _ 0 rec0 [] 0 ⟨rfl, rfl, rfl, rfl, rfl, rfl, rfl, rfl⟩ (by omega) hrec0
      (by simp) hh
    obtain ⟨st4, e4, q4⟩ := load_loop_q_tail nt_table getId clear numseq_part st1 r.seq r.plus
      r.qual _ _ _ 0 q1 (by omega) hne hs hp hu
    have h := load_loop_fastq nt_table getId clear numseq_part post hpost hall recs1 st4
      (fastqRec nt_table clear rec0 r) [] 0 q4 rfl (by omega)
      (fun x hx => hrecs x (List.mem_cons_of_mem _ hx)) f (by omega)
    refine ⟨[] ++ loadSpecQ nt_table getId clear 0 (fastqRec nt_table clear rec0 r) recs1,
      ?_, ?_⟩
    · unfold References.load
      rw [load_loop_next _ _ _ _ _ _ _ e1, e4 f, h]
    · simp only [List.nil_append]
      rw [loadSpecQ_view nt_table getId clear hclear]
      simp [fastqView, fastqRec, hclear]

/-- Reference loading of FASTQ text that `References::load` reads without mishap: `k` records
of four lines each (`@` header; a non-empty sequence line and a non-empty quality line that
start with none of `>`, `@`, `+`; a `+` line), followed by the empty segment behind the last
newline (or more empty lines), and `numseq_part ≥ k`. With a default-constructed record that
is marked empty and a `clear` that empties the sequence, the call returns with exactly `k`
records, the `i`-th with `nid = i`, the right-trimmed line 0 as header, the `convert_fix`
image of the right-trimmed line 1 as sequence, the right-trimmed line 3 as quality and
format FASTQ. -/
theorem load_fastq_plain_records (nt_table : Int → Nat) (getId : BaseRecord → List Nat)
    (clear : BaseRecord → BaseRecord) (rec0 : BaseRecord) (numseq_part : Nat)
    (recs : List FastqRec) (post : List (List Nat)) (fuel : Nat)
    (hrec0 : rec0.isEmpty = true) (hclear : ∀ r, (clear r).sequence = [])
    (hrecs : ∀ r ∈ recs, FastqRefRec r) (hpost : post ≠ []) (hall : ∀ l ∈ post, l = [])
    (hnum : recs.length ≤ numseq_part)
    (hfuel : (fastqLines recs ++ post).length + 2 ≤ fuel) :
    ∃ buffer : List BaseRecord,
      References.load nt_table getId clear rec0 numseq_part (fastqLines recs ++ post) [] fuel
        = some (some buffer) ∧
      buffer.length = recs.length ∧
      ∀ (i : Nat) (b : BaseRecord) (r : FastqRec),
        buffer[i]? = some b → recs[i]? = some r →
        b.nid = i ∧ b.header = rtrim r.header ∧ b.format = BIO_FORMAT.FASTQ ∧
        b.sequence = convert_fix nt_table (rtrim r.seq) ∧ b.quality = rtrim r.qual := by
  obtain ⟨buffer, hload, hview⟩ := load_fastq_view nt_table getId clear rec0 numseq_part recs
    post fuel hrec0 hclear hrecs hpost hall hnum hfuel
  have hlen : buffer.length = recs.length := by
    have h := congrArg List.length hview
    rw [List.length_map, fastqView_length] at h
    exact h
  refine ⟨buffer, hload, hlen, ?_⟩
  intro i b r hb hr
  have h1 : (buffer.map recViewQ)[i]? = some (recViewQ b) := by
    rw [List.getElem?_map, hb]
    rfl
  rw [hview, fastqView_getElem nt_table recs 0 i r hr] at h1
  have h2 := Option.some.inj h1
  simp only [recViewQ, Prod.mk.injEq, Nat.zero_add] at h2
  exact ⟨h2.1.symm, h2.2.1.symm, h2.2.2.1.symm, h2.2.2.2.1.symm, h2.2.2.2.2.symm⟩

/-- The statement instantiated at the text `@r1 / ACGT / + / IIII / @r2 / GG / + / II` with a
final newline and `numseq_part = 2`. -/
theorem load_fastq_plain_records_example :
    ∃ buffer : List BaseRecord,
      References.load exNtTable (fun r => r.header) BaseRecord.clear BaseRecord.default 2
        (fastqLines [⟨[64, 114, 49], [65, 67, 71, 84], [43], [73, 73, 73, 73]⟩,
          ⟨[64, 114, 50], [71, 71], [43], [73, 73]⟩] ++ [[]]) [] 12
        = some (some buffer) ∧
      buffer.length = ([⟨[64, 114, 49], [65, 67, 71, 84], [43], [73, 73, 73, 73]⟩,
          ⟨[64, 114, 50], [71, 71], [43], [73, 73]⟩] : List FastqRec).length ∧
      ∀ (i : Nat) (b : BaseRecord) (r : FastqRec),
        buffer[i]? = some b →
        ([⟨[64, 114, 49], [65, 67, 71, 84], [43], [73, 73, 73, 73]⟩,
          ⟨[64, 114, 50], [71, 71], [43], [73, 73]⟩] : List FastqRec)[i]? = some r →
        b.nid = i ∧ b.header = rtrim r.header ∧ b.format = BIO_FORMAT.FASTQ ∧
        b.sequence = convert_fix exNtTable (rtrim r.seq) ∧ b.quality = rtrim r.qual :=
  load_fastq_plain_records exNtTable (fun r => r.header) BaseRecord.clear BaseRecord.default 2
    [⟨[64, 114, 49], [65, 67, 71, 84], [43], [73, 73, 73, 73]⟩,
      ⟨[64, 114, 50], [71, 71], [43], [73, 73]⟩] [[]] 12
    (by decide) (fun _ => rfl) (by decide) (by decide) (by decide) (by decide) (by decide)

/-! ### Claim about FASTQ reference loading -/

/-- C30, the code at a failing input: the FASTQ text `@r1 / ACGT / + / @@II / @r2 / GG / + /
II` (with a final newline) and `numseq_part = 2`. The quality line `@@II` of the first record
starts with `@` and is taken for a header: the first buffered record has an empty quality,
the second has the header `@@II` and an empty sequence, and the record `@r2` is not loaded. -/
theorem load_fastq_quality_taken_for_header :
    References.load exNtTable (fun r => r.header) BaseRecord.clear BaseRecord.default 2
        [[64, 114, 49], [65, 67, 71, 84], [43], [64, 64, 73, 73],
         [64, 114, 50], [71, 71], [43], [73, 73], []] [] 12
      = some (some [
          { id := [64, 114, 49], header := [64, 114, 49], sequence := [0, 1, 2, 3],
            quality := [], format := BIO_FORMAT.FASTQ, nid := 0, isEmpty := false },
          { id := [64, 64, 73, 73], header := [64, 64, 73, 73], sequence := [],
            quality := [], format := BIO_FORMAT.FASTQ, nid := 1, isEmpty := false }]) := by
  decide

/-- The same path at two more inputs. Without a newline behind the last quality line the
`continue` of the quality branch skips the `ifs.eof()` test, the failed `getline` leaves the
quality line in `line`, and its `convert_fix` image is appended to the sequence. A quality
line starting with `+` is skipped like a separator, and the quality stays empty. -/
theorem load_fastq_quality_examples :
    References.load exNtTable (fun r => r.header) BaseRecord.clear BaseRecord.default 1
        [[64, 114, 49], [65, 67, 71, 84], [43], [73, 73, 73, 73]] [] 12
      = some (some [
          { id := [64, 114, 49], header := [64, 114, 49], sequence := [0, 1, 2, 3, 0, 0, 0, 0],
            quality := [73, 73, 73, 73], format := BIO_FORMAT.FASTQ, nid := 0,
            isEmpty := false }]) ∧
    References.load exNtTable (fun r => r.header) BaseRecord.clear BaseRecord.default 1
        [[64, 114, 49], [65, 67, 71, 84], [43], [43, 73, 73, 73], []] [] 12
      = some (some [
          { id := [64, 114, 49], header := [64, 114, 49], sequence := [0, 1, 2, 3],
            quality := [], format := BIO_FORMAT.FASTQ, nid := 0, isEmpty := false }]) := by
  decide

/-! ### Claim about the table reads of `convert_fix` -/

/-- The result of `convert_fix` depends on `nt_table` only at the indices of
`convert_fix_lookups`. -/
theorem convert_fix_congr_lookups (t1 t2 : Int → Nat) :
    ∀ seq : List Nat, (∀ i ∈ convert_fix_lookups seq, t1 i = t2 i) →
      convert_fix t1 seq = convert_fix t2 seq
  | [], _ => rfl
  | c :: rest, h => by
      by_cases hc : c = 32
      · subst hc
        have h2 : ∀ i ∈ convert_fix_lookups rest, t1 i = t2 i := by
          intro i hi
          exact h i (by simpa [convert_fix_lookups] using hi)
        simp only [convert_fix, ne_eq, not_true_eq_false, if_false,
          convert_fix_congr_lookups t1 t2 rest h2]
      · have e : convert_fix_lookups (c :: rest) = charInt c :: convert_fix_lookups rest := by
          simp [convert_fix_lookups, hc]
        rw [e] at h
        have h1 : t1 (charInt c) = t2 (charInt c) := h _ (List.mem_cons_self _ _)
        have h2 : ∀ i ∈ convert_fix_lookups rest, t1 i = t2 i :=
          fun i hi => h i (List.mem_cons_of_mem _ hi)
        simp only [convert_fix, ne_eq, hc, not_false_eq_true, if_true, h1,
          convert_fix_congr_lookups t1 t2 rest h2]

/-- Every table read comes from a character of the string that is not 32. -/
theorem mem_convert_fix_lookups (i : Int) :
    ∀ seq : List Nat, i ∈ convert_fix_lookups seq ↔ ∃ c ∈ seq, c ≠ 32 ∧ i = charInt c
  | [] => by simp [convert_fix_lookups]
  | c :: rest => by
      by_cases hc : c = 32
      · subst hc
        simp [convert_fix_lookups, mem_convert_fix_lookups i rest]
      · simp only [convert_fix_lookups, ne_eq, hc, not_false_eq_true, if_true, List.mem_cons,
          mem_convert_fix_lookups i rest, exists_eq_or_imp, true_and]

/-- For a string of bytes in `0..127` every table read of `convert_fix` is at an index in
`[0, 128)`. -/
theorem convert_fix_lookups_low (seq : List Nat) (h : ∀ c ∈ seq, c < 128) :
    ∀ i ∈ convert_fix_lookups seq, 0 ≤ i ∧ i < 128 := by
  intro i hi
  obtain ⟨c, hc, _, rfl⟩ := (mem_convert_fix_lookups i seq).mp hi
  have := h c hc
  unfold charInt
  rw [if_pos this]
  omega

/-- A byte in `128..255` anywhere in the string makes `convert_fix` read `nt_table` at the
negative index `byte - 256`. -/
theorem convert_fix_lookups_high (seq : List Nat) (c : Nat) (hc : c ∈ seq) (h128 : 128 ≤ c)
    (h256 : c < 256) :
    ((c : Int) - 256) ∈ convert_fix_lookups seq ∧ (c : Int) - 256 < 0 := by
  refine ⟨(mem_convert_fix_lookups _ seq).mpr ⟨c, hc, by omega, ?_⟩, by omega⟩
  unfold charInt
  rw [if_neg (by omega)]

/-- C31, the code at a failing input: for the two-byte string `A`, `0xC8` (bytes 65 and 200)
`convert_fix` reads `nt_table` at the indices 65 and -56, the second one below the table, and
what it stores in the second position is whatever stands at index -56. -/
theorem convert_fix_lookup_below_table :
    convert_fix_lookups [65, 200] = [65, -56] ∧
    (∀ nt_table : Int → Nat, convert_fix nt_table [65, 200] = [nt_table 65, nt_table (-56)]) ∧
    ¬ ((0 : Int) ≤ -56 ∧ (-56 : Int) < 256) := by
  refine ⟨by decide, ?_, by decide⟩
  intro nt_table
  simp [convert_fix, charInt]

end Sortmerna
